import Mathlib

/-!
# CustomProfiler: an instrumented call-tree profiler

A shallow embedding of `Profiler.h` / `Profiler.cpp` (classes `PerfNode` and
`IProfiler`, and the free function `NearZero`).

* `shared_ptr<PerfNode>` values are addresses into an explicit object store
  (`IProfiler.heap`); the null pointer is `none`.  `make_shared` allocates at the
  next free address, so an address is the position of the object in the store.
* `unsigned int` fields wrap modulo `2^32`, `unsigned __int64` fields modulo `2^64`,
  `LONGLONG` values are two's-complement 64-bit integers.
* `double` is IEEE-754 binary64 with round-to-nearest-even: a finite value is the
  exact rational it denotes, every arithmetic result is rounded by `Double.round`.
  The sign of zero is not represented; no computation of the program can observe it
  (every divisor is converted from an integer or is a quotient of a converted
  integer by `1000.0`, and `NearZero` returns the literal `0.0`).
* The clocks (`QueryPerformanceFrequency`, `QueryPerformanceCounter`, `__rdtsc`)
  are inputs: every call carries the readings it would observe.
* Dereferencing a null or dangling pointer is undefined behaviour in the source;
  the embedding returns `none` there.
-/

namespace CustomProfiler

/-! ## Machine numbers -/

/-- Reduction of a natural number to `unsigned int`. -/
def wrap32 (n : Nat) : Nat := n % 4294967296

/-- Reduction of a natural number to `unsigned __int64`. -/
def wrap64 (n : Nat) : Nat := n % 18446744073709551616

/-- Reduction of an integer to `LONGLONG` (two's complement, 64 bits). -/
def wrapI64 (z : Int) : Int := (z + 9223372036854775808) % 18446744073709551616 - 9223372036854775808

/-- An IEEE-754 binary64 value: not-a-number, an infinity, or a finite value given by
the rational number it denotes. -/
inductive Double where
  | nan : Double
  | inf (negative : Bool) : Double
  | fin (value : ℚ) : Double
deriving DecidableEq

namespace Double

/-- The rational `2^k`. -/
def pow2 (k : Int) : ℚ :=
  match k with
  | Int.ofNat n => ((2 ^ n : Nat) : ℚ)
  | Int.negSucc n => 1 / ((2 ^ (n + 1) : Nat) : ℚ)

/-- Position of the leading binary digit of `n`, by repeated halving. -/
def log2Fuel : Nat → Nat → Nat
  | 0, _ => 0
  | fuel + 1, n => if n < 2 then 0 else log2Fuel fuel (n / 2) + 1

/-- Floor of the binary logarithm of a positive natural number. -/
def log2 (n : Nat) : Nat := log2Fuel n n

/-- Floor of the binary logarithm of a positive rational: the binade of `a`. -/
def ilog2 (a : ℚ) : Int :=
  let k : Int := (log2 a.num.natAbs : Int) - (log2 a.den : Int)
  if a < pow2 k then k - 1 else k

/-- Nearest integer to a non-negative rational, ties to the even neighbour. -/
def roundHalfEven (x : ℚ) : Int :=
  let f : Int := x.num / (x.den : Int)
  let r : ℚ := x - f
  if r < 1 / 2 then f
  else if 1 / 2 < r then f + 1
  else if f % 2 = 0 then f else f + 1

/-- Rounding of an exact result to binary64: 53 significant bits in the binade of
the value, gradual underflow below `2^-1022`, overflow to an infinity from `2^1024`. -/
def round (q : ℚ) : Double :=
  if q = 0 then fin 0
  else
    let a : ℚ := if q < 0 then -q else q
    let e : Int := max (ilog2 a) (-1022)
    let ulp : ℚ := pow2 (e - 52)
    let r : ℚ := (roundHalfEven (a / ulp) : ℚ) * ulp
    if pow2 1024 ≤ r then inf (decide (q < 0))
    else fin (if q < 0 then -r else r)

/-- Conversion `static_cast<double>` of an unsigned integer. -/
def ofNat (n : Nat) : Double := round (n : ℚ)

/-- Conversion of a signed integer to `double`. -/
def ofInt (z : Int) : Double := round (z : ℚ)

/-- Division of doubles. -/
def div : Double → Double → Double
  | nan, _ => nan
  | _, nan => nan
  | inf _, inf _ => nan
  | inf s, fin y => inf (xor s (decide (y < 0)))
  | fin _, inf _ => fin 0
  | fin x, fin y =>
    if y = 0 then (if x = 0 then nan else inf (decide (x < 0)))
    else round (x / y)

/-- Multiplication of doubles. -/
def mul : Double → Double → Double
  | nan, _ => nan
  | _, nan => nan
  | inf s, inf t => inf (xor s t)
  | inf s, fin y => if y = 0 then nan else inf (xor s (decide (y < 0)))
  | fin x, inf t => if x = 0 then nan else inf (xor (decide (x < 0)) t)
  | fin x, fin y => round (x * y)

/-- Addition of doubles. -/
def add : Double → Double → Double
  | nan, _ => nan
  | _, nan => nan
  | inf s, inf t => if s = t then inf s else nan
  | inf s, fin _ => inf s
  | fin _, inf t => inf t
  | fin x, fin y => round (x + y)

/-- Absolute value of a double. -/
def abs : Double → Double
  | nan => nan
  | inf _ => inf false
  | fin x => fin (if x < 0 then -x else x)

/-- Comparison `<` of doubles; false as soon as one side is not a number. -/
def lt : Double → Double → Bool
  | nan, _ => false
  | _, nan => false
  | inf s, inf t => s && !t
  | inf s, fin _ => s
  | fin _, inf t => !t
  | fin x, fin y => decide (x < y)

end Double


/-! ## Data model (Profiler.h) -/

/-- Readings of the three clocks that one timer operation observes:
`QueryPerformanceFrequency`, `QueryPerformanceCounter` and `__rdtsc`. -/
structure Clock where
  frequency : Int
  counter : Int
  cycles : Nat
deriving DecidableEq

/-- Class `PerfNode`: the function node. Pointers are addresses into the object store. -/
structure PerfNode where
  function_name_ : String
  children_ : List Nat
  parent_ : Option Nat
  qpcfrequency_ : Double
  qpcelapsedtime_ : Double
  qpcstarttime_ : Int
  qpcendtime_ : Int
  cyclestarttime_ : Nat
  cycleendtime_ : Nat
  cycleelapsedtime_ : Nat
  recursion_ : Nat
  calls_ : Nat
deriving DecidableEq

/-- Class `IProfiler`, together with the store of the `PerfNode` objects allocated so far. -/
structure IProfiler where
  heap : List PerfNode
  nodelist_ : List Nat
  root_ : Option Nat
  current_ : Option Nat
  level_ : Nat
deriving DecidableEq

/-- One call on the profiler's mutation surface, with the clock readings it observes. -/
inductive Call where
  | enter (name : String) (clk : Clock) : Call
  | leave (clk : Clock) : Call
deriving DecidableEq

/-- One insertion `file << ...` into the report stream. -/
inductive Item where
  | text (s : String) : Item
  | uint (n : Nat) : Item
  | setprecision (digits : Nat) : Item
  | dbl (x : Double) : Item
  | endl : Item
deriving DecidableEq

/-! ## Operations (Profiler.cpp) -/

/-- Constructor `PerfNode::PerfNode(name)`. The two `LARGE_INTEGER` snapshots are left
uninitialised by the source; they are written by `TimerStart` / `TimerEnd` before they
are read, and are represented by `0` until then. -/
def PerfNode.new (name : String) : PerfNode :=
  { function_name_ := name, children_ := [], parent_ := none,
    qpcfrequency_ := Double.fin 0, qpcelapsedtime_ := Double.fin 0,
    qpcstarttime_ := 0, qpcendtime_ := 0,
    cyclestarttime_ := 0, cycleendtime_ := 0, cycleelapsedtime_ := 0,
    recursion_ := 0, calls_ := 1 }

/-- Method `PerfNode::TimerStart`. -/
def PerfNode.TimerStart (n : PerfNode) (clk : Clock) : PerfNode :=
  { n with
    qpcfrequency_ := Double.div (Double.ofInt (wrapI64 clk.frequency)) (Double.round 1000),
    qpcstarttime_ := wrapI64 clk.counter,
    cyclestarttime_ := wrap64 clk.cycles }

/-- Method `PerfNode::TimerEnd`. -/
def PerfNode.TimerEnd (n : PerfNode) (clk : Clock) : PerfNode :=
  { n with
    qpcendtime_ := wrapI64 clk.counter,
    qpcelapsedtime_ :=
      Double.add n.qpcelapsedtime_
        (Double.div (Double.ofInt (wrapI64 (wrapI64 clk.counter - n.qpcstarttime_))) n.qpcfrequency_),
    cycleendtime_ := wrap64 clk.cycles,
    cycleelapsedtime_ :=
      wrap64 (n.cycleelapsedtime_ + wrap64 (wrap64 clk.cycles + 18446744073709551616 - n.cyclestarttime_)) }

/-- Function `NearZero`: `0.0` if `abs(number) < 0.001`, otherwise the number. -/
def NearZero (number : Double) : Double :=
  if Double.lt (Double.abs number) (Double.round (1 / 1000)) then Double.fin 0
  else number

/-- The value inserted after `"  %: "` by `PerfNode::PrintTimer` for a node that has a parent. -/
def percentOfParent (n parent : PerfNode) : Double :=
  NearZero
    (Double.mul
      (Double.div (Double.ofNat n.cycleelapsedtime_) (Double.ofNat parent.cycleelapsedtime_))
      (Double.round 100))

/-- Method `PerfNode::PrintTimer` on the node at address `i`: the insertions it performs. -/
def PrintTimer (heap : List PerfNode) (i : Nat) (level : Nat) : Option (List Item) :=
  match heap[i]? with
  | none => none
  | some n =>
    let line : List Item :=
      List.replicate level (Item.text "\t") ++
        [Item.text "\"", Item.text n.function_name_, Item.text "\"  ",
         Item.text "Calls: ", Item.uint n.calls_,
         Item.text "  Time: ", Item.setprecision 3, Item.dbl (NearZero n.qpcelapsedtime_),
         Item.text "  Cycles: ", Item.uint n.cycleelapsedtime_]
    match n.parent_ with
    | none =>
      some (line ++ [Item.text "  %: ", Item.setprecision 3, Item.dbl (Double.round 1), Item.endl])
    | some j =>
      match heap[j]? with
      | none => none
      | some parent =>
        some (line ++
          [Item.text "  %: ", Item.setprecision 3, Item.dbl (percentOfParent n parent), Item.endl])

/-- Method `PerfNode::PrintNode`: the node's own line, then every child in `children_`
order one level deeper. `fuel` bounds the depth of the descent. -/
def PrintNode (heap : List PerfNode) : Nat → Nat → Nat → Option (List Item)
  | 0, _, _ => none
  | fuel + 1, i, level =>
    match PrintTimer heap i level, heap[i]? with
    | some line, some n =>
      n.children_.foldl
        (fun acc ch =>
          match acc, PrintNode heap fuel ch (level + 1) with
          | some out, some sub => some (out ++ sub)
          | _, _ => none)
        (some line)
    | _, _ => none

/-- Method `IProfiler::CreateNode`: allocate the node and record it in `nodelist_`. -/
def CreateNode (p : IProfiler) (name : String) : IProfiler × Nat :=
  ({ p with heap := p.heap ++ [PerfNode.new name],
            nodelist_ := p.nodelist_ ++ [p.heap.length] },
   p.heap.length)

/-- Constructor `IProfiler::IProfiler`, starting from the empty object store. -/
def IProfiler.new (clk : Clock) : IProfiler :=
  { heap := [(PerfNode.new "Root").TimerStart clk],
    nodelist_ := [0, 0],
    root_ := some 0,
    current_ := some 0,
    level_ := 0 }

/-- A write through the pointer `i`: the object at that address is replaced by its
image under `f`; undefined when the address holds no object. -/
def modify (heap : List PerfNode) (i : Nat) (f : PerfNode → PerfNode) : Option (List PerfNode) :=
  match heap[i]? with
  | none => none
  | some n => some (heap.set i (f n))

/-- The loop of `IProfiler::FindChildren` over the children of the current node: the
first child with the given name gets `++calls_` and is returned. -/
def findLoop (heap : List PerfNode) (name : String) :
    List Nat → Option (List PerfNode × Option Nat)
  | [] => some (heap, none)
  | ch :: rest =>
    match heap[ch]? with
    | none => none
    | some node =>
      if node.function_name_ = name then
        some (heap.set ch { node with calls_ := wrap32 (node.calls_ + 1) }, some ch)
      else findLoop heap name rest

/-- Method `IProfiler::FindChildren`. -/
def FindChildren (p : IProfiler) (name : String) : Option (IProfiler × Option Nat) :=
  match p.current_ with
  | none => none
  | some c =>
    match p.heap[c]? with
    | none => none
    | some cur =>
      match findLoop p.heap name cur.children_ with
      | none => none
      | some (heap, r) => some ({ p with heap := heap }, r)

/-- The tail of `IProfiler::Enter` shared by both non-recursive cases:
`current_ = node; node->TimerStart();`. -/
def enterNode (p : IProfiler) (node : Nat) (clk : Clock) : Option IProfiler :=
  match modify p.heap node (fun n => n.TimerStart clk) with
  | none => none
  | some heap => some { p with current_ := some node, heap := heap }

/-- The branch of `IProfiler::Enter` that creates the child:
`node = CreateNode(name); node->parent_ = current_; current_->children_.push_back(node);`. -/
def createChild (p : IProfiler) (c : Nat) (name : String) : Option (IProfiler × Nat) :=
  match CreateNode p name with
  | (p, node) =>
    match modify p.heap node (fun n => { n with parent_ := p.current_ }) with
    | none => none
    | some heap =>
      match modify heap c (fun n => { n with children_ := n.children_ ++ [node] }) with
      | none => none
      | some heap => some ({ p with heap := heap }, node)

/-- Method `IProfiler::Enter`. -/
def Enter (p : IProfiler) (name : String) (clk : Clock) : Option IProfiler :=
  let p : IProfiler := { p with level_ := wrap32 (p.level_ + 1) }
  match p.current_ with
  | none => none
  | some c =>
    match p.heap[c]? with
    | none => none
    | some cur =>
      if cur.function_name_ = name then
        match modify p.heap c (fun n => { n with recursion_ := wrap32 (n.recursion_ + 1) }) with
        | none => none
        | some heap => some { p with heap := heap }
      else
        match FindChildren p name with
        | none => none
        | some (p, some node) => enterNode p node clk
        | some (p, none) =>
          match createChild p c name with
          | none => none
          | some (p, node) => enterNode p node clk

/-- Method `IProfiler::Leave`. -/
def Leave (p : IProfiler) (clk : Clock) : Option IProfiler :=
  let p : IProfiler := { p with level_ := wrap32 (p.level_ + 4294967295) }
  match p.current_ with
  | none => none
  | some c =>
    match p.heap[c]? with
    | none => none
    | some cur =>
      if cur.recursion_ ≠ 0 then
        match modify p.heap c (fun n => { n with recursion_ := wrap32 (n.recursion_ + 4294967295) }) with
        | none => none
        | some heap => some { p with heap := heap }
      else
        match modify p.heap c (fun n => n.TimerEnd clk) with
        | none => none
        | some heap => some { p with heap := heap, current_ := cur.parent_ }

/-- Destructor `IProfiler::~IProfiler`: end the root's timer. -/
def Finalize (p : IProfiler) (clk : Clock) : Option IProfiler :=
  match p.root_ with
  | none => none
  | some r =>
    match modify p.heap r (fun n => n.TimerEnd clk) with
    | none => none
    | some heap => some { p with heap := heap }

/-- Method `IProfiler::PrintTree`: the insertions into the report file. -/
def PrintTree (p : IProfiler) : Option (List Item) :=
  match p.root_ with
  | none => none
  | some r => PrintNode p.heap (p.heap.length + 1) r 0

/-- One call applied to a state. -/
def step (p : IProfiler) : Call → Option IProfiler
  | Call.enter name clk => Enter p name clk
  | Call.leave clk => Leave p clk

/-- A sequence of calls applied in order; `none` as soon as one of them is undefined. -/
def run (p : IProfiler) : List Call → Option IProfiler
  | [] => some p
  | c :: cs =>
    match step p c with
    | none => none
    | some q => run q cs

/-- The fields of a node that describe the tree: name, children, parent, call count and
recursion depth (the timing fields are left out). -/
def PerfNode.shape (n : PerfNode) : String × List Nat × Option Nat × Nat × Nat :=
  (n.function_name_, n.children_, n.parent_, n.calls_, n.recursion_)

/-! ## Specification-level definitions and invariants -/

/-- The tree that a store of nodes describes: how many objects there are, and for every
address the name, parent, children and recursion depth found there (defaults at an
address that holds no object). -/
structure Tree where
  size : Nat
  name : Nat → String
  parent : Nat → Option Nat
  children : Nat → List Nat
  recursion : Nat → Nat

/-- The tree described by an object store. -/
def treeOf (heap : List PerfNode) : Tree :=
  { size := heap.length,
    name := fun i => match heap[i]? with | some n => n.function_name_ | none => "",
    parent := fun i => match heap[i]? with | some n => n.parent_ | none => none,
    children := fun i => match heap[i]? with | some n => n.children_ | none => [],
    recursion := fun i => match heap[i]? with | some n => n.recursion_ | none => 0 }

/-- The tree after a child named `name` has been created under `c`. -/
def Tree.grow (t : Tree) (c : Nat) (name : String) : Tree :=
  { size := t.size + 1,
    name := Function.update t.name t.size name,
    parent := Function.update t.parent t.size (some c),
    children := Function.update (Function.update t.children t.size []) c (t.children c ++ [t.size]),
    recursion := Function.update t.recursion t.size 0 }

/-- The tree after the recursion depth of node `c` has been set to `r`. -/
def Tree.withRecursion (t : Tree) (c r : Nat) : Tree :=
  { t with recursion := Function.update t.recursion c r }

/-- The three ways `Enter(name)` can change the tree and the cursor: a recursive
re-entry of the current node, a descent into an existing child, a descent into a child
created on the spot. -/
def EnterEffect (t : Tree) (c : Nat) (name : String) (cur' : Option Nat) (t' : Tree) : Prop :=
  (t.name c = name ∧ cur' = some c ∧
      t' = t.withRecursion c (wrap32 (t.recursion c + 1))) ∨
  (t.name c ≠ name ∧ ∃ ch ∈ t.children c, t.name ch = name ∧ cur' = some ch ∧ t' = t) ∨
  (t.name c ≠ name ∧ (∀ ch ∈ t.children c, t.name ch ≠ name) ∧ cur' = some t.size ∧
      t' = t.grow c name)

/-- The two ways `Leave()` can change the tree and the cursor: the end of a recursive
re-entry, or the end of the current node's visit. -/
def LeaveEffect (t : Tree) (c : Nat) (cur' : Option Nat) (t' : Tree) : Prop :=
  (t.recursion c ≠ 0 ∧ cur' = some c ∧
      t' = t.withRecursion c (wrap32 (t.recursion c + 4294967295))) ∨
  (t.recursion c = 0 ∧ cur' = t.parent c ∧ t' = t)

/-- The tree invariant: the root is the node at address 0, is named "Root" and has no
parent; child and parent pointers agree; a child is allocated after its parent; the
children of a node carry pairwise distinct names, all different from the node's own. -/
structure TreeInv (t : Tree) : Prop where
  pos : 0 < t.size
  rootName : t.name 0 = "Root"
  rootParent : t.parent 0 = none
  child : ∀ i, i < t.size → ∀ ch ∈ t.children i, i < ch ∧ ch < t.size ∧ t.parent ch = some i
  par : ∀ i, i < t.size → ∀ j, t.parent i = some j →
    j < i ∧ i ∈ t.children j ∧ t.name j ≠ t.name i
  orphan : ∀ i, i < t.size → t.parent i = none → i = 0
  distinct : ∀ i, i < t.size → (t.children i).Pairwise (fun a b => t.name a ≠ t.name b)

/-- A chain of parent pointers from a node down to the root, top first. -/
def Linked (t : Tree) : List Nat → Prop
  | [] => False
  | [r] => r = 0 ∧ 0 < t.size
  | c :: q :: rest => t.parent c = some q ∧ q < c ∧ c < t.size ∧ Linked t (q :: rest)

/-- The call stack that a chain of nodes stands for, innermost call first: every node
accounts for one call plus one call per recursive re-entry. -/
def expand (t : Tree) : List Nat → List String
  | [] => []
  | i :: rest => List.replicate (t.recursion i + 1) (t.name i) ++ expand t rest

/-- The cursor invariant for the call stack `S` (names of the outstanding `Enter`s,
innermost first): the parent chain of the current node reaches the root, stands for
the stack `S` on top of the root's own entry, and no node off that chain is in the
middle of a recursion. -/
def StackInv (t : Tree) (cur : Nat) (S : List String) : Prop :=
  ∃ rest, Linked t (cur :: rest) ∧ expand t (cur :: rest) = S ++ ["Root"] ∧
    ∀ i, i < t.size → i ∉ cur :: rest → t.recursion i = 0

/-- The invariant of a profiler whose outstanding `Enter`s are `S`. -/
def Inv (p : IProfiler) (S : List String) : Prop :=
  p.root_ = some 0 ∧ p.level_ = wrap32 S.length ∧ TreeInv (treeOf p.heap) ∧
    (∀ i, (treeOf p.heap).recursion i < 4294967296) ∧
    ∃ cur, p.current_ = some cur ∧ StackInv (treeOf p.heap) cur S

/-- The number of outstanding `Enter`s after the calls, starting with `d` of them;
`none` when some `Leave` comes with no `Enter` outstanding, that is when some prefix
holds more `Leave`s than `Enter`s (plus `d`). -/
def depthAfter : Nat → List Call → Option Nat
  | d, [] => some d
  | d, Call.enter _ _ :: cs => depthAfter (d + 1) cs
  | 0, Call.leave _ :: _ => none
  | d + 1, Call.leave _ :: cs => depthAfter d cs

/-- The largest number of outstanding `Enter`s reached during the calls, starting with
`d` of them. -/
def peakDepth : Nat → List Call → Nat
  | d, [] => d
  | d, Call.enter _ _ :: cs => max d (peakDepth (d + 1) cs)
  | d, Call.leave _ :: cs => max d (peakDepth (d - 1) cs)

/-- The state reached from `p` once the child named `A` has been created under `c` (at
the address `p.heap.length`) and visited: the cursor is back at `c`, the child has been
entered `j` times in all (counted modulo `2^32`), and nothing else has changed. -/
def Aggregated (p : IProfiler) (c : Nat) (cur : PerfNode) (A : String) (q : IProfiler)
    (j : Nat) : Prop :=
  q.current_ = some c ∧ q.root_ = p.root_ ∧ q.heap.length = p.heap.length + 1 ∧
  q.heap[c]? = some { cur with children_ := cur.children_ ++ [p.heap.length] } ∧
  (∃ node, q.heap[p.heap.length]? = some node ∧ node.function_name_ = A ∧
    node.parent_ = some c ∧ node.children_ = [] ∧ node.recursion_ = 0 ∧ node.calls_ = j) ∧
  (∀ i, i ≠ c → i < p.heap.length → q.heap[i]? = p.heap[i]?)

/-- The calls `Enter(A); Leave()` repeated once per pair of clock readings. -/
def enterLeavePairs (A : String) : List (Clock × Clock) → List Call
  | [] => []
  | ck :: cks => Call.enter A ck.1 :: Call.leave ck.2 :: enterLeavePairs A cks

/-- The names on the parent chain of node `i`, root first; `fuel` bounds the length of
the chain. -/
def namePathAux (t : Tree) : Nat → Nat → List String
  | 0, _ => []
  | fuel + 1, i =>
    match t.parent i with
    | none => [t.name i]
    | some j => namePathAux t fuel j ++ [t.name i]

/-- The root-to-node name path of node `i`. A parent has a smaller address than its
child, so a chain from `i` has at most `i + 1` nodes. -/
def namePath (t : Tree) (i : Nat) : List String := namePathAux t (i + 1) i

/-- Runs of consecutive equal names collapsed to one. -/
def collapse : List String → List String
  | [] => []
  | [a] => [a]
  | a :: b :: rest => if a = b then collapse (b :: rest) else a :: collapse (b :: rest)

/-- The call stacks that occur during the calls, bottom first: the stack at the start
and the stack after every call. -/
def stacksSeen : List String → List Call → List (List String)
  | B, [] => [B]
  | B, Call.enter name _ :: cs => B :: stacksSeen (B ++ [name]) cs
  | B, Call.leave _ :: cs => B :: stacksSeen B.dropLast cs

/-- The call paths observed in a session on a fresh profiler: every call stack that
occurred, with "Root" at the bottom and runs of equal names collapsed. -/
def observedPaths (cs : List Call) : List (List String) :=
  (stacksSeen ["Root"] cs).map collapse

/-- The root-to-node name paths of the tree. -/
def HasPath (t : Tree) (path : List String) : Prop := ∃ i, i < t.size ∧ namePath t i = path

/-- Depth-first pre-order of the subtree of node `i`: the node, then the subtrees of its
children in `children_` order. `fuel` bounds the depth of the descent. -/
def preorder (t : Tree) : Nat → Nat → List Nat
  | 0, _ => []
  | fuel + 1, i => i :: (t.children i).flatMap (preorder t fuel)

/-- Depth of node `i` below the root: the number of `parent_` links that lead from it to
a node without parent. `fuel` bounds the length of the climb. -/
def depthOf (t : Tree) : Nat → Nat → Nat
  | 0, _ => 0
  | fuel + 1, i =>
    match t.parent i with
    | none => 0
    | some j => depthOf t fuel j + 1

/-- Node `a` is `x` or one of its ancestors. -/
inductive Anc (t : Tree) (a : Nat) : Nat → Prop where
  | refl : Anc t a a
  | step {x j : Nat} : t.parent x = some j → Anc t a j → Anc t a x

/-- A valid state: the tree is well formed with the root at address 0, and `current_`,
when it is not null, points to a node. -/
def Valid (p : IProfiler) : Prop :=
  TreeInv (treeOf p.heap) ∧ p.root_ = some 0 ∧ ∀ c, p.current_ = some c → c < p.heap.length

/-- The clock readings that a call observes. -/
def Call.clock : Call → Clock
  | Call.enter _ clk => clk
  | Call.leave clk => clk

/-- The accounting invariant of the cycle counter at the reading `T` (the latest one):
no start snapshot and no total exceeds `T`, and in every open node (the current node
and its ancestors) the total does not exceed the start snapshot of the open visit. -/
def CycInv (p : IProfiler) (T : Nat) : Prop :=
  T < 18446744073709551616 ∧ ∀ (i : Nat) (n : PerfNode), p.heap[i]? = some n →
    n.cyclestarttime_ ≤ T ∧ n.cycleelapsedtime_ ≤ T ∧
    (∀ c, p.current_ = some c → Anc (treeOf p.heap) i c →
      n.cycleelapsedtime_ ≤ n.cyclestarttime_)

/-- The cycle readings `rs` are in non-decreasing order from `T` on and stay below
`2^64`: the cycle counter does not run backwards and does not wrap around. -/
def cyclesSorted (T : Nat) (rs : List Nat) : Prop :=
  List.Chain (fun a b => a ≤ b) T rs ∧ ∀ r ∈ rs, r < 18446744073709551616

/-- A double that is not negative: a finite value at least `0`, or `+inf`. -/
def Double.NonNeg (x : Double) : Prop :=
  x = Double.inf false ∨ ∃ r : ℚ, x = Double.fin r ∧ 0 ≤ r

/-- A double that is at least the smallest positive normal number `2^-1022`. -/
def Double.Normal (x : Double) : Prop :=
  x = Double.inf false ∨ ∃ r : ℚ, x = Double.fin r ∧ (2 : ℚ) ^ (-1022 : ℤ) ≤ r

/-- The readings `clks` of the performance counter are usable: the counter values are
in non-decreasing order from `T` on and lie between `0` and `2^63`, and every frequency
reading lies between `1` and `2^63`. -/
def qpcSorted (T : Int) (clks : List Clock) : Prop :=
  List.Chain (fun a b => a ≤ b) T (clks.map (fun k => k.counter)) ∧
    ∀ k ∈ clks, 0 ≤ k.counter ∧ k.counter < 9223372036854775808 ∧
      1 ≤ k.frequency ∧ k.frequency < 9223372036854775808

/-- The accounting invariant of the performance counter at the counter reading `T` (the
latest one): every node holds a stored frequency between `2^-12` and `2^55`, a start
snapshot between `0` and `T`, and a wall-clock total that is not negative. -/
def QpcInv (p : IProfiler) (T : Int) : Prop :=
  0 ≤ T ∧ T < 9223372036854775808 ∧ ∀ (i : Nat) (n : PerfNode), p.heap[i]? = some n →
    (∃ y : ℚ, n.qpcfrequency_ = Double.fin y ∧ 1 / 2 ^ 12 ≤ y ∧ y ≤ 2 ^ 55) ∧
    0 ≤ n.qpcstarttime_ ∧ n.qpcstarttime_ ≤ T ∧ Double.NonNeg n.qpcelapsedtime_

/-- Comparison `<=` of doubles; false as soon as one side is not a number. -/
def Double.le : Double → Double → Bool
  | Double.nan, _ => false
  | _, Double.nan => false
  | Double.inf s, Double.inf t => s || !t
  | Double.inf s, Double.fin _ => s
  | Double.fin _, Double.inf t => !t
  | Double.fin x, Double.fin y => decide (x ≤ y)

/-- A wall-clock total that the program can hold: `+inf`, or a finite double that is not
negative (a rational that rounding leaves unchanged). -/
def Double.Settled (x : Double) : Prop :=
  x = Double.inf false ∨ ∃ a : ℚ, x = Double.fin a ∧ 0 ≤ a ∧ Double.round a = Double.fin a

/-- The two accumulators of a node: the cycle total and the wall-clock total. -/
def PerfNode.totals (n : PerfNode) : Nat × Double :=
  (n.cycleelapsedtime_, n.qpcelapsedtime_)

/-- Node `i` is reachable from node `r` through `children_` lists. -/
inductive Reach (t : Tree) (r : Nat) : Nat → Prop where
  | root : Reach t r r
  | child {i ch : Nat} : Reach t r i → ch ∈ t.children i → Reach t r ch

/-- Tree well-formedness for the root `r`: the root has no parent; every node appearing
in a `children_` list exists and has `parent_` equal to the owner of the list; it
appears there once, and in no other list; every node is reachable from the root
through `children_`; the names within a `children_` list are pairwise distinct and
none equals the owner's name. -/
structure WellFormed (t : Tree) (r : Nat) : Prop where
  rootNode : r < t.size
  rootParent : t.parent r = none
  owner : ∀ i, i < t.size → ∀ ch ∈ t.children i, ch < t.size ∧ t.parent ch = some i
  once : ∀ i, i < t.size → (t.children i).Nodup
  single : ∀ i j, i < t.size → j < t.size → ∀ ch, ch ∈ t.children i → ch ∈ t.children j → i = j
  reach : ∀ i, i < t.size → Reach t r i
  names : ∀ i, i < t.size → (t.children i).Pairwise (fun a b => t.name a ≠ t.name b) ∧
    ∀ ch ∈ t.children i, t.name ch ≠ t.name i

/-- A call without the clock readings it observes: the name for an `Enter`, nothing
for a `Leave`. -/
def Call.scope : Call → Option String
  | Call.enter name _ => some name
  | Call.leave _ => none

/-- The state without the timing fields of its nodes: the shape of every node, the node
list, the root and current pointers and the depth counter. -/
def IProfiler.shape (p : IProfiler) :
    List (String × List Nat × Option Nat × Nat × Nat) × List Nat × Option Nat × Option Nat × Nat :=
  (p.heap.map PerfNode.shape, p.nodelist_, p.root_, p.current_, p.level_)

/-! # Theorems -/

/-! ## The tree seen through the pointers -/

theorem getElem?_set_heap (heap : List PerfNode) (c i : Nat) (n : PerfNode)
    (hc : c < heap.length) :
    (heap.set c n)[i]? = if i = c then some n else heap[i]? := by
  by_cases h : i = c
  · subst h; simp [hc]
  · simp [h, List.getElem?_set_ne (Ne.symm h)]

theorem getElem?_concat_heap (heap : List PerfNode) (i : Nat) (n : PerfNode) :
    (heap ++ [n])[i]? = if i = heap.length then some n else heap[i]? := by
  rcases Nat.lt_trichotomy i heap.length with h | h | h
  · simp [List.getElem?_append_left h, Nat.ne_of_lt h]
  · subst h; simp
  · have h1 : heap[i]? = none := List.getElem?_eq_none (Nat.le_of_lt h)
    have h2 : (heap ++ [n])[i]? = none :=
      List.getElem?_eq_none (by simp only [List.length_append, List.length_singleton]; omega)
    simp [h1, h2, Nat.ne_of_gt h]

theorem treeOf_set (heap : List PerfNode) (c : Nat) (n : PerfNode) (hc : c < heap.length) :
    treeOf (heap.set c n) =
      { size := heap.length,
        name := Function.update (treeOf heap).name c n.function_name_,
        parent := Function.update (treeOf heap).parent c n.parent_,
        children := Function.update (treeOf heap).children c n.children_,
        recursion := Function.update (treeOf heap).recursion c n.recursion_ } := by
  simp only [treeOf, List.length_set, Tree.mk.injEq, true_and]
  refine ⟨?_, ?_, ?_, ?_⟩ <;> funext i <;> by_cases h : i = c <;>
    simp [Function.update, h, getElem?_set_heap, hc]

theorem treeOf_concat (heap : List PerfNode) (n : PerfNode) :
    treeOf (heap ++ [n]) =
      { size := heap.length + 1,
        name := Function.update (treeOf heap).name heap.length n.function_name_,
        parent := Function.update (treeOf heap).parent heap.length n.parent_,
        children := Function.update (treeOf heap).children heap.length n.children_,
        recursion := Function.update (treeOf heap).recursion heap.length n.recursion_ } := by
  simp only [treeOf, List.length_append, List.length_singleton, Tree.mk.injEq, true_and]
  refine ⟨?_, ?_, ?_, ?_⟩ <;> funext i <;> by_cases h : i = heap.length <;>
    simp [Function.update, h, getElem?_concat_heap]

theorem lookup_of_lt (heap : List PerfNode) (i : Nat) (h : i < heap.length) :
    ∃ n, heap[i]? = some n :=
  ⟨heap[i], List.getElem?_eq_getElem h⟩

theorem lt_of_lookup {heap : List PerfNode} {i : Nat} {n : PerfNode} (h : heap[i]? = some n) :
    i < heap.length := by
  rcases Nat.lt_or_ge i heap.length with h1 | h1
  · exact h1
  · rw [List.getElem?_eq_none h1] at h; cases h

theorem modify_eq (heap : List PerfNode) (i : Nat) (f : PerfNode → PerfNode) (n : PerfNode)
    (h : heap[i]? = some n) : modify heap i f = some (heap.set i (f n)) := by
  simp [modify, h]

/-- What the search loop of `FindChildren` does when every child pointer is valid. -/
theorem findLoop_cases (heap : List PerfNode) (name : String) (children : List Nat)
    (hvalid : ∀ ch ∈ children, ch < heap.length) :
    (findLoop heap name children = some (heap, none) ∧
        ∀ ch ∈ children, (treeOf heap).name ch ≠ name) ∨
    (∃ ch node, ch ∈ children ∧ heap[ch]? = some node ∧ node.function_name_ = name ∧
        findLoop heap name children =
          some (heap.set ch { node with calls_ := wrap32 (node.calls_ + 1) }, some ch)) := by
  induction children with
  | nil => left; simp [findLoop]
  | cons a rest ih =>
    obtain ⟨n, hn⟩ := lookup_of_lt heap a (hvalid a (List.mem_cons_self _ _))
    by_cases hname : n.function_name_ = name
    · right
      exact ⟨a, n, List.mem_cons_self _ _, hn, hname, by simp [findLoop, hn, hname]⟩
    · rcases ih (fun ch hch => hvalid ch (List.mem_cons_of_mem _ hch)) with h | h
      · left
        refine ⟨by simp [findLoop, hn, hname, h.1], ?_⟩
        intro ch hch
        rcases List.mem_cons.mp hch with h1 | h1
        · subst h1; simpa [treeOf, hn] using hname
        · exact h.2 ch h1
      · right
        obtain ⟨ch, node, h1, h2, h3, h4⟩ := h
        exact ⟨ch, node, List.mem_cons_of_mem _ h1, h2, h3, by simp [findLoop, hn, hname, h4]⟩

theorem treeOf_lookup {heap : List PerfNode} {i : Nat} {n : PerfNode} (h : heap[i]? = some n) :
    (treeOf heap).name i = n.function_name_ ∧ (treeOf heap).parent i = n.parent_ ∧
    (treeOf heap).children i = n.children_ ∧ (treeOf heap).recursion i = n.recursion_ := by
  simp [treeOf, h]

theorem Leave_rec (p : IProfiler) (clk : Clock) (c : Nat) (cur : PerfNode)
    (hc : p.current_ = some c) (hcur : p.heap[c]? = some cur) (hr : cur.recursion_ ≠ 0) :
    Leave p clk = some { p with
      level_ := wrap32 (p.level_ + 4294967295),
      heap := p.heap.set c { cur with recursion_ := wrap32 (cur.recursion_ + 4294967295) } } := by
  simp [Leave, hc, hcur, hr, modify]

theorem Leave_pop (p : IProfiler) (clk : Clock) (c : Nat) (cur : PerfNode)
    (hc : p.current_ = some c) (hcur : p.heap[c]? = some cur) (hr : cur.recursion_ = 0) :
    Leave p clk = some { p with
      level_ := wrap32 (p.level_ + 4294967295),
      heap := p.heap.set c (cur.TimerEnd clk),
      current_ := cur.parent_ } := by
  simp [Leave, hc, hcur, hr, modify]

theorem Enter_rec (p : IProfiler) (name : String) (clk : Clock) (c : Nat) (cur : PerfNode)
    (hc : p.current_ = some c) (hcur : p.heap[c]? = some cur)
    (hname : cur.function_name_ = name) :
    Enter p name clk = some { p with
      level_ := wrap32 (p.level_ + 1),
      heap := p.heap.set c { cur with recursion_ := wrap32 (cur.recursion_ + 1) } } := by
  simp [Enter, hc, hcur, hname, modify]

theorem Enter_found (p : IProfiler) (name : String) (clk : Clock) (c ch : Nat)
    (cur node : PerfNode)
    (hc : p.current_ = some c) (hcur : p.heap[c]? = some cur)
    (hname : cur.function_name_ ≠ name) (hnode : p.heap[ch]? = some node)
    (hfind : findLoop p.heap name cur.children_ =
      some (p.heap.set ch { node with calls_ := wrap32 (node.calls_ + 1) }, some ch)) :
    Enter p name clk = some { p with
      level_ := wrap32 (p.level_ + 1),
      heap := p.heap.set ch ({ node with calls_ := wrap32 (node.calls_ + 1) }.TimerStart clk),
      current_ := some ch } := by
  have hlt := lt_of_lookup hnode
  simp [Enter, hc, hcur, hname, FindChildren, hfind, enterNode, modify, hlt]

theorem Enter_new (p : IProfiler) (name : String) (clk : Clock) (c : Nat) (cur : PerfNode)
    (hc : p.current_ = some c) (hcur : p.heap[c]? = some cur)
    (hname : cur.function_name_ ≠ name)
    (hfind : findLoop p.heap name cur.children_ = some (p.heap, none)) :
    Enter p name clk = some { p with
      level_ := wrap32 (p.level_ + 1),
      nodelist_ := p.nodelist_ ++ [p.heap.length],
      heap := p.heap.set c { cur with children_ := cur.children_ ++ [p.heap.length] } ++
        [{ PerfNode.new name with parent_ := some c }.TimerStart clk],
      current_ := some p.heap.length } := by
  have hlt := lt_of_lookup hcur
  have hne : c ≠ p.heap.length := Nat.ne_of_lt hlt
  have e1 : (p.heap ++ [PerfNode.new name])[p.heap.length]? = some (PerfNode.new name) := by
    simp
  have e2 : ((p.heap ++ [PerfNode.new name]).set p.heap.length
      { PerfNode.new name with parent_ := some c })[c]? = some cur := by
    rw [List.getElem?_set_ne (Ne.symm hne), List.getElem?_append_left hlt, hcur]
  simp only [Enter, hc, hcur, hname, FindChildren, hfind, createChild, CreateNode, modify,
    enterNode, e1, e2, if_false]
  have e3 : (((p.heap ++ [PerfNode.new name]).set p.heap.length
      { PerfNode.new name with parent_ := some c }).set c
        { cur with children_ := cur.children_ ++ [p.heap.length] })[p.heap.length]? =
      some { PerfNode.new name with parent_ := some c } := by
    rw [List.getElem?_set_ne hne]; simp
  simp only [e3, Option.some.injEq, IProfiler.mk.injEq, and_true, true_and]
  apply List.ext_getElem?
  intro i
  by_cases h1 : i = p.heap.length
  · subst h1; simp
  · by_cases h2 : i = c
    · subst h2
      simp [List.getElem?_set_ne (Ne.symm h1), List.getElem?_append_left, hlt]
    · simp only [List.getElem?_set_ne (Ne.symm h1), List.getElem?_set_ne (Ne.symm h2)]
      rcases Nat.lt_or_ge i p.heap.length with h3 | h3
      · rw [List.getElem?_append_left h3, List.getElem?_append_left (by simpa using h3),
          List.getElem?_set_ne (Ne.symm h2)]
      · rw [List.getElem?_eq_none, List.getElem?_eq_none] <;>
          simp only [List.length_append, List.length_set, List.length_singleton] <;> omega

theorem treeOf_eq_of_lookup (heap heap' : List PerfNode) (hlen : heap'.length = heap.length)
    (h : ∀ i : Nat,
      (heap'[i]?).map (fun n : PerfNode => (n.function_name_, n.parent_, n.children_, n.recursion_)) =
      (heap[i]?).map (fun n : PerfNode => (n.function_name_, n.parent_, n.children_, n.recursion_))) :
    treeOf heap' = treeOf heap := by
  simp only [treeOf, hlen, Tree.mk.injEq, true_and]
  refine ⟨?_, ?_, ?_, ?_⟩ <;> funext i <;> have hi := h i <;>
    cases h1 : heap'[i]? <;> cases h2 : heap[i]? <;> simp_all

theorem Leave_cases (p : IProfiler) (clk : Clock) (c : Nat)
    (hc : p.current_ = some c) (hlt : c < p.heap.length) :
    ∃ q, Leave p clk = some q ∧ q.root_ = p.root_ ∧ q.level_ = wrap32 (p.level_ + 4294967295) ∧
      LeaveEffect (treeOf p.heap) c q.current_ (treeOf q.heap) := by
  obtain ⟨cur, hcur⟩ := lookup_of_lt p.heap c hlt
  obtain ⟨h1, h2, h3, h4⟩ := treeOf_lookup hcur
  by_cases hr : cur.recursion_ = 0
  · refine ⟨_, Leave_pop p clk c cur hc hcur hr, rfl, rfl, Or.inr ⟨by rw [h4, hr], by rw [h2], ?_⟩⟩
    apply treeOf_eq_of_lookup
    · simp
    · intro i
      simp only [getElem?_set_heap _ _ _ _ hlt]
      by_cases hi : i = c
      · subst hi; simp [hcur, PerfNode.TimerEnd]
      · simp [hi]
  · refine ⟨_, Leave_rec p clk c cur hc hcur hr, rfl, rfl, Or.inl ⟨by rw [h4]; exact hr, hc, ?_⟩⟩
    simp only [treeOf_set _ _ _ hlt, Tree.withRecursion]
    simp [← h1, ← h2, ← h3, ← h4, treeOf]

theorem Enter_cases (p : IProfiler) (name : String) (clk : Clock) (c : Nat)
    (hc : p.current_ = some c) (hlt : c < p.heap.length)
    (hch : ∀ ch ∈ (treeOf p.heap).children c, ch < p.heap.length) :
    ∃ q, Enter p name clk = some q ∧ q.root_ = p.root_ ∧ q.level_ = wrap32 (p.level_ + 1) ∧
      EnterEffect (treeOf p.heap) c name q.current_ (treeOf q.heap) := by
  obtain ⟨cur, hcur⟩ := lookup_of_lt p.heap c hlt
  obtain ⟨h1, h2, h3, h4⟩ := treeOf_lookup hcur
  by_cases hname : cur.function_name_ = name
  · refine ⟨_, Enter_rec p name clk c cur hc hcur hname, rfl, rfl, Or.inl ⟨by rw [h1, hname], hc, ?_⟩⟩
    simp only [treeOf_set _ _ _ hlt, Tree.withRecursion]
    simp [← h1, ← h2, ← h3, ← h4, treeOf]
  · rw [h3] at hch
    rcases findLoop_cases p.heap name cur.children_ hch with ⟨hfind, hnone⟩ | ⟨ch, node, hmem, hnode, hnn, hfind⟩
    · refine ⟨_, Enter_new p name clk c cur hc hcur hname hfind, rfl, rfl,
        Or.inr (Or.inr ⟨by rw [h1]; exact hname, by rw [h3]; exact hnone, rfl, ?_⟩)⟩
      simp only [treeOf_concat, treeOf_set _ _ _ hlt, Tree.grow, List.length_set]
      simp only [PerfNode.TimerStart, PerfNode.new, ← h1, ← h2, ← h3, ← h4, Function.update_eq_self]
      have hne : p.heap.length ≠ c := Nat.ne_of_gt hlt
      simp only [Tree.mk.injEq, true_and, treeOf]
      exact ⟨Function.update_comm hne.symm _ _ _, trivial⟩
    · have hlt2 := lt_of_lookup hnode
      refine ⟨_, Enter_found p name clk c ch cur node hc hcur hname hnode hfind, rfl, rfl,
        Or.inr (Or.inl ⟨by rw [h1]; exact hname, ch, by rw [h3]; exact hmem,
          by rw [(treeOf_lookup hnode).1]; exact hnn, rfl, ?_⟩)⟩
      apply treeOf_eq_of_lookup
      · simp
      · intro i
        simp only [getElem?_set_heap _ _ _ _ hlt2]
        by_cases hi : i = ch
        · subst hi; simp [hnode, PerfNode.TimerStart]
        · simp [hi]

/-! ## Well-formedness of the tree -/

theorem TreeInv.of_recursion {t : Tree} (h : TreeInv t) (c r : Nat) :
    TreeInv (t.withRecursion c r) :=
  ⟨h.pos, h.rootName, h.rootParent, h.child, h.par, h.orphan, h.distinct⟩

theorem TreeInv.grow {t : Tree} (h : TreeInv t) (c : Nat) (name : String) (hc : c < t.size)
    (hname : t.name c ≠ name) (hnone : ∀ ch ∈ t.children c, t.name ch ≠ name) :
    TreeInv (t.grow c name) := by
  have hpos := h.pos
  have hcs : c ≠ t.size := Nat.ne_of_lt hc
  have hchild_lt : ∀ i, i < t.size → ∀ ch ∈ t.children i, ch ≠ t.size :=
    fun i hi ch hch => Nat.ne_of_lt (h.child i hi ch hch).2.1
  refine ⟨?_, ?_, ?_, ?_, ?_, ?_, ?_⟩
  · simp only [Tree.grow]; omega
  · simp only [Tree.grow]
    rw [Function.update_noteq (Nat.ne_of_lt hpos)]; exact h.rootName
  · simp only [Tree.grow]
    rw [Function.update_noteq (Nat.ne_of_lt hpos)]; exact h.rootParent
  · intro i hi ch hch
    simp only [Tree.grow] at hi hch ⊢
    by_cases hic : i = c
    · subst hic
      rw [Function.update_same] at hch
      rcases List.mem_append.mp hch with h1 | h1
      · obtain ⟨a, b, d⟩ := h.child i hc ch h1
        refine ⟨a, by omega, ?_⟩
        rw [Function.update_noteq (Nat.ne_of_lt b)]; exact d
      · have : ch = t.size := by simpa using h1
        subst this
        exact ⟨hc, by omega, by rw [Function.update_same]⟩
    · rw [Function.update_noteq hic] at hch
      by_cases his : i = t.size
      · subst his; rw [Function.update_same] at hch; cases hch
      · rw [Function.update_noteq his] at hch
        have hi2 : i < t.size := by omega
        obtain ⟨a, b, d⟩ := h.child i hi2 ch hch
        refine ⟨a, by omega, ?_⟩
        rw [Function.update_noteq (Nat.ne_of_lt b)]; exact d
  · intro i hi j hj
    simp only [Tree.grow] at hi hj ⊢
    by_cases his : i = t.size
    · subst his
      rw [Function.update_same] at hj
      have : c = j := by simpa using hj
      subst this
      refine ⟨hc, ?_, ?_⟩
      · rw [Function.update_same]; simp
      · rw [Function.update_noteq hcs, Function.update_same]; exact hname
    · rw [Function.update_noteq his] at hj
      have hi2 : i < t.size := by omega
      obtain ⟨a, b, d⟩ := h.par i hi2 j hj
      have hjs : j ≠ t.size := by omega
      refine ⟨a, ?_, ?_⟩
      · by_cases hjc : j = c
        · subst hjc; rw [Function.update_same]; exact List.mem_append_left _ b
        · rw [Function.update_noteq hjc, Function.update_noteq hjs]; exact b
      · rw [Function.update_noteq hjs, Function.update_noteq his]; exact d
  · intro i hi hp
    simp only [Tree.grow] at hi hp
    by_cases his : i = t.size
    · subst his; rw [Function.update_same] at hp; cases hp
    · rw [Function.update_noteq his] at hp
      exact h.orphan i (by omega) hp
  · intro i hi
    simp only [Tree.grow] at hi ⊢
    have key : ∀ k, k < t.size → ∀ l : List Nat, (∀ x ∈ l, x < t.size) →
        l.Pairwise (fun a b => t.name a ≠ t.name b) →
        l.Pairwise (fun a b => Function.update t.name t.size name a ≠
          Function.update t.name t.size name b) := by
      intro k _ l hl hp
      refine List.Pairwise.imp_of_mem ?_ hp
      intro a b ha hb hab
      rw [Function.update_noteq (Nat.ne_of_lt (hl a ha)),
        Function.update_noteq (Nat.ne_of_lt (hl b hb))]
      exact hab
    by_cases hic : i = c
    · subst hic
      rw [Function.update_same, List.pairwise_append]
      refine ⟨key i hc _ (fun x hx => (h.child i hc x hx).2.1) (h.distinct i hc), by simp, ?_⟩
      intro a ha b hb
      have : b = t.size := by simpa using hb
      subst this
      rw [Function.update_same, Function.update_noteq (Nat.ne_of_lt (h.child i hc a ha).2.1)]
      exact hnone a ha
    · rw [Function.update_noteq hic]
      by_cases his : i = t.size
      · subst his; rw [Function.update_same]; exact List.Pairwise.nil
      · rw [Function.update_noteq his]
        have hi2 : i < t.size := by omega
        exact key i hi2 _ (fun x hx => (h.child i hi2 x hx).2.1) (h.distinct i hi2)

/-! ## The cursor and the call stack -/

theorem Linked.bound {t : Tree} : ∀ {path : List Nat}, Linked t path → ∀ i ∈ path, i < t.size
  | [], h, _, _ => h.elim
  | [r], h, i, hi => by
    have : i = r := by simpa using hi
    subst this; rw [h.1]; exact h.2
  | c :: q :: rest, h, i, hi => by
    rcases List.mem_cons.mp hi with h1 | h1
    · subst h1; exact h.2.2.1
    · exact Linked.bound h.2.2.2 i h1

theorem Linked.lt_head {t : Tree} : ∀ {rest : List Nat} {c : Nat}, Linked t (c :: rest) →
    ∀ i ∈ rest, i < c
  | [], _, _, _, hi => by cases hi
  | q :: rest, c, h, i, hi => by
    rcases List.mem_cons.mp hi with h1 | h1
    · subst h1; exact h.2.1
    · exact Nat.lt_trans (Linked.lt_head h.2.2.2 i h1) h.2.1

theorem Linked.head_not_mem {t : Tree} {rest : List Nat} {c : Nat} (h : Linked t (c :: rest)) :
    c ∉ rest := fun hc => Nat.lt_irrefl c (h.lt_head c hc)

theorem Linked.congr {t t' : Tree} (hsize : t.size ≤ t'.size) :
    ∀ {path : List Nat}, (∀ i ∈ path, t'.parent i = t.parent i) → Linked t path → Linked t' path
  | [], _, h => h.elim
  | [r], _, h => ⟨h.1, Nat.lt_of_lt_of_le h.2 hsize⟩
  | c :: q :: rest, hp, h =>
    ⟨by rw [hp c (List.mem_cons_self _ _)]; exact h.1, h.2.1, Nat.lt_of_lt_of_le h.2.2.1 hsize,
      Linked.congr hsize (fun i hi => hp i (List.mem_cons_of_mem _ hi)) h.2.2.2⟩

theorem Linked.withRecursion {t : Tree} {path : List Nat} (c r : Nat) (h : Linked t path) :
    Linked (t.withRecursion c r) path :=
  @Linked.congr t (t.withRecursion c r) (Nat.le_refl _) path (fun _ _ => rfl) h

theorem expand_congr {t t' : Tree} :
    ∀ {path : List Nat},
      (∀ i ∈ path, t'.name i = t.name i ∧ t'.recursion i = t.recursion i) →
      expand t' path = expand t path
  | [], _ => rfl
  | i :: rest, h => by
    simp only [expand]
    rw [(h i (List.mem_cons_self _ _)).1, (h i (List.mem_cons_self _ _)).2,
      expand_congr (fun j hj => h j (List.mem_cons_of_mem _ hj))]

theorem expand_ne_nil (t : Tree) (i : Nat) (rest : List Nat) : expand t (i :: rest) ≠ [] := by
  simp [expand, List.replicate_succ]

theorem expand_eq_nil {t : Tree} {path : List Nat} (h : expand t path = []) : path = [] := by
  cases path with
  | nil => rfl
  | cons i rest => exact absurd h (expand_ne_nil t i rest)

theorem length_expand_head (t : Tree) (i : Nat) (rest : List Nat) :
    t.recursion i + 1 ≤ (expand t (i :: rest)).length := by
  simp [expand]

theorem StackInv.lt_size {t : Tree} {cur : Nat} {S : List String} (h : StackInv t cur S) :
    cur < t.size := by
  obtain ⟨rest, hl, _, _⟩ := h
  exact hl.bound cur (List.mem_cons_self _ _)

theorem StackInv.root_of_nil {t : Tree} {cur : Nat} (h : StackInv t cur []) : cur = 0 := by
  obtain ⟨rest, hl, he, _⟩ := h
  simp only [expand, List.nil_append] at he
  have hlen := congrArg List.length he
  simp only [List.length_append, List.length_replicate, List.length_singleton] at hlen
  have hr : expand t rest = [] := List.length_eq_zero.mp (by omega)
  have := expand_eq_nil hr
  subst this
  exact hl.1

theorem Inv_new (clk : Clock) : Inv (IProfiler.new clk) [] := by
  refine ⟨rfl, rfl, ?_, ?_, 0, rfl, [], ⟨rfl, by simp [IProfiler.new, treeOf]⟩, ?_, ?_⟩
  · refine ⟨by simp [IProfiler.new, treeOf], ?_, ?_, ?_, ?_, ?_, ?_⟩ <;>
      simp [IProfiler.new, treeOf, PerfNode.new, PerfNode.TimerStart]
  · intro i
    simp only [IProfiler.new, treeOf, PerfNode.new, PerfNode.TimerStart]
    cases i <;> simp
  · simp [IProfiler.new, treeOf, PerfNode.new, PerfNode.TimerStart, expand]
  · intro i hi hni
    simp [IProfiler.new, treeOf] at hi
    subst hi
    simp at hni

theorem StackInv_enter {t t' : Tree} {cur : Nat} {S : List String} {name : String}
    {cur' : Option Nat} (hT : TreeInv t) (hrec : ∀ i, t.recursion i < 4294967296)
    (hS : StackInv t cur S) (hb : S.length + 1 < 4294967296)
    (he : EnterEffect t cur name cur' t') :
    TreeInv t' ∧ (∀ i, t'.recursion i < 4294967296) ∧
      ∃ c', cur' = some c' ∧ StackInv t' c' (name :: S) := by
  obtain ⟨rest, hl, hex, hoff⟩ := hS
  have hcur : cur < t.size := hl.bound cur (List.mem_cons_self _ _)
  rcases he with ⟨hname, hc', ht'⟩ | ⟨hname, ch, hmem, hchn, hc', ht'⟩ | ⟨hname, hnone, hc', ht'⟩
  · -- recursive re-entry
    subst ht'
    have hlen := length_expand_head t cur rest
    rw [hex] at hlen
    simp only [List.length_append, List.length_singleton] at hlen
    have hw : wrap32 (t.recursion cur + 1) = t.recursion cur + 1 := by
      unfold wrap32; omega
    refine ⟨hT.of_recursion _ _, ?_, cur, hc', rest,
      hl.withRecursion _ _, ?_, ?_⟩
    · intro i
      by_cases hi : i = cur
      · subst hi; simp only [Tree.withRecursion, Function.update_same, hw]; omega
      · simp only [Tree.withRecursion, Function.update_noteq hi]; exact hrec i
    · have hrest : expand (t.withRecursion cur (wrap32 (t.recursion cur + 1))) rest =
          expand t rest := by
        apply expand_congr
        intro i hi
        have : i ≠ cur := fun h => hl.head_not_mem (h ▸ hi)
        exact ⟨rfl, by simp only [Tree.withRecursion, Function.update_noteq this]⟩
      simp only [expand] at hex ⊢
      rw [hrest]
      simp only [Tree.withRecursion, Function.update_same, hw]
      rw [List.replicate_succ, List.cons_append, hex, hname, List.cons_append]
    · intro i hi hni
      have : i ≠ cur := fun h => hni (h ▸ List.mem_cons_self _ _)
      simp only [Tree.withRecursion, Function.update_noteq this]
      exact hoff i hi hni
  · -- descent into an existing child
    subst ht'
    obtain ⟨h1, h2, h3⟩ := hT.child cur hcur ch hmem
    have hnot : ch ∉ cur :: rest := by
      intro h
      rcases List.mem_cons.mp h with h4 | h4
      · omega
      · have := hl.lt_head ch h4; omega
    refine ⟨hT, hrec, ch, hc', cur :: rest, ⟨h3, h1, h2, hl⟩, ?_, ?_⟩
    · have h0 := hoff ch h2 hnot
      rw [expand, h0, hchn, hex]
      simp
    · intro i hi hni
      exact hoff i hi (fun h => hni (List.mem_cons_of_mem _ h))
  · -- descent into a freshly created child
    subst ht'
    have hsame : ∀ i ∈ cur :: rest, (t.grow cur name).name i = t.name i ∧
        (t.grow cur name).recursion i = t.recursion i ∧
        (t.grow cur name).parent i = t.parent i := by
      intro i hi
      have : i ≠ t.size := Nat.ne_of_lt (hl.bound i hi)
      simp only [Tree.grow, Function.update_noteq this, and_self]
    refine ⟨hT.grow cur name hcur hname hnone, ?_, t.size, hc', cur :: rest, ?_, ?_, ?_⟩
    · intro i
      by_cases hi : i = t.size
      · subst hi; simp [Tree.grow]
      · simp only [Tree.grow, Function.update_noteq hi]; exact hrec i
    · refine ⟨by simp [Tree.grow], hcur, by simp [Tree.grow], ?_⟩
      exact Linked.congr (by simp [Tree.grow]) (fun i hi => (hsame i hi).2.2) hl
    · rw [expand, expand_congr (fun i hi => ⟨(hsame i hi).1, (hsame i hi).2.1⟩), hex]
      simp [Tree.grow]
    · intro i hi hni
      have h1 : i ≠ t.size := fun h => hni (h ▸ List.mem_cons_self _ _)
      simp only [Tree.grow] at hi
      simp only [Tree.grow, Function.update_noteq h1]
      exact hoff i (by omega) (fun h => hni (List.mem_cons_of_mem _ h))

theorem StackInv_leave {t t' : Tree} {cur : Nat} {S : List String} {x : String}
    {cur' : Option Nat} (hT : TreeInv t) (hrec : ∀ i, t.recursion i < 4294967296)
    (hS : StackInv t cur (x :: S)) (he : LeaveEffect t cur cur' t') :
    TreeInv t' ∧ (∀ i, t'.recursion i < 4294967296) ∧
      ∃ c', cur' = some c' ∧ StackInv t' c' S := by
  obtain ⟨rest, hl, hex, hoff⟩ := hS
  rcases he with ⟨hr, hc', ht'⟩ | ⟨hr, hc', ht'⟩
  · -- end of a recursive re-entry
    subst ht'
    have hlt := hrec cur
    have hw : wrap32 (t.recursion cur + 4294967295) + 1 = t.recursion cur := by
      unfold wrap32; omega
    refine ⟨hT.of_recursion _ _, ?_, cur, hc', rest,
      hl.withRecursion _ _, ?_, ?_⟩
    · intro i
      by_cases hi : i = cur
      · subst hi; simp only [Tree.withRecursion, Function.update_same]; omega
      · simp only [Tree.withRecursion, Function.update_noteq hi]; exact hrec i
    · have hrest : expand (t.withRecursion cur (wrap32 (t.recursion cur + 4294967295))) rest =
          expand t rest := by
        apply expand_congr
        intro i hi
        have : i ≠ cur := fun h => hl.head_not_mem (h ▸ hi)
        exact ⟨rfl, by simp only [Tree.withRecursion, Function.update_noteq this]⟩
      simp only [expand] at hex ⊢
      rw [hrest]
      simp only [Tree.withRecursion, Function.update_same, hw]
      rw [List.replicate_succ, List.cons_append, List.cons_append] at hex
      exact (List.cons.inj hex).2
    · intro i hi hni
      have : i ≠ cur := fun h => hni (h ▸ List.mem_cons_self _ _)
      simp only [Tree.withRecursion, Function.update_noteq this]
      exact hoff i hi hni
  · -- end of the current node's visit
    subst ht'
    rw [expand, hr] at hex
    simp only [Nat.zero_add, List.replicate_one, List.singleton_append, List.cons_append] at hex
    have hrest := (List.cons.inj hex).2
    cases rest with
    | nil => simp [expand] at hrest
    | cons q rest' =>
      refine ⟨hT, hrec, q, by rw [hc', hl.1], rest', hl.2.2.2, hrest, ?_⟩
      intro i hi hni
      by_cases hic : i = cur
      · rw [hic]; exact hr
      · refine hoff i hi ?_
        intro h
        rcases List.mem_cons.mp h with h1 | h1
        · exact hic h1
        · exact hni h1

theorem Inv_Enter_effect (p : IProfiler) (S : List String) (name : String) (clk : Clock)
    (h : Inv p S) (hb : S.length + 1 < 4294967296) :
    ∃ q cur, Enter p name clk = some q ∧ Inv q (name :: S) ∧ cur < (treeOf p.heap).size ∧
      EnterEffect (treeOf p.heap) cur name q.current_ (treeOf q.heap) := by
  obtain ⟨hroot, hlevel, hT, hrec, cur, hcur, hS⟩ := h
  have hlt : cur < p.heap.length := hS.lt_size
  obtain ⟨q, hq, hqroot, hqlevel, heff⟩ := Enter_cases p name clk cur hcur hlt
    (fun ch hch => (hT.child cur hlt ch hch).2.1)
  obtain ⟨hT', hrec', c', hc', hS'⟩ := StackInv_enter hT hrec hS hb heff
  refine ⟨q, cur, hq, ⟨by rw [hqroot, hroot], ?_, hT', hrec', c', hc', hS'⟩, hlt, heff⟩
  rw [hqlevel, hlevel]
  simp only [wrap32, List.length_cons]
  omega

theorem Inv_Leave_effect (p : IProfiler) (S : List String) (x : String) (clk : Clock)
    (h : Inv p (x :: S)) :
    ∃ q cur, Leave p clk = some q ∧ Inv q S ∧
      LeaveEffect (treeOf p.heap) cur q.current_ (treeOf q.heap) := by
  obtain ⟨hroot, hlevel, hT, hrec, cur, hcur, hS⟩ := h
  have hlt : cur < p.heap.length := hS.lt_size
  obtain ⟨q, hq, hqroot, hqlevel, heff⟩ := Leave_cases p clk cur hcur hlt
  obtain ⟨hT', hrec', c', hc', hS'⟩ := StackInv_leave hT hrec hS heff
  refine ⟨q, cur, hq, ⟨by rw [hqroot, hroot], ?_, hT', hrec', c', hc', hS'⟩, heff⟩
  rw [hqlevel, hlevel]
  simp only [wrap32, List.length_cons]
  omega

theorem Inv_Enter (p : IProfiler) (S : List String) (name : String) (clk : Clock)
    (h : Inv p S) (hb : S.length + 1 < 4294967296) :
    ∃ q, Enter p name clk = some q ∧ Inv q (name :: S) := by
  obtain ⟨q, _, hq, hinv, _⟩ := Inv_Enter_effect p S name clk h hb
  exact ⟨q, hq, hinv⟩

theorem Inv_Leave (p : IProfiler) (S : List String) (x : String) (clk : Clock)
    (h : Inv p (x :: S)) :
    ∃ q, Leave p clk = some q ∧ Inv q S := by
  obtain ⟨q, _, hq, hinv, _⟩ := Inv_Leave_effect p S x clk h
  exact ⟨q, hq, hinv⟩

/-! ## Well-nested call sequences -/

theorem le_peakDepth (d : Nat) (cs : List Call) : d ≤ peakDepth d cs := by
  cases cs with
  | nil => exact Nat.le_refl d
  | cons c cs => cases c <;> exact Nat.le_max_left _ _

theorem depthAfter_append (a b : List Call) : ∀ d,
    depthAfter d (a ++ b) = (depthAfter d a).bind (fun e => depthAfter e b) := by
  induction a with
  | nil => intro d; simp [depthAfter]
  | cons c cs ih =>
    intro d
    cases c with
    | enter name clk => simpa [depthAfter] using ih (d + 1)
    | leave clk =>
      cases d with
      | zero => simp [depthAfter]
      | succ d => simpa [depthAfter] using ih d

theorem peakDepth_append (a b : List Call) : ∀ d, peakDepth d a ≤ peakDepth d (a ++ b) := by
  induction a with
  | nil => intro d; exact le_peakDepth d b
  | cons c cs ih =>
    intro d
    cases c with
    | enter name clk =>
      simp only [peakDepth, List.cons_append]
      exact max_le_max (Nat.le_refl d) (ih (d + 1))
    | leave clk =>
      simp only [peakDepth, List.cons_append]
      exact max_le_max (Nat.le_refl d) (ih (d - 1))

theorem run_append (a b : List Call) : ∀ p, run p (a ++ b) = (run p a).bind (fun q => run q b) := by
  induction a with
  | nil => intro p; rfl
  | cons c cs ih =>
    intro p
    simp only [run, List.cons_append]
    cases step p c with
    | none => rfl
    | some q => exact ih q

/-- The invariant is kept along every call sequence that never underflows and whose
nesting depth stays below `2^32`; in particular every call is defined. -/
theorem run_Inv : ∀ (cs : List Call) (p : IProfiler) (S : List String), Inv p S →
    depthAfter S.length cs ≠ none → peakDepth S.length cs < 4294967296 →
    ∃ q S', run p cs = some q ∧ Inv q S' ∧ depthAfter S.length cs = some S'.length := by
  intro cs
  induction cs with
  | nil => intro p S h _ _; exact ⟨p, S, rfl, h, by simp [depthAfter]⟩
  | cons c cs ih =>
    intro p S h hd hp
    cases c with
    | enter name clk =>
      simp only [depthAfter] at hd ⊢
      simp only [peakDepth] at hp
      have hp2 : peakDepth (S.length + 1) cs < 4294967296 := lt_of_le_of_lt (Nat.le_max_right _ _) hp
      have hb : S.length + 1 < 4294967296 := lt_of_le_of_lt (le_peakDepth _ _) hp2
      obtain ⟨q, hq, hinv⟩ := Inv_Enter p S name clk h hb
      obtain ⟨r, S', hr, hinv', hd'⟩ := ih q (name :: S) hinv hd hp2
      exact ⟨r, S', by simp only [run, step, hq]; exact hr, hinv', hd'⟩
    | leave clk =>
      cases S with
      | nil => exact absurd rfl hd
      | cons x S =>
        simp only [depthAfter, List.length_cons] at hd ⊢
        simp only [peakDepth, List.length_cons, Nat.add_sub_cancel] at hp
        have hp2 : peakDepth S.length cs < 4294967296 := lt_of_le_of_lt (Nat.le_max_right _ _) hp
        obtain ⟨q, hq, hinv⟩ := Inv_Leave p S x clk h
        obtain ⟨r, S', hr, hinv', hd'⟩ := ih q S hinv hd hp2
        exact ⟨r, S', by simp only [run, step, hq]; exact hr, hinv', hd'⟩

/-- C1 (amended): for every well-nested call sequence (no prefix with more `Leave`s than
`Enter`s, as many `Leave`s as `Enter`s in total) whose nesting depth stays below `2^32`,
every call on a fresh profiler is defined and the final state has `current_ == root_`
and `level_ == 0`. -/
theorem balanced_session_returns_to_root (clk0 : Clock) (cs : List Call)
    (hnest : depthAfter 0 cs = some 0) (hpeak : peakDepth 0 cs < 4294967296) :
    ∃ p, run (IProfiler.new clk0) cs = some p ∧ p.current_ = p.root_ ∧
      p.root_ = some 0 ∧ p.level_ = 0 := by
  obtain ⟨q, S', hq, hinv, hd⟩ := run_Inv cs (IProfiler.new clk0) [] (Inv_new clk0)
    (by simp only [List.length_nil, hnest]; exact Option.noConfusion) hpeak
  simp only [List.length_nil, hnest, Option.some.injEq] at hd
  have hS : S' = [] := List.length_eq_zero.mp hd.symm
  subst hS
  obtain ⟨hroot, hlevel, _, _, cur, hcur, hS⟩ := hinv
  refine ⟨q, hq, ?_, hroot, hlevel⟩
  rw [hcur, hroot, hS.root_of_nil]

/-- C1 on a six-call session with a recursive re-entry of "main". -/
theorem balanced_session_returns_to_root_witness :
    ∃ p, run (IProfiler.new ⟨10, 0, 0⟩)
        [Call.enter "main" ⟨10, 1, 5⟩, Call.enter "main" ⟨10, 2, 6⟩, Call.leave ⟨10, 3, 7⟩,
         Call.enter "parse" ⟨10, 4, 8⟩, Call.leave ⟨10, 5, 9⟩, Call.leave ⟨10, 6, 10⟩] = some p ∧
      p.current_ = p.root_ ∧ p.root_ = some 0 ∧ p.level_ = 0 :=
  balanced_session_returns_to_root _ _ (by decide) (by decide)

/-- C7 (amended): for every call sequence on a fresh profiler in which no prefix holds
more `Leave`s than `Enter`s and the nesting depth stays below `2^32`, after every call
(after every prefix `pre` of the sequence) the state is defined and `current_` is the
address of a node of the tree, so the null-dereference branch is never taken. -/
theorem current_always_valid (clk0 : Clock) (cs : List Call)
    (hnest : depthAfter 0 cs ≠ none) (hpeak : peakDepth 0 cs < 4294967296)
    (pre suf : List Call) (hsplit : cs = pre ++ suf) :
    ∃ p c, run (IProfiler.new clk0) pre = some p ∧ p.current_ = some c ∧ c < p.heap.length := by
  subst hsplit
  have h1 : depthAfter 0 pre ≠ none := by
    intro h
    rw [depthAfter_append, h] at hnest
    exact hnest rfl
  have h2 : peakDepth 0 pre < 4294967296 := lt_of_le_of_lt (peakDepth_append pre suf 0) hpeak
  obtain ⟨q, S', hq, hinv, _⟩ := run_Inv pre (IProfiler.new clk0) [] (Inv_new clk0) h1 h2
  obtain ⟨_, _, _, _, cur, hcur, hS⟩ := hinv
  exact ⟨q, cur, hq, hcur, hS.lt_size⟩

/-- C7 on the first three calls of a four-call session. -/
theorem current_always_valid_witness :
    ∃ p c, run (IProfiler.new ⟨10, 0, 0⟩)
        [Call.enter "main" ⟨10, 1, 5⟩, Call.enter "parse" ⟨10, 4, 8⟩, Call.leave ⟨10, 5, 9⟩] = some p ∧
      p.current_ = some c ∧ c < p.heap.length :=
  current_always_valid ⟨10, 0, 0⟩
    [Call.enter "main" ⟨10, 1, 5⟩, Call.enter "parse" ⟨10, 4, 8⟩, Call.leave ⟨10, 5, 9⟩,
     Call.enter "run" ⟨10, 6, 10⟩]
    (by decide) (by decide) _ [Call.enter "run" ⟨10, 6, 10⟩] rfl

/-! ## Repeated calls -/

theorem set_lookup_self (heap : List PerfNode) (c : Nat) (n : PerfNode) (h : heap[c]? = some n) :
    heap.set c n = heap := by
  apply List.ext_getElem?
  intro i
  rw [getElem?_set_heap _ _ _ _ (lt_of_lookup h)]
  by_cases hi : i = c
  · subst hi; simp [h]
  · simp [hi]

theorem wrap32_of_lt {n : Nat} (h : n < 4294967296) : wrap32 n = n := Nat.mod_eq_of_lt h

theorem wrap32_lt (n : Nat) : wrap32 n < 4294967296 := Nat.mod_lt _ (by decide)

/-- Entering the name of the current node again and again only counts: `es.length`
further `Enter`s add that much to `recursion_` and to `level_`, modulo `2^32`. -/
theorem run_enter_again (A : String) (c : Nat) : ∀ (es : List Clock) (p : IProfiler)
    (cur : PerfNode), p.current_ = some c → p.heap[c]? = some cur → cur.function_name_ = A →
    p.level_ < 4294967296 → cur.recursion_ < 4294967296 →
    run p (es.map (Call.enter A)) = some { p with
      level_ := wrap32 (p.level_ + es.length),
      heap := p.heap.set c { cur with recursion_ := wrap32 (cur.recursion_ + es.length) } } := by
  intro es
  induction es with
  | nil =>
    intro p cur _ hcur _ hl hr
    simp only [List.map_nil, run, List.length_nil, Nat.add_zero, wrap32_of_lt hl, wrap32_of_lt hr]
    rw [set_lookup_self _ _ _ hcur]
  | cons e es ih =>
    intro p cur hc hcur hname hl hr
    simp only [List.map_cons, run, step, Enter_rec p A e c cur hc hcur hname]
    rw [ih { p with level_ := wrap32 (p.level_ + 1), heap := p.heap.set c { cur with recursion_ := wrap32 (cur.recursion_ + 1) } }
      { cur with recursion_ := wrap32 (cur.recursion_ + 1) } hc
      (by simp [lt_of_lookup hcur]) hname (wrap32_lt _) (wrap32_lt _)]
    simp only [List.set_set, List.length_cons]
    have e1 : wrap32 (wrap32 (p.level_ + 1) + es.length) = wrap32 (p.level_ + (es.length + 1)) := by
      unfold wrap32; omega
    have e2 : wrap32 (wrap32 (cur.recursion_ + 1) + es.length) =
        wrap32 (cur.recursion_ + (es.length + 1)) := by
      unfold wrap32; omega
    rw [e1, e2]

/-- Leaving while the current node is `ls.length` recursive re-entries deep only
counts down. -/
theorem run_leave_again (c : Nat) : ∀ (ls : List Clock) (p : IProfiler)
    (cur : PerfNode), p.current_ = some c → p.heap[c]? = some cur →
    ls.length ≤ cur.recursion_ → cur.recursion_ < 4294967296 → p.level_ < 4294967296 →
    run p (ls.map Call.leave) = some { p with
      level_ := wrap32 (p.level_ + ls.length * 4294967295),
      heap := p.heap.set c { cur with recursion_ := cur.recursion_ - ls.length } } := by
  intro ls
  induction ls with
  | nil =>
    intro p cur _ hcur _ _ hl
    simp only [List.map_nil, run, List.length_nil, Nat.zero_mul, Nat.add_zero, Nat.sub_zero,
      wrap32_of_lt hl]
    rw [set_lookup_self _ _ _ hcur]
  | cons e ls ih =>
    intro p cur hc hcur hle hr hl
    simp only [List.length_cons] at hle
    have hr0 : cur.recursion_ ≠ 0 := by omega
    have hw : wrap32 (cur.recursion_ + 4294967295) = cur.recursion_ - 1 := by
      unfold wrap32; omega
    simp only [List.map_cons, run, step, Leave_rec p e c cur hc hcur hr0, hw]
    rw [ih { p with level_ := wrap32 (p.level_ + 4294967295), heap := p.heap.set c { cur with recursion_ := cur.recursion_ - 1 } }
      { cur with recursion_ := cur.recursion_ - 1 } hc
      (by simp [lt_of_lookup hcur]) (by simp only; omega) (by simp only; omega) (wrap32_lt _)]
    simp only [List.set_set, List.length_cons]
    have e1 : wrap32 (wrap32 (p.level_ + 4294967295) + ls.length * 4294967295) =
        wrap32 (p.level_ + (ls.length + 1) * 4294967295) := by
      unfold wrap32; omega
    have e2 : cur.recursion_ - 1 - ls.length = cur.recursion_ - (ls.length + 1) := by omega
    rw [e1, e2]

/-! ## Recursion collapse -/

/-- The state of a fresh profiler after its first `Enter(A)`, for `A` other than "Root". -/
theorem Enter_first (A : String) (hA : A ≠ "Root") (c0 e0 : Clock) :
    Enter (IProfiler.new c0) A e0 = some
      { heap := [{ (PerfNode.new "Root").TimerStart c0 with children_ := [1] },
                 { PerfNode.new A with parent_ := some 0 }.TimerStart e0],
        nodelist_ := [0, 0, 1], root_ := some 0, current_ := some 1, level_ := 1 } := by
  have h1 : ¬ ("Root" = A) := fun h => hA h.symm
  simp [Enter, FindChildren, findLoop, modify, enterNode, createChild, CreateNode,
    IProfiler.new, PerfNode.new, PerfNode.TimerStart, h1, wrap32]

theorem run_enter_cons {p q : IProfiler} {name : String} {clk : Clock} (cs : List Call)
    (h : Enter p name clk = some q) : run p (Call.enter name clk :: cs) = run q cs := by
  simp only [run, step, h]

theorem run_leave_cons {p q : IProfiler} {clk : Clock} (cs : List Call)
    (h : Leave p clk = some q) : run p (Call.leave clk :: cs) = run q cs := by
  simp only [run, step, h]

/-- A block of recursive re-entries of the current node followed by as many `Leave`s
and one more `Leave` acts like that single last `Leave`: the node's timer is ended
once and the cursor moves to the parent. -/
theorem run_recursion_block (A : String) (c : Nat) (es ls : List Clock) (l : Clock)
    (p : IProfiler) (cur : PerfNode) (hc : p.current_ = some c) (hcur : p.heap[c]? = some cur)
    (hname : cur.function_name_ = A) (hr : cur.recursion_ = 0) (hl : p.level_ < 4294967296)
    (hlen : ls.length = es.length) (hb : es.length < 4294967296) :
    run p (es.map (Call.enter A) ++ (ls.map Call.leave ++ [Call.leave l])) =
      some { p with
        level_ := wrap32 (p.level_ + 4294967295),
        heap := p.heap.set c (cur.TimerEnd l),
        current_ := cur.parent_ } := by
  have hlt := lt_of_lookup hcur
  have hw : wrap32 (cur.recursion_ + es.length) = es.length := by
    rw [hr]; unfold wrap32; omega
  have s1 := run_enter_again A c es p cur hc hcur hname hl (by omega)
  have s2 := run_leave_again c ls
    { p with level_ := wrap32 (p.level_ + es.length), heap := p.heap.set c { cur with recursion_ := wrap32 (cur.recursion_ + es.length) } }
    { cur with recursion_ := wrap32 (cur.recursion_ + es.length) } hc
    (by simp [hlt]) (by simp only [hw, hlen]; exact Nat.le_refl _) (wrap32_lt _) (wrap32_lt _)
  have s3 := Leave_pop
    { p with level_ := wrap32 (wrap32 (p.level_ + es.length) + ls.length * 4294967295), heap := (p.heap.set c { cur with recursion_ := wrap32 (cur.recursion_ + es.length) }).set c { cur with recursion_ := wrap32 (cur.recursion_ + es.length) - ls.length } }
    l c { cur with recursion_ := wrap32 (cur.recursion_ + es.length) - ls.length } hc
    (by simp [hlt]) (by simp only [hw, hlen]; omega)
  rw [run_append, s1, Option.bind, run_append, s2, Option.bind, run_leave_cons [] s3]
  simp only [run, List.set_set, Option.some.injEq, IProfiler.mk.injEq, and_true, true_and]
  refine ⟨?_, ?_⟩
  · congr 1
    simp only [PerfNode.TimerEnd, hlen, hr, Nat.zero_add, wrap32_of_lt hb, Nat.sub_self]
  · rw [hlen]; unfold wrap32; omega

/-- C3 (amended): for every `n` with `1 ≤ n ≤ 2^32` (here `n = es.length + 1`) and every
name `A` other than "Root", `n` calls `Enter(A)` followed by `n` calls `Leave()` on a
fresh profiler end in the state whose store holds the root and exactly one node named
`A`: a childless child of the root with `calls_ == 1` and `recursion_ == 0`, whose timer
was started once, with the readings of the first `Enter`, and ended once, with the
readings of the last `Leave`; its cycle total is the single span between these two
readings (modulo `2^64`). -/
theorem recursion_collapses_to_one_node (A : String) (hA : A ≠ "Root") (c0 e0 l : Clock)
    (es ls : List Clock) (hlen : ls.length = es.length) (hb : es.length < 4294967296) :
    run (IProfiler.new c0)
        (Call.enter A e0 :: (es.map (Call.enter A) ++ (ls.map Call.leave ++ [Call.leave l]))) =
      some
        { heap := [{ (PerfNode.new "Root").TimerStart c0 with children_ := [1] },
                   ({ PerfNode.new A with parent_ := some 0 }.TimerStart e0).TimerEnd l],
          nodelist_ := [0, 0, 1], root_ := some 0, current_ := some 0, level_ := 0 } ∧
    (({ PerfNode.new A with parent_ := some 0 }.TimerStart e0).TimerEnd l).shape =
      (A, [], some 0, 1, 0) ∧
    (({ PerfNode.new A with parent_ := some 0 }.TimerStart e0).TimerEnd l).cycleelapsedtime_ =
      (l.cycles % 18446744073709551616 + 18446744073709551616 -
        e0.cycles % 18446744073709551616) % 18446744073709551616 := by
  refine ⟨?_, rfl, ?_⟩
  · rw [run_enter_cons _ (Enter_first A hA c0 e0)]
    refine Eq.trans (run_recursion_block A 1 es ls l _
      ({ PerfNode.new A with parent_ := some 0 }.TimerStart e0) ?_ ?_ ?_ ?_ ?_ hlen hb) ?_
    · rfl
    · rfl
    · rfl
    · rfl
    · show (1 : Nat) < 4294967296
      decide
    · have hz : wrap32 (1 + 4294967295) = 0 := by decide
      simp only [hz, List.set_cons_succ, List.set_cons_zero, PerfNode.TimerStart, PerfNode.new]
  · simp [PerfNode.TimerStart, PerfNode.TimerEnd, PerfNode.new, wrap64]

/-- C3 for `n = 3`, with distinct clock readings at every call. -/
theorem recursion_collapses_to_one_node_witness :
    run (IProfiler.new ⟨10, 0, 0⟩)
        (Call.enter "A" ⟨10, 1, 100⟩ :: ([⟨10, 2, 200⟩, ⟨10, 3, 300⟩].map (Call.enter "A") ++
          ([⟨10, 4, 400⟩, ⟨10, 5, 500⟩].map Call.leave ++ [Call.leave ⟨10, 6, 600⟩]))) =
      some
        { heap := [{ (PerfNode.new "Root").TimerStart ⟨10, 0, 0⟩ with children_ := [1] },
                   ({ PerfNode.new "A" with parent_ := some 0 }.TimerStart ⟨10, 1, 100⟩).TimerEnd
                      ⟨10, 6, 600⟩],
          nodelist_ := [0, 0, 1], root_ := some 0, current_ := some 0, level_ := 0 } ∧
    (({ PerfNode.new "A" with parent_ := some 0 }.TimerStart ⟨10, 1, 100⟩).TimerEnd
        ⟨10, 6, 600⟩).shape = ("A", [], some 0, 1, 0) ∧
    (({ PerfNode.new "A" with parent_ := some 0 }.TimerStart ⟨10, 1, 100⟩).TimerEnd
        ⟨10, 6, 600⟩).cycleelapsedtime_ =
      ((Clock.mk 10 6 600).cycles % 18446744073709551616 + 18446744073709551616 -
        (Clock.mk 10 1 100).cycles % 18446744073709551616) % 18446744073709551616 :=
  recursion_collapses_to_one_node "A" (by decide) ⟨10, 0, 0⟩ ⟨10, 1, 100⟩ ⟨10, 6, 600⟩
    [⟨10, 2, 200⟩, ⟨10, 3, 300⟩] [⟨10, 4, 400⟩, ⟨10, 5, 500⟩] rfl (by decide)

/-! ## Counter overflow -/

theorem depthAfter_enters (A : String) (es : List Clock) (rest : List Call) : ∀ d,
    depthAfter d (es.map (Call.enter A) ++ rest) = depthAfter (d + es.length) rest := by
  induction es with
  | nil => intro d; rfl
  | cons e es ih =>
    intro d
    simp only [List.map_cons, List.cons_append, depthAfter, List.length_cons]
    rw [ih (d + 1)]
    congr 1
    omega

theorem depthAfter_leaves (ls : List Clock) (rest : List Call) : ∀ d,
    depthAfter (d + ls.length) (ls.map Call.leave ++ rest) = depthAfter d rest := by
  induction ls with
  | nil => intro d; rfl
  | cons e ls ih =>
    intro d
    simp only [List.map_cons, List.cons_append, List.length_cons]
    rw [show d + (ls.length + 1) = (d + ls.length) + 1 from rfl]
    simp only [depthAfter]
    exact ih d

/-- After `2^32` recursive re-entries of the current node the state is what it was
before them: `recursion_` and `level_` have wrapped around. -/
theorem run_wrapped (A : String) (c : Nat) (es : List Clock) (p : IProfiler) (cur : PerfNode)
    (hc : p.current_ = some c) (hcur : p.heap[c]? = some cur) (hname : cur.function_name_ = A)
    (hr : cur.recursion_ < 4294967296) (hl : p.level_ < 4294967296)
    (hes : es.length = 4294967296) :
    run p (es.map (Call.enter A)) = some p := by
  rw [run_enter_again A c es p cur hc hcur hname hl hr, hes]
  have h1 : wrap32 (p.level_ + 4294967296) = p.level_ := by unfold wrap32; omega
  have h2 : wrap32 (cur.recursion_ + 4294967296) = cur.recursion_ := by unfold wrap32; omega
  rw [h1, h2, set_lookup_self _ _ _ hcur]

/-- With the recursion counter wrapped to zero by `2^32` re-entries, the very next
`Leave` ends the visit of the node. -/
theorem run_wrapped_leave (A : String) (c : Nat) (es : List Clock) (l : Clock) (rest : List Call)
    (p : IProfiler) (cur : PerfNode)
    (hc : p.current_ = some c) (hcur : p.heap[c]? = some cur) (hname : cur.function_name_ = A)
    (hr : cur.recursion_ = 0) (hl : p.level_ < 4294967296) (hes : es.length = 4294967296) :
    run p (es.map (Call.enter A) ++ (Call.leave l :: rest)) =
      run { p with level_ := wrap32 (p.level_ + 4294967295), heap := p.heap.set c (cur.TimerEnd l), current_ := cur.parent_ } rest := by
  rw [run_append, run_wrapped A c es p cur hc hcur hname (by omega) hl hes, Option.bind,
    run_leave_cons _ (Leave_pop p l c cur hc hcur hr)]

/-- The state of a fresh profiler after `Enter(A)`, `2^32` further `Enter(A)` and two
`Leave()`: the recursion counter has wrapped to zero, so the first `Leave` already
closes the node and the second one closes the root and leaves `current_` null. -/
theorem run_overflow (A : String) (hA : A ≠ "Root") (c0 e0 l1 l2 : Clock) (es : List Clock)
    (hes : es.length = 4294967296) (rest : List Call) :
    run (IProfiler.new c0)
        (Call.enter A e0 :: (es.map (Call.enter A) ++ (Call.leave l1 :: Call.leave l2 :: rest))) =
      run
        { heap := [({ (PerfNode.new "Root").TimerStart c0 with children_ := [1] }).TimerEnd l2,
                   ({ PerfNode.new A with parent_ := some 0 }.TimerStart e0).TimerEnd l1],
          nodelist_ := [0, 0, 1], root_ := some 0, current_ := none, level_ := 4294967295 }
        rest := by
  have h3 : wrap32 (1 + 4294967295) = 0 := by decide
  have h4 : wrap32 (0 + 4294967295) = 4294967295 := by decide
  rw [run_enter_cons _ (Enter_first A hA c0 e0)]
  refine Eq.trans (run_wrapped_leave A 1 es l1 _ _
    ({ PerfNode.new A with parent_ := some 0 }.TimerStart e0) ?_ ?_ ?_ ?_ ?_ hes) ?_
  · rfl
  · rfl
  · rfl
  · rfl
  · show (1 : Nat) < 4294967296
    decide
  · simp only [h3, List.set_cons_succ, List.set_cons_zero]
    refine Eq.trans (run_leave_cons _ (Leave_pop _ l2 0
      ({ (PerfNode.new "Root").TimerStart c0 with children_ := [1] }) ?_ ?_ ?_)) ?_
    · rfl
    · rfl
    · rfl
    · simp only [h4, List.set_cons_zero, PerfNode.TimerStart, PerfNode.new, PerfNode.TimerEnd]

theorem run_null (cs : List Call) (p : IProfiler) (h : p.current_ = none) (hcs : cs ≠ []) :
    run p cs = none := by
  cases cs with
  | nil => exact absurd rfl hcs
  | cons c cs =>
    cases c <;> simp [run, step, Enter, Leave, h]

/-! ## Call-count aggregation -/

theorem findLoop_skip (heap : List PerfNode) (name : String) (l1 l2 : List Nat)
    (h : ∀ ch ∈ l1, ∃ nd, heap[ch]? = some nd ∧ nd.function_name_ ≠ name) :
    findLoop heap name (l1 ++ l2) = findLoop heap name l2 := by
  induction l1 with
  | nil => rfl
  | cons a rest ih =>
    obtain ⟨nd, h1, h2⟩ := h a (List.mem_cons_self _ _)
    simp only [List.cons_append, findLoop, h1, h2, if_false]
    exact ih (fun ch hch => h ch (List.mem_cons_of_mem _ hch))

theorem Aggregated.first (p : IProfiler) (c : Nat) (cur : PerfNode) (A : String)
    (hc : p.current_ = some c) (hcur : p.heap[c]? = some cur)
    (hname : cur.function_name_ ≠ A)
    (hchildren : ∀ ch ∈ cur.children_, ∃ nd, p.heap[ch]? = some nd ∧ nd.function_name_ ≠ A)
    (e l : Clock) :
    ∃ q, run p [Call.enter A e, Call.leave l] = some q ∧ Aggregated p c cur A q 1 := by
  have hlt := lt_of_lookup hcur
  have hne : c ≠ p.heap.length := Nat.ne_of_lt hlt
  have hfind : findLoop p.heap A cur.children_ = some (p.heap, none) := by
    have := findLoop_skip p.heap A cur.children_ [] hchildren
    rw [List.append_nil] at this
    rw [this]; rfl
  rw [run_enter_cons _ (Enter_new p A e c cur hc hcur hname hfind)]
  refine ⟨_, run_leave_cons [] (Leave_pop _ l p.heap.length
    ({ PerfNode.new A with parent_ := some c }.TimerStart e) rfl ?_ rfl), ?_⟩
  · simp
  · refine ⟨rfl, rfl, by simp, ?_,
      ⟨({ PerfNode.new A with parent_ := some c }.TimerStart e).TimerEnd l, ?_, rfl, rfl, rfl, rfl, rfl⟩, ?_⟩
    · simp only [run]
      rw [List.getElem?_set_ne (Ne.symm hne), List.getElem?_append_left (by simpa using hlt)]
      simp [hlt]
    · simp
    · intro i hic hi
      simp only [run]
      rw [List.getElem?_set_ne (Nat.ne_of_gt (by simpa using hi)),
        List.getElem?_append_left (by simpa using hi), List.getElem?_set_ne (Ne.symm hic)]

theorem Aggregated.next (p : IProfiler) (c : Nat) (cur : PerfNode) (A : String)
    (hcur : p.heap[c]? = some cur) (hname : cur.function_name_ ≠ A)
    (hchildren : ∀ ch ∈ cur.children_, ∃ nd, p.heap[ch]? = some nd ∧ nd.function_name_ ≠ A)
    (q : IProfiler) (j : Nat) (h : Aggregated p c cur A q j) (e l : Clock) :
    ∃ q', run q [Call.enter A e, Call.leave l] = some q' ∧
      Aggregated p c cur A q' (wrap32 (j + 1)) := by
  obtain ⟨h1, hroot, h2, h3, ⟨node, h4, h5, h6, h7, h8, h9⟩, h10⟩ := h
  have hlt := lt_of_lookup hcur
  have hne : c ≠ p.heap.length := Nat.ne_of_lt hlt
  have hlen : p.heap.length < q.heap.length := by omega
  have hold : ∀ ch ∈ cur.children_, ∃ nd, q.heap[ch]? = some nd ∧ nd.function_name_ ≠ A := by
    intro ch hch
    obtain ⟨nd, ha, hb⟩ := hchildren ch hch
    by_cases hcc : ch = c
    · subst hcc; exact ⟨_, h3, hname⟩
    · rw [h10 ch hcc (lt_of_lookup ha)]; exact ⟨nd, ha, hb⟩
  have hfind : findLoop q.heap A ({ cur with children_ := cur.children_ ++ [p.heap.length] }).children_ =
      some (q.heap.set p.heap.length { node with calls_ := wrap32 (node.calls_ + 1) },
        some p.heap.length) := by
    show findLoop q.heap A (cur.children_ ++ [p.heap.length]) = _
    rw [findLoop_skip q.heap A cur.children_ [p.heap.length] hold]
    simp [findLoop, h4, h5]
  rw [run_enter_cons _ (Enter_found q A e c p.heap.length _ node h1 h3 hname h4 hfind)]
  refine ⟨_, run_leave_cons [] (Leave_pop _ l p.heap.length
    ({ node with calls_ := wrap32 (node.calls_ + 1) }.TimerStart e) rfl ?_ ?_), ?_⟩
  · simp [hlen]
  · exact h8
  · refine ⟨?_, hroot, by simpa using h2, ?_,
      ⟨({ node with calls_ := wrap32 (node.calls_ + 1) }.TimerStart e).TimerEnd l, ?_, h5, h6, h7, h8,
        by simp only [PerfNode.TimerEnd, PerfNode.TimerStart, h9]⟩, ?_⟩
    · exact h6
    · simp only [run]
      rw [List.getElem?_set_ne (Ne.symm hne), List.getElem?_set_ne (Ne.symm hne)]
      exact h3
    · simp [hlen]
    · intro i hic hi
      simp only [run]
      rw [List.getElem?_set_ne (Nat.ne_of_gt hi), List.getElem?_set_ne (Nat.ne_of_gt hi)]
      exact h10 i hic hi

theorem Aggregated.many (p : IProfiler) (c : Nat) (cur : PerfNode) (A : String)
    (hcur : p.heap[c]? = some cur) (hname : cur.function_name_ ≠ A)
    (hchildren : ∀ ch ∈ cur.children_, ∃ nd, p.heap[ch]? = some nd ∧ nd.function_name_ ≠ A) :
    ∀ (cks : List (Clock × Clock)) (q : IProfiler) (j : Nat), Aggregated p c cur A q (wrap32 j) →
      ∃ q', run q (enterLeavePairs A cks) = some q' ∧
        Aggregated p c cur A q' (wrap32 (j + cks.length)) := by
  intro cks
  induction cks with
  | nil => intro q j h; exact ⟨q, rfl, h⟩
  | cons ck cks ih =>
    intro q j h
    obtain ⟨q1, hq1, hagg⟩ := Aggregated.next p c cur A hcur hname hchildren q _ h ck.1 ck.2
    have hw : wrap32 (wrap32 j + 1) = wrap32 (j + 1) := by unfold wrap32; omega
    rw [hw] at hagg
    obtain ⟨q2, hq2, hagg2⟩ := ih q1 (j + 1) hagg
    refine ⟨q2, ?_, ?_⟩
    · have : enterLeavePairs A (ck :: cks) =
          [Call.enter A ck.1, Call.leave ck.2] ++ enterLeavePairs A cks := rfl
      rw [this, run_append, hq1]
      exact hq2
    · have : j + 1 + cks.length = j + (ck :: cks).length := by
        simp only [List.length_cons]; omega
      rw [← this]; exact hagg2

/-- Repeated `Enter(A); Leave()` from any state whose current node is not named `A`
and has no child named `A`: one child is created, and its `calls_` counts the pairs
modulo `2^32`. -/
theorem run_pairs (p : IProfiler) (c : Nat) (cur : PerfNode) (A : String)
    (hc : p.current_ = some c) (hcur : p.heap[c]? = some cur)
    (hname : cur.function_name_ ≠ A)
    (hchildren : ∀ ch ∈ cur.children_, ∃ nd, p.heap[ch]? = some nd ∧ nd.function_name_ ≠ A)
    (ck : Clock × Clock) (cks : List (Clock × Clock)) :
    ∃ q, run p (enterLeavePairs A (ck :: cks)) = some q ∧
      Aggregated p c cur A q (wrap32 (cks.length + 1)) := by
  obtain ⟨q1, hq1, hagg⟩ := Aggregated.first p c cur A hc hcur hname hchildren ck.1 ck.2
  obtain ⟨q2, hq2, hagg2⟩ := Aggregated.many p c cur A hcur hname hchildren cks q1 1
    (by rw [wrap32_of_lt (by decide)]; exact hagg)
  refine ⟨q2, ?_, by rw [Nat.add_comm]; exact hagg2⟩
  have : enterLeavePairs A (ck :: cks) =
      [Call.enter A ck.1, Call.leave ck.2] ++ enterLeavePairs A cks := rfl
  rw [this, run_append, hq1]
  exact hq2

/-! ## Call paths -/

theorem namePathAux_fuel {t : Tree} (hT : TreeInv t) : ∀ fuel j, j < fuel → j < t.size →
    namePathAux t fuel j = namePathAux t (j + 1) j := by
  intro fuel
  induction fuel using Nat.strong_induction_on with
  | _ fuel ih =>
    intro j hj hjs
    cases fuel with
    | zero => omega
    | succ f =>
      simp only [namePathAux]
      cases hp : t.parent j with
      | none => rfl
      | some k =>
        have hk := (hT.par j hjs k hp).1
        simp only []
        rw [ih f (Nat.lt_succ_self f) k (by omega) (by omega),
          ih j (by omega) k hk (by omega)]

theorem namePath_root {t : Tree} {i : Nat} (h : t.parent i = none) :
    namePath t i = [t.name i] := by
  simp [namePath, namePathAux, h]

theorem namePath_child {t : Tree} (hT : TreeInv t) {i j : Nat} (hi : i < t.size)
    (h : t.parent i = some j) : namePath t i = namePath t j ++ [t.name i] := by
  have hj := (hT.par i hi j h).1
  have h1 : namePathAux t (i + 1) i = namePathAux t i j ++ [t.name i] := by
    simp only [namePathAux, h]
  show namePathAux t (i + 1) i = namePathAux t (j + 1) j ++ [t.name i]
  rw [h1, namePathAux_fuel hT i j hj (by omega)]

theorem namePath_ne_nil {t : Tree} (hT : TreeInv t) {i : Nat} (hi : i < t.size) :
    namePath t i ≠ [] := by
  cases hp : t.parent i with
  | none => rw [namePath_root hp]; simp
  | some j => rw [namePath_child hT hi hp]; simp

/-- Distinct nodes have distinct root-to-node name paths. -/
theorem namePath_injective {t : Tree} (hT : TreeInv t) : ∀ i j, i < t.size → j < t.size →
    namePath t i = namePath t j → i = j := by
  intro i
  induction i using Nat.strong_induction_on with
  | _ i ih =>
    intro j hi hj h
    cases hpi : t.parent i with
    | none =>
      cases hpj : t.parent j with
      | none => rw [hT.orphan i hi hpi, hT.orphan j hj hpj]
      | some k' =>
        rw [namePath_root hpi, namePath_child hT hj hpj] at h
        have hk' := (hT.par j hj k' hpj).1
        have := namePath_ne_nil hT (show k' < t.size by omega)
        have h2 := congrArg List.length h
        simp only [List.length_singleton, List.length_append] at h2
        exact absurd (List.length_eq_zero.mp (by omega)) this
    | some k =>
      have hk := hT.par i hi k hpi
      cases hpj : t.parent j with
      | none =>
        rw [namePath_child hT hi hpi, namePath_root hpj] at h
        have := namePath_ne_nil hT (show k < t.size by omega)
        have h2 := congrArg List.length h
        simp only [List.length_singleton, List.length_append] at h2
        exact absurd (List.length_eq_zero.mp (by omega)) this
      | some k' =>
        have hk' := hT.par j hj k' hpj
        rw [namePath_child hT hi hpi, namePath_child hT hj hpj] at h
        obtain ⟨h1, h2⟩ := List.append_inj' h rfl
        have hkk : k = k' := ih k hk.1 k' (by omega) (by omega) h1
        subst hkk
        have hname : t.name i = t.name j := by simpa using h2
        by_contra hij
        have hpw := hT.distinct k (by omega)
        exact (hpw.forall (fun _ _ h => Ne.symm h) hk.2.1 hk'.2.1 hij) hname

theorem namePathAux_congr {t t' : Tree} (hT : TreeInv t)
    (h : ∀ i, i < t.size → t'.parent i = t.parent i ∧ t'.name i = t.name i) :
    ∀ fuel i, i < t.size → namePathAux t' fuel i = namePathAux t fuel i := by
  intro fuel
  induction fuel with
  | zero => intro i _; rfl
  | succ f ih =>
    intro i hi
    simp only [namePathAux, (h i hi).1, (h i hi).2]
    cases hp : t.parent i with
    | none => rfl
    | some j =>
      have hj := (hT.par i hi j hp).1
      simp only []
      rw [ih j (by omega)]

theorem namePath_congr {t t' : Tree} (hT : TreeInv t)
    (h : ∀ i, i < t.size → t'.parent i = t.parent i ∧ t'.name i = t.name i)
    (i : Nat) (hi : i < t.size) : namePath t' i = namePath t i :=
  namePathAux_congr hT h (i + 1) i hi

theorem namePath_withRecursion (t : Tree) (c r : Nat) (i : Nat) :
    namePath (t.withRecursion c r) i = namePath t i := by
  have key : ∀ fuel i, namePathAux (t.withRecursion c r) fuel i = namePathAux t fuel i := by
    intro fuel
    induction fuel with
    | zero => intro i; rfl
    | succ f ih =>
      intro i
      simp only [namePathAux]
      have hp : (t.withRecursion c r).parent i = t.parent i := rfl
      have hn : (t.withRecursion c r).name i = t.name i := rfl
      rw [hp, hn]
      cases t.parent i with
      | none => rfl
      | some j => simp only []; rw [ih j]
  exact key (i + 1) i

theorem HasPath_withRecursion (t : Tree) (c r : Nat) (path : List String) :
    (∃ i, i < (t.withRecursion c r).size ∧ namePath (t.withRecursion c r) i = path) ↔
      (∃ i, i < t.size ∧ namePath t i = path) := by
  constructor
  · rintro ⟨i, hi, hp⟩
    exact ⟨i, hi, by rw [← hp, namePath_withRecursion]⟩
  · rintro ⟨i, hi, hp⟩
    exact ⟨i, hi, by rw [namePath_withRecursion, hp]⟩

theorem collapse_replicate (a : String) : ∀ n, collapse (List.replicate (n + 1) a) = [a] := by
  intro n
  induction n with
  | zero => rfl
  | succ n ih =>
    rw [List.replicate_succ, List.replicate_succ]
    simp only [collapse, if_true]
    rw [← List.replicate_succ]
    exact ih

theorem collapse_append_replicate (a : String) (n : Nat) : ∀ l : List String,
    (∀ x, l.getLast? = some x → x ≠ a) →
    collapse (l ++ List.replicate (n + 1) a) = collapse l ++ [a] := by
  intro l
  induction l with
  | nil => intro _; simpa [collapse] using collapse_replicate a n
  | cons x rest ih =>
    intro h
    cases rest with
    | nil =>
      have hx : x ≠ a := h x rfl
      rw [List.singleton_append, List.replicate_succ]
      simp only [collapse, hx, if_false]
      rw [← List.replicate_succ, collapse_replicate]
      rfl
    | cons y rest' =>
      have h' : ∀ z, (y :: rest').getLast? = some z → z ≠ a := by
        intro z hz
        apply h z
        rw [List.getLast?_cons_cons]; exact hz
      have ih' := ih h'
      rw [List.cons_append, List.cons_append]
      simp only [collapse]
      rw [← List.cons_append, ih']
      by_cases hxy : x = y
      · simp [hxy]
      · simp [hxy]

theorem chain_namePath {t : Tree} (hT : TreeInv t) : ∀ (rest : List Nat) (c : Nat),
    Linked t (c :: rest) → namePath t c = ((c :: rest).map t.name).reverse := by
  intro rest
  induction rest with
  | nil =>
    intro c h
    have hc : c = 0 := h.1
    subst hc
    rw [namePath_root hT.rootParent]; rfl
  | cons q rest ih =>
    intro c h
    rw [namePath_child hT h.2.2.1 h.1, ih q h.2.2.2]
    simp

theorem head?_expand (t : Tree) (q : Nat) (rest : List Nat) :
    (expand t (q :: rest)).head? = some (t.name q) := by
  simp [expand, List.replicate_succ]

theorem chain_collapse {t : Tree} (hT : TreeInv t) : ∀ (rest : List Nat) (c : Nat),
    Linked t (c :: rest) →
    collapse (expand t (c :: rest)).reverse = ((c :: rest).map t.name).reverse := by
  intro rest
  induction rest with
  | nil =>
    intro c _
    simp only [expand, List.append_nil, List.reverse_replicate, collapse_replicate]
    rfl
  | cons q rest ih =>
    intro c h
    have hne : t.name q ≠ t.name c := (hT.par c h.2.2.1 q h.1).2.2
    have e : (expand t (c :: q :: rest)).reverse =
        (expand t (q :: rest)).reverse ++ List.replicate (t.recursion c + 1) (t.name c) := by
      rw [expand, List.reverse_append, List.reverse_replicate]
    rw [e, collapse_append_replicate _ _ _ ?_, ih q h.2.2.2]
    · simp
    · intro x hx
      rw [List.getLast?_reverse, head?_expand] at hx
      cases hx
      exact hne

/-- The root-to-node name path of the current node is the call stack with "Root" at the
bottom and runs of equal names collapsed. -/
theorem StackInv.namePath_eq {t : Tree} (hT : TreeInv t) {cur : Nat} {S : List String}
    (h : StackInv t cur S) : namePath t cur = collapse ("Root" :: S.reverse) := by
  obtain ⟨rest, hl, hex, _⟩ := h
  rw [chain_namePath hT rest cur hl, ← chain_collapse hT rest cur hl, hex]
  simp

theorem HasPath_enter {t t' : Tree} {c : Nat} {name : String} {cur' : Option Nat}
    (hT : TreeInv t) (hc : c < t.size) (he : EnterEffect t c name cur' t') :
    ∃ c', cur' = some c' ∧ c' < t'.size ∧
      ∀ path, HasPath t' path ↔ (HasPath t path ∨ path = namePath t' c') := by
  rcases he with ⟨_, hc', ht'⟩ | ⟨_, ch, hmem, _, hc', ht'⟩ | ⟨_, _, hc', ht'⟩
  · subst ht'
    have hsame : ∀ i, namePath (t.withRecursion c (wrap32 (t.recursion c + 1))) i = namePath t i :=
      fun i => namePath_withRecursion t c _ i
    refine ⟨c, hc', hc, fun path => ⟨fun h => Or.inl ?_, fun h => ?_⟩⟩
    · obtain ⟨i, hi, hp⟩ := h
      exact ⟨i, hi, by rw [← hp, hsame]⟩
    · rcases h with ⟨i, hi, hp⟩ | h
      · exact ⟨i, hi, by rw [hsame, hp]⟩
      · exact ⟨c, hc, h.symm⟩
  · subst ht'
    have hch := (hT.child c hc ch hmem).2.1
    refine ⟨ch, hc', hch, fun path => ⟨Or.inl, fun h => ?_⟩⟩
    rcases h with h | h
    · exact h
    · exact ⟨ch, hch, h.symm⟩
  · subst ht'
    have hsame : ∀ i, i < t.size → namePath (t.grow c name) i = namePath t i := by
      intro i hi
      apply namePath_congr hT _ i hi
      intro k hk
      simp only [Tree.grow, Function.update_noteq (Nat.ne_of_lt hk), and_self]
    refine ⟨t.size, hc', by simp [Tree.grow], fun path => ⟨fun h => ?_, fun h => ?_⟩⟩
    · obtain ⟨i, hi, hp⟩ := h
      simp only [Tree.grow] at hi
      by_cases his : i = t.size
      · subst his; exact Or.inr hp.symm
      · exact Or.inl ⟨i, by omega, by rw [← hp, hsame i (by omega)]⟩
    · rcases h with ⟨i, hi, hp⟩ | h
      · exact ⟨i, by simp only [Tree.grow]; omega, by rw [hsame i hi, hp]⟩
      · exact ⟨t.size, by simp [Tree.grow], h.symm⟩

theorem HasPath_leave {t t' : Tree} {c : Nat} {cur' : Option Nat}
    (he : LeaveEffect t c cur' t') :
    ∀ path, HasPath t' path ↔ HasPath t path := by
  rcases he with ⟨_, _, ht'⟩ | ⟨_, _, ht'⟩
  · subst ht'
    intro path
    exact HasPath_withRecursion t c _ path
  · subst ht'
    intro path
    exact Iff.rfl

@[simp] theorem PerfNode.TimerStart_function_name_ (n : PerfNode) (clk : Clock) :
    (n.TimerStart clk).function_name_ = n.function_name_ := rfl

@[simp] theorem PerfNode.TimerStart_children_ (n : PerfNode) (clk : Clock) :
    (n.TimerStart clk).children_ = n.children_ := rfl

@[simp] theorem PerfNode.TimerStart_parent_ (n : PerfNode) (clk : Clock) :
    (n.TimerStart clk).parent_ = n.parent_ := rfl

@[simp] theorem PerfNode.TimerStart_recursion_ (n : PerfNode) (clk : Clock) :
    (n.TimerStart clk).recursion_ = n.recursion_ := rfl

@[simp] theorem PerfNode.TimerStart_calls_ (n : PerfNode) (clk : Clock) :
    (n.TimerStart clk).calls_ = n.calls_ := rfl

@[simp] theorem PerfNode.TimerStart_shape (n : PerfNode) (clk : Clock) :
    (n.TimerStart clk).shape = n.shape := rfl

@[simp] theorem PerfNode.TimerEnd_function_name_ (n : PerfNode) (clk : Clock) :
    (n.TimerEnd clk).function_name_ = n.function_name_ := rfl

@[simp] theorem PerfNode.TimerEnd_children_ (n : PerfNode) (clk : Clock) :
    (n.TimerEnd clk).children_ = n.children_ := rfl

@[simp] theorem PerfNode.TimerEnd_parent_ (n : PerfNode) (clk : Clock) :
    (n.TimerEnd clk).parent_ = n.parent_ := rfl

@[simp] theorem PerfNode.TimerEnd_recursion_ (n : PerfNode) (clk : Clock) :
    (n.TimerEnd clk).recursion_ = n.recursion_ := rfl

@[simp] theorem PerfNode.TimerEnd_calls_ (n : PerfNode) (clk : Clock) :
    (n.TimerEnd clk).calls_ = n.calls_ := rfl

@[simp] theorem PerfNode.TimerEnd_shape (n : PerfNode) (clk : Clock) :
    (n.TimerEnd clk).shape = n.shape := rfl

theorem mem_stacksSeen_self (B : List String) (cs : List Call) : B ∈ stacksSeen B cs := by
  cases cs with
  | nil => simp [stacksSeen]
  | cons c cs => cases c <;> simp [stacksSeen]

theorem Inv.hasPath_stack {p : IProfiler} {S : List String} (h : Inv p S) :
    HasPath (treeOf p.heap) (collapse ("Root" :: S.reverse)) := by
  obtain ⟨_, _, hT, _, cur, _, hS⟩ := h
  exact ⟨cur, hS.lt_size, hS.namePath_eq hT⟩

theorem Inv.namePath_current {p : IProfiler} {S : List String} (h : Inv p S) (c : Nat)
    (hc : p.current_ = some c) : namePath (treeOf p.heap) c = collapse ("Root" :: S.reverse) := by
  obtain ⟨_, _, hT, _, cur, hcur, hS⟩ := h
  rw [hcur] at hc
  cases hc
  exact hS.namePath_eq hT

/-- Along a call sequence that never underflows and whose nesting depth stays below
`2^32`, the name paths of the tree are those it had plus the collapsed call stacks
that occur. -/
theorem run_paths : ∀ (cs : List Call) (p : IProfiler) (S : List String), Inv p S →
    depthAfter S.length cs ≠ none → peakDepth S.length cs < 4294967296 →
    ∃ q S', run p cs = some q ∧ Inv q S' ∧
      ∀ path, HasPath (treeOf q.heap) path ↔
        (HasPath (treeOf p.heap) path ∨
          path ∈ (stacksSeen ("Root" :: S.reverse) cs).map collapse) := by
  intro cs
  induction cs with
  | nil =>
    intro p S h _ _
    refine ⟨p, S, rfl, h, fun path => ⟨Or.inl, fun hp => ?_⟩⟩
    rcases hp with hp | hp
    · exact hp
    · simp only [stacksSeen, List.map_cons, List.map_nil, List.mem_singleton] at hp
      rw [hp]; exact h.hasPath_stack
  | cons c cs ih =>
    intro p S h hd hp
    cases c with
    | enter name clk =>
      simp only [depthAfter] at hd
      simp only [peakDepth] at hp
      have hp2 : peakDepth (S.length + 1) cs < 4294967296 := lt_of_le_of_lt (Nat.le_max_right _ _) hp
      have hb : S.length + 1 < 4294967296 := lt_of_le_of_lt (le_peakDepth _ _) hp2
      obtain ⟨q, cur, hq, hinv, hlt, heff⟩ := Inv_Enter_effect p S name clk h hb
      obtain ⟨c', hc', _, hpaths⟩ := HasPath_enter h.2.2.1 hlt heff
      obtain ⟨r, S', hr, hinv', hfinal⟩ := ih q (name :: S) hinv hd hp2
      refine ⟨r, S', by rw [run_enter_cons _ hq]; exact hr, hinv', fun path => ?_⟩
      have hB : ("Root" :: S.reverse) ++ [name] = "Root" :: (name :: S).reverse := by simp
      rw [hfinal path, hpaths path, hinv.namePath_current c' hc']
      simp only [stacksSeen, List.map_cons, List.mem_cons, hB]
      constructor
      · rintro ((h1 | h1) | h1)
        · exact Or.inl h1
        · right; right; rw [h1]
          exact List.mem_map_of_mem _ (mem_stacksSeen_self _ _)
        · exact Or.inr (Or.inr h1)
      · rintro (h1 | h1 | h1)
        · exact Or.inl (Or.inl h1)
        · rw [h1]; exact Or.inl (Or.inl h.hasPath_stack)
        · exact Or.inr h1
    | leave clk =>
      cases S with
      | nil => exact absurd (by simp [depthAfter]) hd
      | cons x S =>
        simp only [depthAfter, List.length_cons] at hd
        simp only [peakDepth, List.length_cons, Nat.add_sub_cancel] at hp
        have hp2 : peakDepth S.length cs < 4294967296 := lt_of_le_of_lt (Nat.le_max_right _ _) hp
        obtain ⟨q, cur, hq, hinv, heff⟩ := Inv_Leave_effect p S x clk h
        have hpaths := HasPath_leave heff
        obtain ⟨r, S', hr, hinv', hfinal⟩ := ih q S hinv hd hp2
        refine ⟨r, S', by rw [run_leave_cons _ hq]; exact hr, hinv', fun path => ?_⟩
        have hB : ("Root" :: (x :: S).reverse).dropLast = "Root" :: S.reverse := by
          rw [List.reverse_cons, ← List.cons_append, List.dropLast_concat]
        rw [hfinal path, hpaths path]
        simp only [stacksSeen, List.map_cons, List.mem_cons, hB]
        constructor
        · rintro (h1 | h1)
          · exact Or.inl h1
          · exact Or.inr (Or.inr h1)
        · rintro (h1 | h1 | h1)
          · exact Or.inl h1
          · rw [h1]; exact Or.inl h.hasPath_stack
          · exact Or.inr h1

/-- The end-to-end scenario of the specification: `main` calls `parse` and `run`, and
`run` calls `parse`. -/
theorem scenario_tree (c0 c1 c2 c3 c4 c5 c6 c7 c8 : Clock) :
    ∃ p, run (IProfiler.new c0)
        [Call.enter "main" c1, Call.enter "parse" c2, Call.leave c3, Call.enter "run" c4,
         Call.enter "parse" c5, Call.leave c6, Call.leave c7, Call.leave c8] = some p ∧
      p.heap.map PerfNode.shape =
        [("Root", [1], none, 1, 0), ("main", [2, 3], some 0, 1, 0),
         ("parse", [], some 1, 1, 0), ("run", [4], some 1, 1, 0),
         ("parse", [], some 3, 1, 0)] ∧
      p.current_ = some 0 ∧ p.root_ = some 0 := by
  have w1 : wrap32 1 = 1 := by decide
  have w2 : wrap32 (1 + 1) = 2 := by decide
  have w3 : wrap32 (2 + 1) = 3 := by decide
  have w4 : wrap32 (3 + 4294967295) = 2 := by decide
  have w5 : wrap32 (2 + 4294967295) = 1 := by decide
  have w6 : wrap32 (1 + 4294967295) = 0 := by decide
  simp [-Nat.reduceAdd, run, step, Enter, Leave, FindChildren, findLoop, modify, enterNode,
    createChild, CreateNode, IProfiler.new, PerfNode.new, PerfNode.shape,
    w1, w2, w3, w4, w5, w6]

/-- C5 (amended): for every call sequence on a fresh profiler that never underflows (in
particular every well-nested one) and whose nesting depth stays below `2^32`, every call
is defined and the resulting tree is the trie of the observed call paths: distinct
nodes have distinct root-to-node name paths, and a list of names is the path of some
node exactly when it is one of the call stacks that occurred, read with "Root" at the
bottom and runs of equal names collapsed. The scenario `Enter("main") Enter("parse")
Leave() Enter("run") Enter("parse") Leave() Leave() Leave()` gives exactly
root -> main -> {parse, run -> parse}, every `calls_` equal to 1, with the children of
`main` in the order parse, run. -/
theorem tree_is_trie_of_call_paths (clk0 : Clock) (cs : List Call)
    (hnest : depthAfter 0 cs ≠ none) (hpeak : peakDepth 0 cs < 4294967296) :
    (∃ p, run (IProfiler.new clk0) cs = some p ∧
      (∀ i j, i < p.heap.length → j < p.heap.length →
        namePath (treeOf p.heap) i = namePath (treeOf p.heap) j → i = j) ∧
      (∀ path, (∃ i, i < p.heap.length ∧ namePath (treeOf p.heap) i = path) ↔
        path ∈ observedPaths cs)) ∧
    (∀ c0 c1 c2 c3 c4 c5 c6 c7 c8 : Clock,
      ∃ p, run (IProfiler.new c0)
          [Call.enter "main" c1, Call.enter "parse" c2, Call.leave c3, Call.enter "run" c4,
           Call.enter "parse" c5, Call.leave c6, Call.leave c7, Call.leave c8] = some p ∧
        p.heap.map PerfNode.shape =
          [("Root", [1], none, 1, 0), ("main", [2, 3], some 0, 1, 0),
           ("parse", [], some 1, 1, 0), ("run", [4], some 1, 1, 0),
           ("parse", [], some 3, 1, 0)] ∧
        p.current_ = some 0 ∧ p.root_ = some 0) := by
  refine ⟨?_, scenario_tree⟩
  obtain ⟨q, S', hq, hinv, hpaths⟩ := run_paths cs (IProfiler.new clk0) [] (Inv_new clk0) hnest hpeak
  refine ⟨q, hq, namePath_injective hinv.2.2.1, fun path => ?_⟩
  have h0 := hpaths path
  simp only [List.reverse_nil] at h0
  show HasPath (treeOf q.heap) path ↔ _
  rw [h0]
  constructor
  · rintro (⟨i, hi, hp⟩ | h1)
    · have hi0 : i = 0 := by
        simp only [treeOf, IProfiler.new, List.length_singleton] at hi
        omega
      subst hi0
      rw [← hp]
      have : namePath (treeOf (IProfiler.new clk0).heap) 0 = collapse ["Root"] := rfl
      rw [this]
      exact List.mem_map_of_mem _ (mem_stacksSeen_self _ _)
    · exact h1
  · exact Or.inr

/-- C5 on the end-to-end scenario, with the list of its observed call paths. -/
theorem tree_is_trie_of_call_paths_witness :
    depthAfter 0
        [Call.enter "main" ⟨10, 1, 1⟩, Call.enter "parse" ⟨10, 2, 2⟩, Call.leave ⟨10, 3, 3⟩,
         Call.enter "run" ⟨10, 4, 4⟩, Call.enter "parse" ⟨10, 5, 5⟩, Call.leave ⟨10, 6, 6⟩,
         Call.leave ⟨10, 7, 7⟩, Call.leave ⟨10, 8, 8⟩] = some 0 ∧
    observedPaths
        [Call.enter "main" ⟨10, 1, 1⟩, Call.enter "parse" ⟨10, 2, 2⟩, Call.leave ⟨10, 3, 3⟩,
         Call.enter "run" ⟨10, 4, 4⟩, Call.enter "parse" ⟨10, 5, 5⟩, Call.leave ⟨10, 6, 6⟩,
         Call.leave ⟨10, 7, 7⟩, Call.leave ⟨10, 8, 8⟩] =
      [["Root"], ["Root", "main"], ["Root", "main", "parse"], ["Root", "main"],
       ["Root", "main", "run"], ["Root", "main", "run", "parse"], ["Root", "main", "run"],
       ["Root", "main"], ["Root"]] ∧
    ∃ p, run (IProfiler.new ⟨10, 0, 0⟩)
        [Call.enter "main" ⟨10, 1, 1⟩, Call.enter "parse" ⟨10, 2, 2⟩, Call.leave ⟨10, 3, 3⟩,
         Call.enter "run" ⟨10, 4, 4⟩, Call.enter "parse" ⟨10, 5, 5⟩, Call.leave ⟨10, 6, 6⟩,
         Call.leave ⟨10, 7, 7⟩, Call.leave ⟨10, 8, 8⟩] = some p ∧
      (∀ i j, i < p.heap.length → j < p.heap.length →
        namePath (treeOf p.heap) i = namePath (treeOf p.heap) j → i = j) ∧
      (∀ path, (∃ i, i < p.heap.length ∧ namePath (treeOf p.heap) i = path) ↔
        path ∈ observedPaths
          [Call.enter "main" ⟨10, 1, 1⟩, Call.enter "parse" ⟨10, 2, 2⟩, Call.leave ⟨10, 3, 3⟩,
           Call.enter "run" ⟨10, 4, 4⟩, Call.enter "parse" ⟨10, 5, 5⟩, Call.leave ⟨10, 6, 6⟩,
           Call.leave ⟨10, 7, 7⟩, Call.leave ⟨10, 8, 8⟩]) :=
  ⟨by decide, by decide,
    (tree_is_trie_of_call_paths ⟨10, 0, 0⟩ _ (by decide) (by decide)).1⟩

/-! ## The claims on concrete call sequences -/

/-- C2 (amended): for every `k` with `1 ≤ k < 2^32` (here `k = cks.length + 1`) and every
name `A` different from the current node's name, `k` consecutive `Enter(A); Leave()`
pairs from a state whose current node `c` has no child named `A` are all defined; they
bring `current_` back to `c` and add exactly one node to the store, appended to the
children of `c`, named `A`, with `calls_ == k`; the earlier children of `c` are still
not named `A`, so `c` has exactly one child named `A`. -/
theorem repeated_entry_counts_calls (p : IProfiler) (c : Nat) (cur : PerfNode) (A : String)
    (hc : p.current_ = some c) (hcur : p.heap[c]? = some cur)
    (hname : cur.function_name_ ≠ A)
    (hchildren : ∀ ch ∈ cur.children_, ∃ nd, p.heap[ch]? = some nd ∧ nd.function_name_ ≠ A)
    (ck : Clock × Clock) (cks : List (Clock × Clock)) (hk : cks.length + 1 < 4294967296) :
    ∃ q node, run p (enterLeavePairs A (ck :: cks)) = some q ∧ q.current_ = some c ∧
      q.heap.length = p.heap.length + 1 ∧
      q.heap[c]? = some { cur with children_ := cur.children_ ++ [p.heap.length] } ∧
      q.heap[p.heap.length]? = some node ∧ node.function_name_ = A ∧
      node.parent_ = some c ∧ node.calls_ = cks.length + 1 ∧
      (∀ ch ∈ cur.children_, ∃ nd, q.heap[ch]? = some nd ∧ nd.function_name_ ≠ A) := by
  obtain ⟨q, hq, h1, _, h2, h3, ⟨node, h4, h5, h6, _, _, h9⟩, h10⟩ :=
    run_pairs p c cur A hc hcur hname hchildren ck cks
  refine ⟨q, node, hq, h1, h2, h3, h4, h5, h6, by rw [h9, wrap32_of_lt hk], ?_⟩
  intro ch hch
  obtain ⟨nd, ha, hb⟩ := hchildren ch hch
  by_cases hcc : ch = c
  · subst hcc; exact ⟨_, h3, hname⟩
  · rw [h10 ch hcc (lt_of_lookup ha)]; exact ⟨nd, ha, hb⟩

/-- C2 for `k = 2` at the top level of a fresh profiler. -/
theorem repeated_entry_counts_calls_witness :
    ∃ q node, run (IProfiler.new ⟨10, 0, 0⟩)
        (enterLeavePairs "A" [(⟨10, 1, 10⟩, ⟨10, 2, 20⟩), (⟨10, 3, 30⟩, ⟨10, 4, 40⟩)]) = some q ∧
      q.current_ = some 0 ∧
      q.heap.length = (IProfiler.new ⟨10, 0, 0⟩).heap.length + 1 ∧
      q.heap[0]? = some { (PerfNode.new "Root").TimerStart ⟨10, 0, 0⟩ with
        children_ := ((PerfNode.new "Root").TimerStart ⟨10, 0, 0⟩).children_ ++
          [(IProfiler.new ⟨10, 0, 0⟩).heap.length] } ∧
      q.heap[(IProfiler.new ⟨10, 0, 0⟩).heap.length]? = some node ∧ node.function_name_ = "A" ∧
      node.parent_ = some 0 ∧ node.calls_ = [(Clock.mk 10 3 30, Clock.mk 10 4 40)].length + 1 ∧
      (∀ ch ∈ ((PerfNode.new "Root").TimerStart ⟨10, 0, 0⟩).children_,
        ∃ nd, q.heap[ch]? = some nd ∧ nd.function_name_ ≠ "A") :=
  repeated_entry_counts_calls (IProfiler.new ⟨10, 0, 0⟩) 0
    ((PerfNode.new "Root").TimerStart ⟨10, 0, 0⟩) "A" rfl rfl (by decide)
    (fun ch hch => by cases hch) (⟨10, 1, 10⟩, ⟨10, 2, 20⟩) [(⟨10, 3, 30⟩, ⟨10, 4, 40⟩)]
    (by decide)

/-- C2 fails as stated at `k = 2^32`: after `2^32` pairs `Enter("A"); Leave()` on a fresh
profiler the one child named "A" has `calls_ == 0`, not `2^32`. -/
theorem repeated_entry_calls_wrap :
    ∃ q node, run (IProfiler.new ⟨10, 0, 0⟩)
        (enterLeavePairs "A" (List.replicate 4294967296 (⟨10, 1, 1⟩, ⟨10, 2, 2⟩))) = some q ∧
      q.heap[1]? = some node ∧ node.function_name_ = "A" ∧ node.calls_ = 0 ∧
      node.calls_ ≠ 4294967296 := by
  obtain ⟨q, hq, _, _, _, _, ⟨node, h4, h5, _, _, _, h9⟩, _⟩ :=
    run_pairs (IProfiler.new ⟨10, 0, 0⟩) 0 ((PerfNode.new "Root").TimerStart ⟨10, 0, 0⟩) "A"
      rfl rfl (by decide) (fun ch hch => by cases hch) (⟨10, 1, 1⟩, ⟨10, 2, 2⟩)
      (List.replicate 4294967295 (⟨10, 1, 1⟩, ⟨10, 2, 2⟩))
  have hz : node.calls_ = 0 := by
    rw [h9, List.length_replicate]; decide
  exact ⟨q, node, hq, h4, h5, hz, by rw [hz]; decide⟩

/-- C4: for pairwise distinct names `A`, `B`, `X` with `A` and `B` other than "Root",
`Enter(A) Enter(X) Leave() Leave() Enter(B) Enter(X) Leave() Leave()` on a fresh
profiler yields the tree root -> {A -> X, B -> X}: two distinct nodes named `X`, one
whose parent is the `A` node and one whose parent is the `B` node, each with
`calls_ == 1`. -/
theorem path_sensitivity (A B X : String) (hAB : A ≠ B) (hAX : A ≠ X) (hBX : B ≠ X)
    (hA : A ≠ "Root") (hB : B ≠ "Root") (c0 c1 c2 c3 c4 c5 c6 c7 c8 : Clock) :
    ∃ p, run (IProfiler.new c0)
        [Call.enter A c1, Call.enter X c2, Call.leave c3, Call.leave c4,
         Call.enter B c5, Call.enter X c6, Call.leave c7, Call.leave c8] = some p ∧
      p.heap.map PerfNode.shape =
        [("Root", [1, 3], none, 1, 0), (A, [2], some 0, 1, 0), (X, [], some 1, 1, 0),
         (B, [4], some 0, 1, 0), (X, [], some 3, 1, 0)] ∧
      p.current_ = some 0 ∧ p.root_ = some 0 ∧ p.level_ = 0 := by
  have h1 : ¬ ("Root" = A) := fun h => hA h.symm
  have h2 : ¬ ("Root" = B) := fun h => hB h.symm
  have w1 : wrap32 1 = 1 := by decide
  have w2 : wrap32 (1 + 1) = 2 := by decide
  have w3 : wrap32 (2 + 4294967295) = 1 := by decide
  have w4 : wrap32 (1 + 4294967295) = 0 := by decide
  simp [-Nat.reduceAdd, run, step, Enter, Leave, FindChildren, findLoop, modify, enterNode,
    createChild, CreateNode, IProfiler.new, PerfNode.new, PerfNode.shape, h1, h2, hAB, hAX, hBX,
    w1, w2, w3, w4]

/-- C4 for the names "A", "B", "X". -/
theorem path_sensitivity_witness :
    ∃ p, run (IProfiler.new ⟨10, 0, 0⟩)
        [Call.enter "A" ⟨10, 1, 1⟩, Call.enter "X" ⟨10, 2, 2⟩, Call.leave ⟨10, 3, 3⟩,
         Call.leave ⟨10, 4, 4⟩, Call.enter "B" ⟨10, 5, 5⟩, Call.enter "X" ⟨10, 6, 6⟩,
         Call.leave ⟨10, 7, 7⟩, Call.leave ⟨10, 8, 8⟩] = some p ∧
      p.heap.map PerfNode.shape =
        [("Root", [1, 3], none, 1, 0), ("A", [2], some 0, 1, 0), ("X", [], some 1, 1, 0),
         ("B", [4], some 0, 1, 0), ("X", [], some 3, 1, 0)] ∧
      p.current_ = some 0 ∧ p.root_ = some 0 ∧ p.level_ = 0 :=
  path_sensitivity "A" "B" "X" (by decide) (by decide) (by decide) (by decide) (by decide)
    _ _ _ _ _ _ _ _ _

/-- C6: for names `A ≠ B` with `A` other than "Root", `Enter(A) Enter(B) Enter(A)` on a
fresh profiler yields the chain root -> A -> B -> A' of three distinct non-root nodes:
the inner `A'` is a new node with `calls_ == 1`, and the outer `A` node keeps
`recursion_ == 0` and `calls_ == 1` (the name is compared with `current_` only). -/
theorem indirect_recursion_not_collapsed (A B : String) (hAB : A ≠ B) (hA : A ≠ "Root")
    (c0 c1 c2 c3 : Clock) :
    ∃ p, run (IProfiler.new c0) [Call.enter A c1, Call.enter B c2, Call.enter A c3] = some p ∧
      p.heap.map PerfNode.shape =
        [("Root", [1], none, 1, 0), (A, [2], some 0, 1, 0), (B, [3], some 1, 1, 0),
         (A, [], some 2, 1, 0)] ∧
      p.current_ = some 3 ∧ p.root_ = some 0 ∧ p.level_ = 3 := by
  have h1 : ¬ ("Root" = A) := fun h => hA h.symm
  have h2 : ¬ (B = A) := fun h => hAB h.symm
  have w1 : wrap32 1 = 1 := by decide
  have w2 : wrap32 2 = 2 := by decide
  have w3 : wrap32 3 = 3 := by decide
  simp [run, step, Enter, FindChildren, findLoop, modify, enterNode, createChild, CreateNode,
    IProfiler.new, PerfNode.new, PerfNode.shape, h1, h2, hAB, w1, w2, w3]

/-- C6 for the names "A", "B". -/
theorem indirect_recursion_not_collapsed_witness :
    ∃ p, run (IProfiler.new ⟨10, 0, 0⟩)
        [Call.enter "A" ⟨10, 1, 1⟩, Call.enter "B" ⟨10, 2, 2⟩, Call.enter "A" ⟨10, 3, 3⟩] = some p ∧
      p.heap.map PerfNode.shape =
        [("Root", [1], none, 1, 0), ("A", [2], some 0, 1, 0), ("B", [3], some 1, 1, 0),
         ("A", [], some 2, 1, 0)] ∧
      p.current_ = some 3 ∧ p.root_ = some 0 ∧ p.level_ = 3 :=
  indirect_recursion_not_collapsed "A" "B" (by decide) (by decide) _ _ _ _

/-! ## Sessions nested `2^32` deep -/

theorem replicate_enter (A : String) (c : Clock) (n : Nat) :
    List.replicate n (Call.enter A c) = (List.replicate n c).map (Call.enter A) :=
  (List.map_replicate).symm

theorem replicate_leave (c : Clock) (n : Nat) :
    List.replicate n (Call.leave c) = (List.replicate n c).map Call.leave :=
  (List.map_replicate).symm

theorem depthAfter_balanced (A : String) (es ls : List Clock) (h : es.length = ls.length) :
    depthAfter 0 (es.map (Call.enter A) ++ ls.map Call.leave) = some 0 := by
  rw [depthAfter_enters, h]
  have := depthAfter_leaves ls [] 0
  rw [List.append_nil] at this
  rw [this]
  simp [depthAfter]

/-- A session that is well nested but `2^32 + 1` deep in one function: the third
`Leave` dereferences the null `current_`. -/
theorem run_deep_recursion (A : String) (hA : A ≠ "Root") (c0 e l : Clock) :
    run (IProfiler.new c0)
        (List.replicate 4294967297 (Call.enter A e) ++ List.replicate 4294967297 (Call.leave l)) =
      none := by
  have e1 : List.replicate 4294967297 (Call.enter A e) =
      Call.enter A e :: (List.replicate 4294967296 e).map (Call.enter A) := by
    rw [List.map_replicate]; rfl
  have e2 : List.replicate 4294967297 (Call.leave l) =
      Call.leave l :: Call.leave l :: (List.replicate 4294967295 l).map Call.leave := by
    rw [List.map_replicate]; rfl
  rw [e1, e2, List.cons_append,
    run_overflow A hA c0 e l l _ (List.length_replicate _ _) _]
  apply run_null _ _ rfl
  intro h
  have := congrArg List.length h
  rw [List.length_map, List.length_replicate] at this
  exact absurd this (by decide)

/-- C1 fails as stated: this sequence is well nested (no prefix with more `Leave`s than
`Enter`s, totals equal), yet on a fresh profiler it has no final state at all: after
`2^32 + 1` nested `Enter("f")` the recursion counter has wrapped to zero, the second
`Leave` makes `current_` null and the third dereferences it. -/
theorem balanced_session_overflow :
    depthAfter 0 (List.replicate 4294967297 (Call.enter "f" ⟨10, 0, 0⟩) ++
        List.replicate 4294967297 (Call.leave ⟨10, 0, 0⟩)) = some 0 ∧
    run (IProfiler.new ⟨10, 0, 0⟩)
        (List.replicate 4294967297 (Call.enter "f" ⟨10, 0, 0⟩) ++
          List.replicate 4294967297 (Call.leave ⟨10, 0, 0⟩)) = none := by
  refine ⟨?_, run_deep_recursion "f" (by decide) _ _ _⟩
  rw [replicate_enter, replicate_leave]
  exact depthAfter_balanced "f" _ _ (by simp only [List.length_replicate])

/-- C3 fails as stated at `n = 2^32 + 1`: `n` calls `Enter("A")` followed by `n` calls
`Leave()` on a fresh profiler reach no final state (the third `Leave` dereferences the
null `current_`), so there is no node with the single span as its cycle total. -/
theorem recursion_collapse_overflow :
    ¬ ∃ p, run (IProfiler.new ⟨10, 0, 0⟩)
        (List.replicate 4294967297 (Call.enter "A" ⟨10, 1, 1⟩) ++
          List.replicate 4294967297 (Call.leave ⟨10, 2, 2⟩)) = some p := by
  rw [run_deep_recursion "A" (by decide)]
  rintro ⟨p, hp⟩
  cases hp

/-- C5 fails as stated: this well-nested sequence, `2^32 + 1` deep in "g", leaves no
tree behind: the run is undefined from its third `Leave` on. -/
theorem trie_overflow :
    depthAfter 0 (List.replicate 4294967297 (Call.enter "g" ⟨10, 3, 3⟩) ++
        List.replicate 4294967297 (Call.leave ⟨10, 4, 4⟩)) = some 0 ∧
    ∀ p, run (IProfiler.new ⟨10, 0, 0⟩)
        (List.replicate 4294967297 (Call.enter "g" ⟨10, 3, 3⟩) ++
          List.replicate 4294967297 (Call.leave ⟨10, 4, 4⟩)) ≠ some p := by
  refine ⟨?_, ?_⟩
  · rw [replicate_enter, replicate_leave]
    exact depthAfter_balanced "g" _ _ (by simp only [List.length_replicate])
  · intro p
    rw [run_deep_recursion "g" (by decide)]
    exact Option.noConfusion

/-- C7 fails as stated: in this sequence every prefix holds at least as many `Enter`s as
`Leave`s, yet after its last call `current_` is null: the recursion counter wrapped to
zero at the `2^32`-th re-entry, so the two `Leave`s close the node and then the root. -/
theorem current_null_after_overflow :
    depthAfter 0 (List.replicate 4294967297 (Call.enter "f" ⟨10, 0, 0⟩) ++
        [Call.leave ⟨10, 1, 1⟩, Call.leave ⟨10, 2, 2⟩]) = some 4294967295 ∧
    ∃ p, run (IProfiler.new ⟨10, 0, 0⟩)
        (List.replicate 4294967297 (Call.enter "f" ⟨10, 0, 0⟩) ++
          [Call.leave ⟨10, 1, 1⟩, Call.leave ⟨10, 2, 2⟩]) = some p ∧ p.current_ = none := by
  refine ⟨?_, ?_⟩
  · rw [replicate_enter, depthAfter_enters, List.length_replicate]
    rfl
  · have e1 : List.replicate 4294967297 (Call.enter "f" ⟨10, 0, 0⟩) =
        Call.enter "f" ⟨10, 0, 0⟩ :: (List.replicate 4294967296 ⟨10, 0, 0⟩).map (Call.enter "f") := by
      rw [List.map_replicate]; rfl
    rw [e1, List.cons_append,
      run_overflow "f" (by decide) _ _ _ _ _ (List.length_replicate _ _) []]
    exact ⟨_, rfl, rfl⟩

/-! ## Stack underflow -/

/-- C8: `Leave()` on a fresh profiler (where `current_ == root_` and the root's
`recursion_` is 0) is not rejected: it ends the root's timer, wraps `level_` and sets
`current_` to the root's parent, which is null; every following `Enter` and every
following `Leave` then dereferences the null `current_`. -/
theorem leave_without_enter_unguarded (clk0 clk : Clock) :
    (IProfiler.new clk0).current_ = (IProfiler.new clk0).root_ ∧
    ∃ p, Leave (IProfiler.new clk0) clk = some p ∧
      p.heap = [((PerfNode.new "Root").TimerStart clk0).TimerEnd clk] ∧
      p.root_ = some 0 ∧ p.current_ = none ∧
      (∀ name c, Enter p name c = none) ∧ (∀ c, Leave p c = none) := by
  refine ⟨rfl, _, rfl, rfl, rfl, rfl, ?_, ?_⟩
  · intro name c; rfl
  · intro c; rfl

/-! ## Rounding -/

theorem Double.pow2_eq_zpow (k : Int) : Double.pow2 k = (2 : ℚ) ^ k := by
  cases k with
  | ofNat n =>
    simp only [Double.pow2]
    rw [Int.ofNat_eq_coe, zpow_natCast]
    push_cast
    rfl
  | negSucc n =>
    simp only [Double.pow2]
    rw [zpow_negSucc]
    push_cast
    rw [one_div]

theorem Double.log2Fuel_spec : ∀ (fuel n : Nat), 1 ≤ n → n < 2 ^ fuel →
    2 ^ Double.log2Fuel fuel n ≤ n ∧ n < 2 ^ (Double.log2Fuel fuel n + 1) := by
  intro fuel
  induction fuel with
  | zero => intro n h1 h2; simp at h2; omega
  | succ f ih =>
    intro n h1 h2
    by_cases h : n < 2
    · have hn : n = 1 := by omega
      subst hn
      simp [Double.log2Fuel]
    · have h3 : 1 ≤ n / 2 := by omega
      have h4 : n / 2 < 2 ^ f := by
        rw [pow_succ] at h2
        omega
      obtain ⟨ha, hb⟩ := ih (n / 2) h3 h4
      simp only [Double.log2Fuel, h, if_false]
      constructor
      · rw [pow_succ]; omega
      · rw [pow_succ]; rw [pow_succ] at hb ⊢; omega

theorem Double.log2_spec (n : Nat) (h : 1 ≤ n) :
    2 ^ Double.log2 n ≤ n ∧ n < 2 ^ (Double.log2 n + 1) :=
  Double.log2Fuel_spec n n h (Nat.lt_two_pow n)

theorem Double.quotient_bounds (N D ln ld : Nat) (hD : 0 < D)
    (n1 : 2 ^ ln ≤ N) (n2 : N < 2 ^ (ln + 1)) (d1 : 2 ^ ld ≤ D) (d2 : D < 2 ^ (ld + 1)) :
    (2 : ℚ) ^ ((ln : ℤ) - (ld : ℤ) - 1) ≤ (N : ℚ) / (D : ℚ) ∧
    (N : ℚ) / (D : ℚ) < (2 : ℚ) ^ ((ln : ℤ) - (ld : ℤ) + 1) := by
  have hdq : (0 : ℚ) < (D : ℚ) := by exact_mod_cast hD
  have n1q : (2 : ℚ) ^ ln ≤ (N : ℚ) := by exact_mod_cast n1
  have n2q : (N : ℚ) < (2 : ℚ) ^ ln * 2 := by rw [← pow_succ]; exact_mod_cast n2
  have d1q : (2 : ℚ) ^ ld ≤ (D : ℚ) := by exact_mod_cast d1
  have d2q : (D : ℚ) < (2 : ℚ) ^ ld * 2 := by rw [← pow_succ]; exact_mod_cast d2
  have h2 : (2 : ℚ) ≠ 0 := two_ne_zero
  have hk : (2 : ℚ) ^ ((ln : ℤ) - (ld : ℤ)) = (2 : ℚ) ^ ln / (2 : ℚ) ^ ld := by
    rw [zpow_sub₀ h2, zpow_natCast, zpow_natCast]
  have hp1 : (0 : ℚ) < (2 : ℚ) ^ ln := pow_pos two_pos _
  have hp2 : (0 : ℚ) < (2 : ℚ) ^ ld := pow_pos two_pos _
  constructor
  · rw [zpow_sub_one₀ h2, hk, div_mul_eq_mul_div, div_le_div_iff₀ hp2 hdq]
    have h3 : 2⁻¹ * (D : ℚ) ≤ (2 : ℚ) ^ ld := by linarith
    calc (2 : ℚ) ^ ln * 2⁻¹ * (D : ℚ)
        = (2 : ℚ) ^ ln * (2⁻¹ * (D : ℚ)) := by ring
      _ ≤ (2 : ℚ) ^ ln * (2 : ℚ) ^ ld := mul_le_mul_of_nonneg_left h3 (le_of_lt hp1)
      _ ≤ (N : ℚ) * (2 : ℚ) ^ ld := mul_le_mul_of_nonneg_right n1q (le_of_lt hp2)
  · rw [zpow_add_one₀ h2, hk, div_mul_eq_mul_div, div_lt_div_iff₀ hdq hp2]
    calc (N : ℚ) * (2 : ℚ) ^ ld
        < ((2 : ℚ) ^ ln * 2) * (2 : ℚ) ^ ld := mul_lt_mul_of_pos_right n2q hp2
      _ ≤ ((2 : ℚ) ^ ln * 2) * (D : ℚ) := mul_le_mul_of_nonneg_left d1q (by positivity)

theorem Double.ilog2_spec (a : ℚ) (ha : 0 < a) :
    (2 : ℚ) ^ Double.ilog2 a ≤ a ∧ a < (2 : ℚ) ^ (Double.ilog2 a + 1) := by
  have hnum : 0 < a.num := Rat.num_pos.mpr ha
  have hden : 0 < a.den := a.den_pos
  have hn1 : 1 ≤ a.num.natAbs := by omega
  obtain ⟨n1, n2⟩ := Double.log2_spec a.num.natAbs hn1
  obtain ⟨d1, d2⟩ := Double.log2_spec a.den hden
  have hnum' : (a.num.natAbs : ℚ) = (a.num : ℚ) := by
    have h : ((a.num.natAbs : ℤ) : ℚ) = (a.num : ℚ) := by
      rw [Int.natAbs_of_nonneg (le_of_lt hnum)]
    rw [Int.cast_natCast] at h
    exact h
  have ha' : (a.num.natAbs : ℚ) / (a.den : ℚ) = a := by
    rw [hnum']; exact Rat.num_div_den a
  obtain ⟨lo, hi⟩ := Double.quotient_bounds a.num.natAbs a.den _ _ hden n1 n2 d1 d2
  rw [ha'] at lo hi
  unfold Double.ilog2
  simp only [Double.pow2_eq_zpow]
  split
  · rename_i hlt
    refine ⟨lo, ?_⟩
    rw [sub_add_cancel]; exact hlt
  · rename_i hge
    exact ⟨not_lt.mp hge, hi⟩

theorem Double.roundHalfEven_spec (x : ℚ) : |(Double.roundHalfEven x : ℚ) - x| ≤ 1 / 2 := by
  have hf : (x.num / (x.den : ℤ) : ℤ) = ⌊x⌋ := Rat.floor_def.symm
  have h1 : ((⌊x⌋ : ℤ) : ℚ) ≤ x := Int.floor_le x
  have h2 : x < ((⌊x⌋ : ℤ) : ℚ) + 1 := Int.lt_floor_add_one x
  unfold Double.roundHalfEven
  simp only [hf]
  split
  · rename_i h; rw [abs_le]; constructor <;> linarith
  · split
    · rename_i _ h; rw [abs_le]; push_cast; constructor <;> linarith
    · rename_i h3 h4
      have h5 : x - ((⌊x⌋ : ℤ) : ℚ) = 1 / 2 := le_antisymm (not_lt.mp h4) (not_lt.mp h3)
      split
      · rw [abs_le]; constructor <;> linarith
      · rw [abs_le]; push_cast; constructor <;> linarith

/-- Rounding to binary64 of a positive value in the normal range yields a finite value
with relative error at most `2^-53`. -/
theorem Double.round_near (q : ℚ) (hlo : (2 : ℚ) ^ (-1022 : ℤ) ≤ q)
    (hhi : q ≤ (2 : ℚ) ^ (1022 : ℤ)) :
    ∃ r : ℚ, Double.round q = Double.fin r ∧ |r - q| ≤ q / 2 ^ 53 := by
  have hq : 0 < q := lt_of_lt_of_le (zpow_pos two_pos _) hlo
  have hne : q ≠ 0 := ne_of_gt hq
  have hnlt : ¬ q < 0 := not_lt.mpr (le_of_lt hq)
  obtain ⟨hl, hu⟩ := Double.ilog2_spec q hq
  have he1 : (-1022 : ℤ) < Double.ilog2 q + 1 :=
    (zpow_lt_zpow_iff_right₀ (one_lt_two : (1 : ℚ) < 2)).mp (lt_of_le_of_lt hlo hu)
  have he : max (Double.ilog2 q) (-1022) = Double.ilog2 q := max_eq_left (by omega)
  have h2 : (2 : ℚ) ≠ 0 := two_ne_zero
  have hulp : (0 : ℚ) < (2 : ℚ) ^ (Double.ilog2 q - 52) := zpow_pos two_pos _
  have hulp_le : (2 : ℚ) ^ (Double.ilog2 q - 52) / 2 ≤ q / 2 ^ 53 := by
    rw [zpow_sub₀ h2, div_div]
    have : (2 : ℚ) ^ (52 : ℤ) * 2 = 2 ^ 53 := by norm_num
    rw [this]
    exact div_le_div_of_nonneg_right hl (by positivity)
  have hm := Double.roundHalfEven_spec (q / (2 : ℚ) ^ (Double.ilog2 q - 52))
  have herr : |(Double.roundHalfEven (q / (2 : ℚ) ^ (Double.ilog2 q - 52)) : ℚ) *
      (2 : ℚ) ^ (Double.ilog2 q - 52) - q| ≤ (2 : ℚ) ^ (Double.ilog2 q - 52) / 2 := by
    have e1 : (Double.roundHalfEven (q / (2 : ℚ) ^ (Double.ilog2 q - 52)) : ℚ) *
        (2 : ℚ) ^ (Double.ilog2 q - 52) - q =
        ((Double.roundHalfEven (q / (2 : ℚ) ^ (Double.ilog2 q - 52)) : ℚ) -
          q / (2 : ℚ) ^ (Double.ilog2 q - 52)) * (2 : ℚ) ^ (Double.ilog2 q - 52) := by
      field_simp
    rw [e1, abs_mul, abs_of_pos hulp]
    calc |(Double.roundHalfEven (q / (2 : ℚ) ^ (Double.ilog2 q - 52)) : ℚ) -
          q / (2 : ℚ) ^ (Double.ilog2 q - 52)| * (2 : ℚ) ^ (Double.ilog2 q - 52)
        ≤ 1 / 2 * (2 : ℚ) ^ (Double.ilog2 q - 52) :=
          mul_le_mul_of_nonneg_right hm (le_of_lt hulp)
      _ = (2 : ℚ) ^ (Double.ilog2 q - 52) / 2 := by ring
  have hfinal := le_trans herr hulp_le
  refine ⟨(Double.roundHalfEven (q / (2 : ℚ) ^ (Double.ilog2 q - 52)) : ℚ) *
      (2 : ℚ) ^ (Double.ilog2 q - 52), ?_, hfinal⟩
  have hsmall : ¬ ((2 : ℚ) ^ (1024 : ℤ) ≤
      (Double.roundHalfEven (q / (2 : ℚ) ^ (Double.ilog2 q - 52)) : ℚ) *
        (2 : ℚ) ^ (Double.ilog2 q - 52)) := by
    rw [not_le]
    have h3 := (abs_le.mp hfinal).2
    have h4 : q / 2 ^ 53 ≤ q := div_le_self (le_of_lt hq) (by norm_num)
    have h5 : (2 : ℚ) ^ (1022 : ℤ) + (2 : ℚ) ^ (1022 : ℤ) < (2 : ℚ) ^ (1024 : ℤ) := by
      have : (2 : ℚ) ^ (1024 : ℤ) = (2 : ℚ) ^ (1022 : ℤ) * 4 := by
        rw [show (1024 : ℤ) = 1022 + 2 from rfl, zpow_add₀ h2]; norm_num
      rw [this]
      have : (0 : ℚ) < (2 : ℚ) ^ (1022 : ℤ) := zpow_pos two_pos _
      linarith
    linarith
  unfold Double.round
  simp only [hne, hnlt, if_false, he, Double.pow2_eq_zpow, hsmall]

/-- Rounding of a value between `2^-80` and `2^80`: a finite result within the factors
`1 - 2^-53` and `1 + 2^-53` of the value. -/
theorem Double.round_between (q : ℚ) (hlo : 1 / 2 ^ 80 ≤ q) (hhi : q ≤ 2 ^ 80) :
    ∃ r : ℚ, Double.round q = Double.fin r ∧
      (1 - 1 / 2 ^ 53) * q ≤ r ∧ r ≤ (1 + 1 / 2 ^ 53) * q := by
  have h1 : (2 : ℚ) ^ (-1022 : ℤ) ≤ 1 / 2 ^ 80 := by
    have : (1 : ℚ) / 2 ^ 80 = (2 : ℚ) ^ (-80 : ℤ) := by
      rw [zpow_neg, zpow_ofNat, one_div]
    rw [this]
    exact zpow_le_zpow_right₀ (by norm_num) (by norm_num)
  have h2 : (2 : ℚ) ^ 80 ≤ (2 : ℚ) ^ (1022 : ℤ) := by
    have : (2 : ℚ) ^ 80 = (2 : ℚ) ^ (80 : ℤ) := (zpow_ofNat 2 80).symm
    rw [this]
    exact zpow_le_zpow_right₀ (by norm_num) (by norm_num)
  obtain ⟨r, hr, herr⟩ := Double.round_near q (le_trans h1 hlo) (le_trans hhi h2)
  obtain ⟨ha, hb⟩ := abs_le.mp herr
  refine ⟨r, hr, ?_, ?_⟩
  · have : (1 - 1 / 2 ^ 53) * q = q - q / 2 ^ 53 := by ring
    rw [this]; linarith
  · have : (1 + 1 / 2 ^ 53) * q = q + q / 2 ^ 53 := by ring
    rw [this]; linarith

theorem Double.round_zero : Double.round 0 = Double.fin 0 := by
  simp [Double.round]

theorem Double.round_hundred : Double.round 100 = Double.fin 100 := by decide!

/-- The product `double(c) / double(p) * 100.0` for cycle totals `c` and `p > 0` below
`2^64`: a finite double within relative error `2^-50` of `100 * c / p`. -/
theorem Double.percent_error (c p : Nat) (hp : 0 < p) (hcb : c < 2 ^ 64) (hpb : p < 2 ^ 64) :
    ∃ w : ℚ,
      Double.mul (Double.div (Double.ofNat c) (Double.ofNat p)) (Double.round 100) =
        Double.fin w ∧
      |w - 100 * (c : ℚ) / (p : ℚ)| ≤ 100 * (c : ℚ) / (p : ℚ) / 2 ^ 50 := by
  have hpq : (1 : ℚ) ≤ (p : ℚ) := by exact_mod_cast hp
  have hpq2 : (p : ℚ) ≤ 2 ^ 64 := by exact_mod_cast le_of_lt hpb
  obtain ⟨x, hx, hx1, hx2⟩ := Double.round_between (p : ℚ)
    (le_trans (by norm_num) hpq) (le_trans hpq2 (by norm_num))
  have hxpos : 0 < x := by
    have : (0 : ℚ) < (1 - 1 / 2 ^ 53) * (p : ℚ) := by
      apply mul_pos (by norm_num); linarith
    linarith
  have hxne : x ≠ 0 := ne_of_gt hxpos
  by_cases hc0 : c = 0
  · subst hc0
    refine ⟨0, ?_, by simp⟩
    simp only [Double.ofNat, hx, Nat.cast_zero, Double.round_zero, Double.div, hxne, if_false,
      zero_div, Double.round_hundred, Double.mul, zero_mul]
  · have hcq : (1 : ℚ) ≤ (c : ℚ) := by exact_mod_cast Nat.one_le_iff_ne_zero.mpr hc0
    have hcq2 : (c : ℚ) ≤ 2 ^ 64 := by exact_mod_cast le_of_lt hcb
    obtain ⟨y, hy, hy1, hy2⟩ := Double.round_between (c : ℚ)
      (le_trans (by norm_num) hcq) (le_trans hcq2 (by norm_num))
    have hypos : 0 < y := by
      have : (0 : ℚ) < (1 - 1 / 2 ^ 53) * (c : ℚ) := by
        apply mul_pos (by norm_num); linarith
      linarith
    -- bounds on the operands
    have hx_lo : (1 : ℚ) / 2 ≤ x := by linarith
    have hx_hi : x ≤ 2 ^ 65 := by linarith
    have hy_lo : (1 : ℚ) / 2 ≤ y := by linarith
    have hy_hi : y ≤ 2 ^ 65 := by linarith
    -- the quotient
    have hq_lo : (1 : ℚ) / 2 ^ 66 ≤ y / x := by
      rw [le_div_iff₀ hxpos]; linarith
    have hq_hi : y / x ≤ 2 ^ 66 := by
      rw [div_le_iff₀ hxpos]; linarith
    obtain ⟨z, hz, hz1, hz2⟩ := Double.round_between (y / x)
      (le_trans (by norm_num) hq_lo) (le_trans hq_hi (by norm_num))
    have hz_lo : (1 : ℚ) / 2 ^ 67 ≤ z := by linarith
    have hz_hi : z ≤ 2 ^ 67 := by linarith
    obtain ⟨w, hw, hw1, hw2⟩ := Double.round_between (z * 100)
      (by linarith) (by linarith)
    refine ⟨w, ?_, ?_⟩
    · simp only [Double.ofNat, hx, hy, Double.div, hxne, if_false, hz, Double.round_hundred,
        Double.mul, hw]
    · -- relative error of the chain of four roundings
      have hppos : (0 : ℚ) < (p : ℚ) := by linarith
      have hcpos : (0 : ℚ) < (c : ℚ) := by linarith
      have ht : (0 : ℚ) < (c : ℚ) / (p : ℚ) := div_pos hcpos hppos
      have hq1 : y / x ≤ (1 + 1 / 2 ^ 53) / (1 - 1 / 2 ^ 53) * ((c : ℚ) / (p : ℚ)) := by
        rw [div_mul_div_comm, div_le_div_iff₀ hxpos (mul_pos (by norm_num) hppos)]
        calc y * ((1 - 1 / 2 ^ 53) * (p : ℚ))
            ≤ y * x := mul_le_mul_of_nonneg_left hx1 (le_of_lt hypos)
          _ ≤ (1 + 1 / 2 ^ 53) * (c : ℚ) * x := mul_le_mul_of_nonneg_right hy2 (le_of_lt hxpos)
      have hq2 : (1 - 1 / 2 ^ 53) / (1 + 1 / 2 ^ 53) * ((c : ℚ) / (p : ℚ)) ≤ y / x := by
        rw [div_mul_div_comm, div_le_div_iff₀ (mul_pos (by norm_num) hppos) hxpos]
        calc (1 - 1 / 2 ^ 53) * (c : ℚ) * x
            ≤ y * x := mul_le_mul_of_nonneg_right hy1 (le_of_lt hxpos)
          _ ≤ y * ((1 + 1 / 2 ^ 53) * (p : ℚ)) := mul_le_mul_of_nonneg_left hx2 (le_of_lt hypos)
      have hzpos : 0 < z := by linarith [show (0 : ℚ) < 1 / 2 ^ 67 by norm_num]
      have hw_hi : w ≤ (1 + 1 / 2 ^ 53) * ((1 + 1 / 2 ^ 53) *
          ((1 + 1 / 2 ^ 53) / (1 - 1 / 2 ^ 53) * ((c : ℚ) / (p : ℚ))) * 100) := by
        refine le_trans hw2 (mul_le_mul_of_nonneg_left ?_ (by norm_num))
        refine mul_le_mul_of_nonneg_right ?_ (by norm_num)
        exact le_trans hz2 (mul_le_mul_of_nonneg_left hq1 (by norm_num))
      have hw_lo : (1 - 1 / 2 ^ 53) * ((1 - 1 / 2 ^ 53) *
          ((1 - 1 / 2 ^ 53) / (1 + 1 / 2 ^ 53) * ((c : ℚ) / (p : ℚ))) * 100) ≤ w := by
        refine le_trans (mul_le_mul_of_nonneg_left ?_ (by norm_num)) hw1
        refine mul_le_mul_of_nonneg_right ?_ (by norm_num)
        exact le_trans (mul_le_mul_of_nonneg_left hq2 (by norm_num)) hz1
      have e : 100 * (c : ℚ) / (p : ℚ) = 100 * ((c : ℚ) / (p : ℚ)) := by ring
      rw [e, abs_le]
      constructor
      · have k : (1 - 1 / 2 ^ 50) * (100 * ((c : ℚ) / (p : ℚ))) ≤
            (1 - 1 / 2 ^ 53) * ((1 - 1 / 2 ^ 53) *
              ((1 - 1 / 2 ^ 53) / (1 + 1 / 2 ^ 53) * ((c : ℚ) / (p : ℚ))) * 100) := by
          have : (1 - 1 / 2 ^ 53) * ((1 - 1 / 2 ^ 53) *
              ((1 - 1 / 2 ^ 53) / (1 + 1 / 2 ^ 53) * ((c : ℚ) / (p : ℚ))) * 100) =
              ((1 - 1 / 2 ^ 53) * (1 - 1 / 2 ^ 53) * ((1 - 1 / 2 ^ 53) / (1 + 1 / 2 ^ 53))) *
                (100 * ((c : ℚ) / (p : ℚ))) := by ring
          rw [this]
          exact mul_le_mul_of_nonneg_right (by norm_num) (by positivity)
        have : (1 - 1 / 2 ^ 50) * (100 * ((c : ℚ) / (p : ℚ))) =
            100 * ((c : ℚ) / (p : ℚ)) - 100 * ((c : ℚ) / (p : ℚ)) / 2 ^ 50 := by ring
        linarith
      · have k : (1 + 1 / 2 ^ 53) * ((1 + 1 / 2 ^ 53) *
              ((1 + 1 / 2 ^ 53) / (1 - 1 / 2 ^ 53) * ((c : ℚ) / (p : ℚ))) * 100) ≤
            (1 + 1 / 2 ^ 50) * (100 * ((c : ℚ) / (p : ℚ))) := by
          have : (1 + 1 / 2 ^ 53) * ((1 + 1 / 2 ^ 53) *
              ((1 + 1 / 2 ^ 53) / (1 - 1 / 2 ^ 53) * ((c : ℚ) / (p : ℚ))) * 100) =
              ((1 + 1 / 2 ^ 53) * (1 + 1 / 2 ^ 53) * ((1 + 1 / 2 ^ 53) / (1 - 1 / 2 ^ 53))) *
                (100 * ((c : ℚ) / (p : ℚ))) := by ring
          rw [this]
          exact mul_le_mul_of_nonneg_right (by norm_num) (by positivity)
        have : (1 + 1 / 2 ^ 50) * (100 * ((c : ℚ) / (p : ℚ))) =
            100 * ((c : ℚ) / (p : ℚ)) + 100 * ((c : ℚ) / (p : ℚ)) / 2 ^ 50 := by ring
        linarith

/-! ## The percentage field of the report -/

theorem Double.round_thousandth :
    Double.round (1 / 1000) = Double.fin (1152921504606847 / 1152921504606846976) := by decide!

theorem NearZero_fin (w : ℚ) (hw : 0 ≤ w) :
    NearZero (Double.fin w) =
      if w < 1152921504606847 / 1152921504606846976 then Double.fin 0 else Double.fin w := by
  have hnlt : ¬ w < 0 := not_lt.mpr hw
  simp only [NearZero, Double.abs, hnlt, if_false, Double.round_thousandth, Double.lt,
    decide_eq_true_eq]

/-- C9 (amended): for every non-root node whose parent's cycle total is non-zero (cycle
totals are unsigned 64-bit values), the value `PrintTimer` writes in the % field is
`NearZero` of the double product `w = double(node total) / double(parent total) * 100.0`:
`w` is a finite double within relative error `2^-50` of
`100 * node.cycleelapsedtime_ / parent.cycleelapsedtime_`, and the field holds `w` when
`w` is at least `0.001` (the double nearest to it) and exactly `0` when `w` is below. -/
theorem percent_is_clamped_ratio (heap : List PerfNode) (i j level : Nat) (n parent : PerfNode)
    (hn : heap[i]? = some n) (hj : n.parent_ = some j) (hparent : heap[j]? = some parent)
    (hnz : parent.cycleelapsedtime_ ≠ 0)
    (hcb : n.cycleelapsedtime_ < 2 ^ 64) (hpb : parent.cycleelapsedtime_ < 2 ^ 64) :
    ∃ (pre : List Item) (w : ℚ),
      PrintTimer heap i level =
        some (pre ++ [Item.text "  %: ", Item.setprecision 3,
          Item.dbl (if w < 1152921504606847 / 1152921504606846976 then Double.fin 0
            else Double.fin w),
          Item.endl]) ∧
      |w - 100 * (n.cycleelapsedtime_ : ℚ) / (parent.cycleelapsedtime_ : ℚ)| ≤
        100 * (n.cycleelapsedtime_ : ℚ) / (parent.cycleelapsedtime_ : ℚ) / 2 ^ 50 := by
  obtain ⟨w, hw, herr⟩ := Double.percent_error n.cycleelapsedtime_ parent.cycleelapsedtime_
    (Nat.pos_of_ne_zero hnz) hcb hpb
  have hnonneg : 0 ≤ w := by
    have h1 : (0 : ℚ) ≤ 100 * (n.cycleelapsedtime_ : ℚ) / (parent.cycleelapsedtime_ : ℚ) := by
      positivity
    have h2 := (abs_le.mp herr).1
    have h3 : 100 * (n.cycleelapsedtime_ : ℚ) / (parent.cycleelapsedtime_ : ℚ) / 2 ^ 50 ≤
        100 * (n.cycleelapsedtime_ : ℚ) / (parent.cycleelapsedtime_ : ℚ) :=
      div_le_self h1 (by norm_num)
    linarith
  refine ⟨List.replicate level (Item.text "\t") ++
      [Item.text "\"", Item.text n.function_name_, Item.text "\"  ",
       Item.text "Calls: ", Item.uint n.calls_,
       Item.text "  Time: ", Item.setprecision 3, Item.dbl (NearZero n.qpcelapsedtime_),
       Item.text "  Cycles: ", Item.uint n.cycleelapsedtime_], w, ?_, herr⟩
  simp only [PrintTimer, hn, hj, hparent, percentOfParent, hw, NearZero_fin w hnonneg]

/-- C9 for a node with 250 cycles under a parent with 1000 cycles. -/
theorem percent_is_clamped_ratio_witness :
    ∃ (pre : List Item) (w : ℚ),
      PrintTimer
          [{ PerfNode.new "Root" with children_ := [1], cycleelapsedtime_ := 1000 },
           { PerfNode.new "A" with parent_ := some 0, cycleelapsedtime_ := 250 }] 1 1 =
        some (pre ++ [Item.text "  %: ", Item.setprecision 3,
          Item.dbl (if w < 1152921504606847 / 1152921504606846976 then Double.fin 0
            else Double.fin w),
          Item.endl]) ∧
      |w - 100 * (({ PerfNode.new "A" with parent_ := some 0, cycleelapsedtime_ := 250 } : PerfNode).cycleelapsedtime_ : ℚ) /
          (({ PerfNode.new "Root" with children_ := [1], cycleelapsedtime_ := 1000 } : PerfNode).cycleelapsedtime_ : ℚ)| ≤
        100 * (({ PerfNode.new "A" with parent_ := some 0, cycleelapsedtime_ := 250 } : PerfNode).cycleelapsedtime_ : ℚ) /
          (({ PerfNode.new "Root" with children_ := [1], cycleelapsedtime_ := 1000 } : PerfNode).cycleelapsedtime_ : ℚ) / 2 ^ 50 :=
  percent_is_clamped_ratio _ 1 0 1 _ _ rfl rfl rfl (by decide) (by decide) (by decide)

/-- C9 fails as stated: in this session node "B" accumulates 1 cycle and its parent "A"
1000000 cycles; the parent's total is non-zero, yet the % field written for "B" is
exactly `0`, not `100 * 1 / 1000000`. -/
theorem percent_small_ratio_is_zero :
    (run (IProfiler.new ⟨10000000, 100, 1000⟩)
        [Call.enter "A" ⟨10000000, 200, 2000⟩, Call.enter "B" ⟨10000000, 300, 3000⟩,
         Call.leave ⟨10000000, 400, 3001⟩, Call.leave ⟨10000000, 10200, 1002000⟩]).map
      (fun p => p.heap.map (fun n => (n.function_name_, n.parent_, n.cycleelapsedtime_))) =
      some [("Root", none, 0), ("A", some 0, 1000000), ("B", some 1, 1)] ∧
    (run (IProfiler.new ⟨10000000, 100, 1000⟩)
        [Call.enter "A" ⟨10000000, 200, 2000⟩, Call.enter "B" ⟨10000000, 300, 3000⟩,
         Call.leave ⟨10000000, 400, 3001⟩, Call.leave ⟨10000000, 10200, 1002000⟩]).bind
      (fun p => PrintTimer p.heap 2 2) =
      some [Item.text "\t", Item.text "\t", Item.text "\"", Item.text "B", Item.text "\"  ",
        Item.text "Calls: ", Item.uint 1,
        Item.text "  Time: ", Item.setprecision 3,
        Item.dbl (Double.fin (5764607523034235 / 576460752303423488)),
        Item.text "  Cycles: ", Item.uint 1,
        Item.text "  %: ", Item.setprecision 3, Item.dbl (Double.fin 0), Item.endl] ∧
    Double.fin 0 ≠ Double.fin (100 * 1 / 1000000) := by
  refine ⟨by decide!, by decide!, by decide!⟩

/-- C10, the code at the failing inputs: a report written before the destructor has
ended the root's timer finds the root's cycle total equal to 0. After
`Enter("A"); Leave()` the % field of "A" is the quotient `1000 / 0` times 100, an
infinity; while "A" is still open (its own total 0 as well) it is `0 / 0`, not a
number. `NearZero` lets both through. -/
theorem percent_of_zero_parent_total :
    (run (IProfiler.new ⟨10000000, 100, 1000⟩)
        [Call.enter "A" ⟨10000000, 200, 2000⟩, Call.leave ⟨10000000, 300, 3000⟩]).bind
      PrintTree =
      some [Item.text "\"", Item.text "Root", Item.text "\"  ",
        Item.text "Calls: ", Item.uint 1,
        Item.text "  Time: ", Item.setprecision 3, Item.dbl (Double.fin 0),
        Item.text "  Cycles: ", Item.uint 0,
        Item.text "  %: ", Item.setprecision 3, Item.dbl (Double.fin 1), Item.endl,
        Item.text "\t", Item.text "\"", Item.text "A", Item.text "\"  ",
        Item.text "Calls: ", Item.uint 1,
        Item.text "  Time: ", Item.setprecision 3,
        Item.dbl (Double.fin (5764607523034235 / 576460752303423488)),
        Item.text "  Cycles: ", Item.uint 1000,
        Item.text "  %: ", Item.setprecision 3, Item.dbl (Double.inf false), Item.endl] ∧
    (run (IProfiler.new ⟨10000000, 100, 1000⟩)
        [Call.enter "A" ⟨10000000, 200, 2000⟩]).bind PrintTree =
      some [Item.text "\"", Item.text "Root", Item.text "\"  ",
        Item.text "Calls: ", Item.uint 1,
        Item.text "  Time: ", Item.setprecision 3, Item.dbl (Double.fin 0),
        Item.text "  Cycles: ", Item.uint 0,
        Item.text "  %: ", Item.setprecision 3, Item.dbl (Double.fin 1), Item.endl,
        Item.text "\t", Item.text "\"", Item.text "A", Item.text "\"  ",
        Item.text "Calls: ", Item.uint 1,
        Item.text "  Time: ", Item.setprecision 3, Item.dbl (Double.fin 0),
        Item.text "  Cycles: ", Item.uint 0,
        Item.text "  %: ", Item.setprecision 3, Item.dbl Double.nan, Item.endl] := by
  refine ⟨by decide!, by decide!⟩

/-! ## The percentage field of the root -/

theorem Double.round_one : Double.round 1 = Double.fin 1 := by decide!

/-- A cycle total converted to `double`, divided by itself and multiplied by `100.0`
is exactly `100`. -/
theorem Double.percent_self (c : Nat) (hc : 0 < c) (hcb : c < 2 ^ 64) :
    Double.mul (Double.div (Double.ofNat c) (Double.ofNat c)) (Double.round 100) =
      Double.fin 100 := by
  have hcq : (1 : ℚ) ≤ (c : ℚ) := by exact_mod_cast hc
  have hcq2 : (c : ℚ) ≤ 2 ^ 64 := by exact_mod_cast le_of_lt hcb
  obtain ⟨x, hx, hx1, _⟩ := Double.round_between (c : ℚ)
    (le_trans (by norm_num) hcq) (le_trans hcq2 (by norm_num))
  have hxpos : 0 < x := by
    have : (0 : ℚ) < (1 - 1 / 2 ^ 53) * (c : ℚ) := by
      apply mul_pos (by norm_num); linarith
    linarith
  have hxne : x ≠ 0 := ne_of_gt hxpos
  simp only [Double.ofNat, hx, Double.div, hxne, if_false, div_self hxne, Double.round_one,
    Double.round_hundred, Double.mul, one_mul]

/-- C11: for every node without a parent (the root), whatever its cycle total and call
count, `PrintTimer` writes the constant `1.0` in the % field; for every node with a
parent the field holds `NearZero` of the quotient of the two cycle totals multiplied by
`100.0`, so that a node whose non-zero total equals its parent's is reported as `100`
where the root is reported as `1`. -/
theorem root_percent_is_raw_one (heap : List PerfNode) (i level : Nat) (n : PerfNode)
    (hn : heap[i]? = some n) :
    (n.parent_ = none →
      PrintTimer heap i level =
        some (List.replicate level (Item.text "\t") ++
          [Item.text "\"", Item.text n.function_name_, Item.text "\"  ",
           Item.text "Calls: ", Item.uint n.calls_,
           Item.text "  Time: ", Item.setprecision 3, Item.dbl (NearZero n.qpcelapsedtime_),
           Item.text "  Cycles: ", Item.uint n.cycleelapsedtime_,
           Item.text "  %: ", Item.setprecision 3, Item.dbl (Double.fin 1), Item.endl])) ∧
    (∀ j parent, n.parent_ = some j → heap[j]? = some parent →
      PrintTimer heap i level =
        some (List.replicate level (Item.text "\t") ++
          [Item.text "\"", Item.text n.function_name_, Item.text "\"  ",
           Item.text "Calls: ", Item.uint n.calls_,
           Item.text "  Time: ", Item.setprecision 3, Item.dbl (NearZero n.qpcelapsedtime_),
           Item.text "  Cycles: ", Item.uint n.cycleelapsedtime_,
           Item.text "  %: ", Item.setprecision 3,
           Item.dbl (NearZero (Double.mul
             (Double.div (Double.ofNat n.cycleelapsedtime_) (Double.ofNat parent.cycleelapsedtime_))
             (Double.fin 100))),
           Item.endl]) ∧
      (parent.cycleelapsedtime_ = n.cycleelapsedtime_ → 0 < n.cycleelapsedtime_ →
        n.cycleelapsedtime_ < 2 ^ 64 →
        NearZero (Double.mul
            (Double.div (Double.ofNat n.cycleelapsedtime_) (Double.ofNat parent.cycleelapsedtime_))
            (Double.fin 100)) = Double.fin 100)) := by
  refine ⟨?_, ?_⟩
  · intro hp
    simp only [PrintTimer, hn, hp, Double.round_one, List.append_assoc, List.cons_append,
      List.nil_append]
  · intro j parent hj hparent
    refine ⟨?_, ?_⟩
    · simp only [PrintTimer, hn, hj, hparent, percentOfParent, Double.round_hundred,
        List.append_assoc, List.cons_append, List.nil_append]
    · intro heq hpos hlt
      have h := Double.percent_self _ hpos hlt
      rw [Double.round_hundred] at h
      rw [heq, h, NearZero_fin 100 (by norm_num)]
      norm_num

/-- C11 on a root with 1000 cycles and 7 calls, printed at level 0, and on its child
"A" that holds the same 1000 cycles. -/
theorem root_percent_is_raw_one_witness :
    PrintTimer
        [{ PerfNode.new "Root" with children_ := [1], cycleelapsedtime_ := 1000, calls_ := 7 },
         { PerfNode.new "A" with parent_ := some 0, cycleelapsedtime_ := 1000 }] 0 0 =
      some (List.replicate 0 (Item.text "\t") ++
        [Item.text "\"", Item.text "Root", Item.text "\"  ",
         Item.text "Calls: ", Item.uint 7,
         Item.text "  Time: ", Item.setprecision 3, Item.dbl (NearZero (Double.fin 0)),
         Item.text "  Cycles: ", Item.uint 1000,
         Item.text "  %: ", Item.setprecision 3, Item.dbl (Double.fin 1), Item.endl]) ∧
    NearZero (Double.mul (Double.div (Double.ofNat 1000) (Double.ofNat 1000)) (Double.fin 100)) =
      Double.fin 100 :=
  ⟨(root_percent_is_raw_one
      [{ PerfNode.new "Root" with children_ := [1], cycleelapsedtime_ := 1000, calls_ := 7 },
       { PerfNode.new "A" with parent_ := some 0, cycleelapsedtime_ := 1000 }] 0 0 _ rfl).1 rfl,
   ((root_percent_is_raw_one
      [{ PerfNode.new "Root" with children_ := [1], cycleelapsedtime_ := 1000, calls_ := 7 },
       { PerfNode.new "A" with parent_ := some 0, cycleelapsedtime_ := 1000 }] 1 1 _ rfl).2
        0 _ rfl rfl).2 rfl (by decide) (by decide)⟩

/-! ## The near-zero clamp -/

/-- A non-zero double is a whole multiple of the unit in the last place of its binade. -/
theorem Double.fixed_grid (q : ℚ) (hq0 : q ≠ 0) (h : Double.round q = Double.fin q) :
    ∃ m : ℤ, |q| = (m : ℚ) * (2 : ℚ) ^ (max (Double.ilog2 |q|) (-1022) - 52) := by
  unfold Double.round at h
  simp only [hq0, if_false, Double.pow2_eq_zpow] at h
  by_cases hneg : q < 0
  · have habs : |q| = -q := abs_of_neg hneg
    simp only [hneg, if_true] at h
    split at h
    · cases h
    · injection h with h
      refine ⟨Double.roundHalfEven (-q / (2 : ℚ) ^ (max (Double.ilog2 (-q)) (-1022) - 52)), ?_⟩
      rw [habs]
      linarith
  · have habs : |q| = q := abs_of_nonneg (not_lt.mp hneg)
    simp only [hneg, if_false] at h
    split at h
    · cases h
    · injection h with h
      refine ⟨Double.roundHalfEven (q / (2 : ℚ) ^ (max (Double.ilog2 q) (-1022) - 52)), ?_⟩
      rw [habs]
      exact h.symm

/-- No double lies between the real number `0.001` and the double nearest to it (which
is the larger of the two): a double of magnitude at least `0.001` is at least the
constant that `NearZero` compares with. -/
theorem Double.thousandth_gap (q : ℚ) (h : Double.round q = Double.fin q)
    (hq : 1 / 1000 ≤ |q|) : 1152921504606847 / 1152921504606846976 ≤ |q| := by
  by_contra hlt
  rw [not_le] at hlt
  have hpos : 0 < |q| := lt_of_lt_of_le (by norm_num) hq
  have hq0 : q ≠ 0 := abs_pos.mp hpos
  obtain ⟨m, hm⟩ := Double.fixed_grid q hq0 h
  obtain ⟨hl, hu⟩ := Double.ilog2_spec |q| hpos
  have h2 : (1 : ℚ) < 2 := one_lt_two
  have e10 : (2 : ℚ) ^ (-10 : ℤ) = 1 / 1024 := by
    rw [zpow_neg, zpow_ofNat]; norm_num
  have e9 : (2 : ℚ) ^ (-9 : ℤ) = 1 / 512 := by
    rw [zpow_neg, zpow_ofNat]; norm_num
  have hlo : (-10 : ℤ) < Double.ilog2 |q| + 1 := by
    apply (zpow_lt_zpow_iff_right₀ h2).mp
    rw [e10]
    exact lt_of_lt_of_le (lt_of_lt_of_le (by norm_num) hq) (le_of_lt hu)
  have hhi : Double.ilog2 |q| < (-9 : ℤ) := by
    apply (zpow_lt_zpow_iff_right₀ h2).mp
    rw [e9]
    exact lt_of_le_of_lt hl (lt_trans hlt (by norm_num))
  have he : Double.ilog2 |q| = -10 := by omega
  rw [he, max_eq_left (by norm_num)] at hm
  have e62 : (2 : ℚ) ^ ((-10 : ℤ) - 52) = 1 / 4611686018427387904 := by
    rw [show ((-10 : ℤ) - 52) = -62 from rfl, zpow_neg, zpow_ofNat]; norm_num
  rw [e62] at hm
  rw [hm] at hq hlt
  have h3 : (4611686018427387904 : ℚ) ≤ 1000 * (m : ℚ) := by linarith
  have h4 : (m : ℚ) < 4611686018427388 := by linarith
  have h3' : (4611686018427387904 : ℤ) ≤ 1000 * m := by exact_mod_cast h3
  have h4' : m < 4611686018427388 := by exact_mod_cast h4
  omega

/-- C12: `NearZero(x)` is exactly `0` when `|x| < 0.001` and is `x` otherwise, for every
double `x` (a finite double is a rational `q` that rounding leaves unchanged; an
infinity and a not-a-number are returned as they are); the Time field of the line that
`PrintTimer` writes is `NearZero(qpcelapsedtime_)`; hence a wall-clock total of
magnitude below `0.001`, positive or negative, is written as exactly `0`. -/
theorem near_zero_clamp (q : ℚ) (hq : Double.round q = Double.fin q) :
    NearZero (Double.fin q) = (if |q| < 1 / 1000 then Double.fin 0 else Double.fin q) ∧
    NearZero Double.nan = Double.nan ∧
    (∀ s, NearZero (Double.inf s) = Double.inf s) ∧
    (∀ (heap : List PerfNode) (i level : Nat) (n : PerfNode) (line : List Item),
      heap[i]? = some n → PrintTimer heap i level = some line →
      ∃ tail, line = List.replicate level (Item.text "\t") ++
        [Item.text "\"", Item.text n.function_name_, Item.text "\"  ",
         Item.text "Calls: ", Item.uint n.calls_,
         Item.text "  Time: ", Item.setprecision 3, Item.dbl (NearZero n.qpcelapsedtime_)] ++ tail) ∧
    (∀ (heap : List PerfNode) (i level : Nat) (n : PerfNode) (line : List Item),
      heap[i]? = some n → PrintTimer heap i level = some line →
      n.qpcelapsedtime_ = Double.fin q → |q| < 1 / 1000 →
      ∃ tail, line = List.replicate level (Item.text "\t") ++
        [Item.text "\"", Item.text n.function_name_, Item.text "\"  ",
         Item.text "Calls: ", Item.uint n.calls_,
         Item.text "  Time: ", Item.setprecision 3, Item.dbl (Double.fin 0)] ++ tail) := by
  have hclamp : NearZero (Double.fin q) =
      (if |q| < 1 / 1000 then Double.fin 0 else Double.fin q) := by
    have habs : (if q < 0 then -q else q) = |q| := by
      by_cases hneg : q < 0
      · simp [hneg, abs_of_neg hneg]
      · simp [hneg, abs_of_nonneg (not_lt.mp hneg)]
    simp only [NearZero, Double.abs, habs, Double.round_thousandth, Double.lt, decide_eq_true_eq]
    by_cases hsmall : |q| < 1 / 1000
    · have : |q| < 1152921504606847 / 1152921504606846976 := lt_trans hsmall (by norm_num)
      rw [if_pos hsmall, if_pos this]
    · have : ¬ |q| < 1152921504606847 / 1152921504606846976 :=
        not_lt.mpr (Double.thousandth_gap q hq (not_lt.mp hsmall))
      rw [if_neg hsmall, if_neg this]
  have hline : ∀ (heap : List PerfNode) (i level : Nat) (n : PerfNode) (line : List Item),
      heap[i]? = some n → PrintTimer heap i level = some line →
      ∃ tail, line = List.replicate level (Item.text "\t") ++
        [Item.text "\"", Item.text n.function_name_, Item.text "\"  ",
         Item.text "Calls: ", Item.uint n.calls_,
         Item.text "  Time: ", Item.setprecision 3, Item.dbl (NearZero n.qpcelapsedtime_)] ++ tail := by
    intro heap i level n line hn hline
    simp only [PrintTimer, hn] at hline
    split at hline
    · injection hline with hline
      exact ⟨[Item.text "  Cycles: ", Item.uint n.cycleelapsedtime_, Item.text "  %: ",
        Item.setprecision 3, Item.dbl (Double.round 1), Item.endl], by rw [← hline]; simp⟩
    · split at hline
      · cases hline
      · rename_i parent _
        injection hline with hline
        exact ⟨[Item.text "  Cycles: ", Item.uint n.cycleelapsedtime_, Item.text "  %: ",
          Item.setprecision 3, Item.dbl (percentOfParent n parent), Item.endl],
          by rw [← hline]; simp⟩
  refine ⟨hclamp, by simp [NearZero, Double.abs, Double.lt],
    fun s => by simp only [NearZero, Double.abs, Double.round_thousandth, Double.lt]; rfl, hline, ?_⟩
  intro heap i level n line hn hl hqe hsmall
  obtain ⟨tail, ht⟩ := hline heap i level n line hn hl
  refine ⟨tail, ?_⟩
  rw [ht, hqe, hclamp, if_pos hsmall]

/-- C12 on the double `-1/2048`, a negative value of magnitude below `0.001`. -/
theorem near_zero_clamp_witness :
    Double.round (-1 / 2048) = Double.fin (-1 / 2048) ∧
    NearZero (Double.fin (-1 / 2048)) =
      (if |(-1 / 2048 : ℚ)| < 1 / 1000 then Double.fin 0 else Double.fin (-1 / 2048)) :=
  ⟨by decide!, (near_zero_clamp (-1 / 2048) (by decide!)).1⟩

/-! ## The report as a traversal -/

theorem Anc.trans {t : Tree} {a b x : Nat} (hab : Anc t a b) (hbx : Anc t b x) : Anc t a x := by
  induction hbx with
  | refl => exact hab
  | step hp _ ih => exact Anc.step hp ih

theorem Anc.le {t : Tree} (h : TreeInv t) {a x : Nat} (hx : x < t.size) (hax : Anc t a x) :
    a ≤ x := by
  induction hax with
  | refl => exact Nat.le_refl _
  | @step x j hp _ ih =>
    have hj := (h.par x hx j hp).1
    exact Nat.le_trans (ih (Nat.lt_trans hj hx)) (Nat.le_of_lt hj)

theorem Anc.total {t : Tree} {a b x : Nat} (hax : Anc t a x) (hbx : Anc t b x) :
    Anc t a b ∨ Anc t b a := by
  induction hax with
  | refl => exact Or.inr hbx
  | @step x j hp haj ih =>
    cases hbx with
    | refl => exact Or.inl (Anc.step hp haj)
    | @step _ j' hp' hbj =>
      rw [hp] at hp'
      injection hp' with hp'
      subst hp'
      exact ih hbj

theorem depthOf_fuel (t : Tree) (h : TreeInv t) : ∀ (fuel i : Nat), i < t.size → i ≤ fuel →
    depthOf t fuel i = depthOf t i i := by
  intro fuel
  induction fuel using Nat.strong_induction_on with
  | _ fuel ih =>
    intro i hi hle
    cases fuel with
    | zero =>
      have : i = 0 := by omega
      subst this
      rfl
    | succ fuel =>
      cases i with
      | zero =>
        simp only [depthOf, h.rootParent]
      | succ i =>
        simp only [depthOf]
        cases hp : t.parent (i + 1) with
        | none => rfl
        | some j =>
          have hj := (h.par (i + 1) hi j hp).1
          simp only
          rw [ih fuel (Nat.lt_succ_self _) j (by omega) (by omega),
            ih i (by omega) j (by omega) (by omega)]

theorem depthOf_child (t : Tree) (h : TreeInv t) (i ch : Nat) (hi : i < t.size)
    (hch : ch ∈ t.children i) : depthOf t ch ch = depthOf t i i + 1 := by
  obtain ⟨h1, h2, h3⟩ := h.child i hi ch hch
  cases ch with
  | zero => omega
  | succ ch =>
    simp only [depthOf, h3]
    rw [depthOf_fuel t h ch i hi (by omega)]

theorem mem_preorder_bounds (t : Tree) (h : TreeInv t) : ∀ (fuel i : Nat), i < t.size →
    ∀ x ∈ preorder t fuel i, x < t.size ∧ Anc t i x := by
  intro fuel
  induction fuel with
  | zero => intro i _ x hx; cases hx
  | succ fuel ih =>
    intro i hi x hx
    simp only [preorder, List.mem_cons, List.mem_flatMap] at hx
    rcases hx with hx | ⟨ch, hch, hx⟩
    · subst hx; exact ⟨hi, Anc.refl⟩
    · obtain ⟨h1, h2, h3⟩ := h.child i hi ch hch
      obtain ⟨h4, h5⟩ := ih ch h2 x hx
      exact ⟨h4, Anc.trans (Anc.step h3 Anc.refl) h5⟩

theorem preorder_closed (t : Tree) (h : TreeInv t) : ∀ (fuel i : Nat), i < t.size →
    t.size - i ≤ fuel → ∀ k ∈ preorder t fuel i, ∀ j ∈ t.children k, j ∈ preorder t fuel i := by
  intro fuel
  induction fuel with
  | zero => intro i _ _ k hk; cases hk
  | succ fuel ih =>
    intro i hi hfuel k hk j hj
    simp only [preorder, List.mem_cons, List.mem_flatMap] at hk ⊢
    right
    rcases hk with hk | ⟨ch, hch, hk⟩
    · subst hk
      obtain ⟨h1, h2, _⟩ := h.child k hi j hj
      refine ⟨j, hj, ?_⟩
      cases fuel with
      | zero => omega
      | succ fuel => simp [preorder]
    · obtain ⟨h1, h2, _⟩ := h.child i hi ch hch
      exact ⟨ch, hch, ih ch h2 (by omega) k hk j hj⟩

theorem mem_preorder_root (t : Tree) (h : TreeInv t) (fuel : Nat) (hfuel : t.size ≤ fuel) :
    ∀ j, j < t.size → j ∈ preorder t fuel 0 := by
  intro j
  induction j using Nat.strong_induction_on with
  | _ j ih =>
    intro hj
    cases hp : t.parent j with
    | none =>
      have := h.orphan j hj hp
      subst this
      cases fuel with
      | zero => have := h.pos; omega
      | succ fuel => simp [preorder]
    | some k =>
      obtain ⟨h1, h2, _⟩ := h.par j hj k hp
      exact preorder_closed t h fuel 0 h.pos (by omega) k (ih k h1 (by omega)) j h2

theorem nodup_preorder (t : Tree) (h : TreeInv t) : ∀ (fuel i : Nat), i < t.size →
    (preorder t fuel i).Nodup := by
  intro fuel
  induction fuel with
  | zero => intro i _; exact List.nodup_nil
  | succ fuel ih =>
    intro i hi
    simp only [preorder, List.nodup_cons, List.mem_flatMap, not_exists, not_and]
    refine ⟨?_, ?_⟩
    · intro ch hch hmem
      obtain ⟨h1, h2, _⟩ := h.child i hi ch hch
      have := Anc.le h hi (mem_preorder_bounds t h fuel ch h2 i hmem).2
      omega
    · rw [List.nodup_flatMap]
      refine ⟨fun ch hch => ih ch (h.child i hi ch hch).2.1, ?_⟩
      have hpw : (t.children i).Pairwise (fun a b => a ≠ b) :=
        List.Pairwise.imp (fun hab e => hab (by rw [e])) (h.distinct i hi)
      refine List.Pairwise.imp_of_mem ?_ hpw
      intro a b ha hb hab
      simp only [Function.onFun]
      intro x hxa hxb
      obtain ⟨a1, a2, a3⟩ := h.child i hi a ha
      obtain ⟨b1, b2, b3⟩ := h.child i hi b hb
      have hax := (mem_preorder_bounds t h fuel a a2 x hxa).2
      have hbx := (mem_preorder_bounds t h fuel b b2 x hxb).2
      rcases Anc.total hax hbx with hh | hh
      · cases hh with
        | refl => exact hab rfl
        | @step _ j hp haj =>
          rw [b3] at hp
          injection hp with hp
          subst hp
          have := Anc.le h hi haj
          omega
      · cases hh with
        | refl => exact hab rfl
        | @step _ j hp hbj =>
          rw [a3] at hp
          injection hp with hp
          subst hp
          have := Anc.le h hi hbj
          omega

/-- The pre-order from the root lists every node of the tree exactly once. -/
theorem preorder_perm (t : Tree) (h : TreeInv t) (fuel : Nat) (hfuel : t.size ≤ fuel) :
    (preorder t fuel 0).Perm (List.range t.size) := by
  rw [List.perm_ext_iff_of_nodup (nodup_preorder t h fuel 0 h.pos) (List.nodup_range _)]
  intro a
  rw [List.mem_range]
  exact ⟨fun ha => (mem_preorder_bounds t h fuel 0 h.pos a ha).1,
    fun ha => mem_preorder_root t h fuel hfuel a ha⟩

theorem foldl_lines (f : Nat → Option (List Item)) (g : Nat → List Item) :
    ∀ (l : List Nat), (∀ ch ∈ l, f ch = some (g ch)) → ∀ acc : List Item,
    l.foldl
        (fun acc ch =>
          match acc, f ch with
          | some out, some sub => some (out ++ sub)
          | _, _ => none)
        (some acc) = some (acc ++ l.flatMap g)
  | [], _, acc => by simp
  | ch :: rest, hl, acc => by
    simp only [List.foldl_cons, hl ch (List.mem_cons_self _ _), List.flatMap_cons]
    rw [foldl_lines f g rest (fun x hx => hl x (List.mem_cons_of_mem _ hx)), List.append_assoc]

/-- The line of a node of a well-formed tree: `level` tabs, the opening quote of the
name, and a remainder that ends the line with its only `endl`. -/
theorem PrintTimer_line (heap : List PerfNode) (h : TreeInv (treeOf heap)) (i : Nat)
    (hi : i < heap.length) (level : Nat) :
    ∃ rest, PrintTimer heap i level =
        some (List.replicate level (Item.text "\t") ++ Item.text "\"" :: rest) ∧
      rest.count Item.endl = 1 ∧ rest.getLast? = some Item.endl := by
  obtain ⟨n, hn⟩ := lookup_of_lt heap i hi
  cases hp : n.parent_ with
  | none =>
    refine ⟨[Item.text n.function_name_, Item.text "\"  ",
      Item.text "Calls: ", Item.uint n.calls_,
      Item.text "  Time: ", Item.setprecision 3, Item.dbl (NearZero n.qpcelapsedtime_),
      Item.text "  Cycles: ", Item.uint n.cycleelapsedtime_,
      Item.text "  %: ", Item.setprecision 3, Item.dbl (Double.round 1), Item.endl], ?_, ?_, ?_⟩
    · simp only [PrintTimer, hn, hp, List.append_assoc, List.cons_append, List.nil_append]
    · simp
    · rfl
  | some j =>
    have hpj : (treeOf heap).parent i = some j := by rw [(treeOf_lookup hn).2.1, hp]
    have hj : j < heap.length := Nat.lt_trans (h.par i hi j hpj).1 hi
    obtain ⟨m, hm⟩ := lookup_of_lt heap j hj
    refine ⟨[Item.text n.function_name_, Item.text "\"  ",
      Item.text "Calls: ", Item.uint n.calls_,
      Item.text "  Time: ", Item.setprecision 3, Item.dbl (NearZero n.qpcelapsedtime_),
      Item.text "  Cycles: ", Item.uint n.cycleelapsedtime_,
      Item.text "  %: ", Item.setprecision 3, Item.dbl (percentOfParent n m), Item.endl], ?_, ?_, ?_⟩
    · simp only [PrintTimer, hn, hp, hm, List.append_assoc, List.cons_append, List.nil_append]
    · simp
    · rfl

theorem PrintNode_preorder (heap : List PerfNode) (h : TreeInv (treeOf heap)) :
    ∀ (fuel i : Nat), i < heap.length → heap.length - i ≤ fuel →
    PrintNode heap fuel i (depthOf (treeOf heap) i i) =
      some ((preorder (treeOf heap) fuel i).flatMap
        (fun j => (PrintTimer heap j (depthOf (treeOf heap) j j)).getD [])) := by
  intro fuel
  induction fuel with
  | zero => intro i hi hfuel; omega
  | succ fuel ih =>
    intro i hi hfuel
    obtain ⟨n, hn⟩ := lookup_of_lt heap i hi
    obtain ⟨rest, hline, _⟩ := PrintTimer_line heap h i hi (depthOf (treeOf heap) i i)
    have hch : (treeOf heap).children i = n.children_ := (treeOf_lookup hn).2.2.1
    have key := foldl_lines (fun ch => PrintNode heap fuel ch (depthOf (treeOf heap) i i + 1))
      (fun ch => (preorder (treeOf heap) fuel ch).flatMap
        (fun j => (PrintTimer heap j (depthOf (treeOf heap) j j)).getD []))
      n.children_
      (by
        intro ch hmem
        rw [← hch] at hmem
        obtain ⟨h1, h2, _⟩ := h.child i hi ch hmem
        have h2' : ch < heap.length := h2
        rw [← depthOf_child (treeOf heap) h i ch hi hmem]
        exact ih ch h2' (by omega))
      (List.replicate (depthOf (treeOf heap) i i) (Item.text "\t") ++ Item.text "\"" :: rest)
    simp only [PrintNode, hline, hn, preorder, List.flatMap_cons, Option.getD_some]
    rw [hch, List.flatMap_assoc]
    exact key

/-- C15: for every well-formed tree, `PrintNode(0, file)` on the root (node 0) writes
the lines of the nodes listed in depth-first pre-order, children in `children_` order
(the list `preorder`), each node at the level that is its depth below the root; that
list holds every node of the tree exactly once; and the line of a node consists of as
many tab insertions as its depth, then the opening quote of the name and a remainder
that ends with the line's only `endl`. -/
theorem report_is_preorder_traversal (heap : List PerfNode) (h : TreeInv (treeOf heap))
    (fuel : Nat) (hfuel : heap.length ≤ fuel) :
    PrintNode heap fuel 0 0 =
      some ((preorder (treeOf heap) fuel 0).flatMap
        (fun j => (PrintTimer heap j (depthOf (treeOf heap) heap.length j)).getD [])) ∧
    (preorder (treeOf heap) fuel 0).Perm (List.range heap.length) ∧
    (∀ j, j < heap.length → ∃ rest,
      PrintTimer heap j (depthOf (treeOf heap) heap.length j) =
        some (List.replicate (depthOf (treeOf heap) heap.length j) (Item.text "\t") ++
          Item.text "\"" :: rest) ∧
      rest.count Item.endl = 1 ∧ rest.getLast? = some Item.endl) := by
  have hpos : 0 < heap.length := h.pos
  have hperm := preorder_perm (treeOf heap) h fuel hfuel
  have hd : ∀ j, j < heap.length →
      depthOf (treeOf heap) heap.length j = depthOf (treeOf heap) j j :=
    fun j hj => depthOf_fuel (treeOf heap) h heap.length j hj (Nat.le_of_lt hj)
  refine ⟨?_, hperm, ?_⟩
  · have h0 := PrintNode_preorder heap h fuel 0 hpos (by omega)
    have hz : depthOf (treeOf heap) 0 0 = 0 := rfl
    rw [hz] at h0
    rw [h0]
    congr 1
    apply List.flatMap_congr
    intro j hj
    have hjlt : j < heap.length := List.mem_range.mp (hperm.mem_iff.mp hj)
    rw [hd j hjlt]
  · intro j hj
    exact PrintTimer_line heap h j hj _

/-- A tree of four nodes: the root with the children "A" and "B", and "C" under "A",
created after "B". -/
theorem TreeInv_sample :
    TreeInv (treeOf
      [{ PerfNode.new "Root" with children_ := [1, 2] },
       { PerfNode.new "A" with parent_ := some 0, children_ := [3] },
       { PerfNode.new "B" with parent_ := some 0 },
       { PerfNode.new "C" with parent_ := some 1 }]) := by
  refine ⟨by decide, rfl, rfl, ?_, ?_, ?_, ?_⟩
  · intro i hi ch hch
    have hi' : i < 4 := hi
    interval_cases i <;> simp [treeOf, PerfNode.new] at hch ⊢
    · rcases hch with h | h <;> subst h <;> simp
    · subst hch; simp
  · intro i hi j hj
    have hi' : i < 4 := hi
    interval_cases i <;> simp [treeOf, PerfNode.new] at hj ⊢
    · subst hj; simp
    · subst hj; simp
    · subst hj; simp
  · intro i hi hp
    have hi' : i < 4 := hi
    interval_cases i <;> simp [treeOf, PerfNode.new] at hp ⊢
  · intro i hi
    have hi' : i < 4 := hi
    interval_cases i <;> simp [treeOf, PerfNode.new]

/-- C15 on the tree Root → {A → {C}, B}, whose pre-order 0, 1, 3, 2 differs from the
order of creation. -/
theorem report_is_preorder_traversal_witness :
    preorder (treeOf
      [{ PerfNode.new "Root" with children_ := [1, 2] },
       { PerfNode.new "A" with parent_ := some 0, children_ := [3] },
       { PerfNode.new "B" with parent_ := some 0 },
       { PerfNode.new "C" with parent_ := some 1 }]) 4 0 = [0, 1, 3, 2] ∧
    PrintNode
      [{ PerfNode.new "Root" with children_ := [1, 2] },
       { PerfNode.new "A" with parent_ := some 0, children_ := [3] },
       { PerfNode.new "B" with parent_ := some 0 },
       { PerfNode.new "C" with parent_ := some 1 }] 4 0 0 =
      some ((preorder (treeOf
      [{ PerfNode.new "Root" with children_ := [1, 2] },
       { PerfNode.new "A" with parent_ := some 0, children_ := [3] },
       { PerfNode.new "B" with parent_ := some 0 },
       { PerfNode.new "C" with parent_ := some 1 }]) 4 0).flatMap
        (fun j => (PrintTimer
      [{ PerfNode.new "Root" with children_ := [1, 2] },
       { PerfNode.new "A" with parent_ := some 0, children_ := [3] },
       { PerfNode.new "B" with parent_ := some 0 },
       { PerfNode.new "C" with parent_ := some 1 }] j (depthOf (treeOf
      [{ PerfNode.new "Root" with children_ := [1, 2] },
       { PerfNode.new "A" with parent_ := some 0, children_ := [3] },
       { PerfNode.new "B" with parent_ := some 0 },
       { PerfNode.new "C" with parent_ := some 1 }]) 4 j)).getD [])) :=
  ⟨by decide,
   (report_is_preorder_traversal
      [{ PerfNode.new "Root" with children_ := [1, 2] },
       { PerfNode.new "A" with parent_ := some 0, children_ := [3] },
       { PerfNode.new "B" with parent_ := some 0 },
       { PerfNode.new "C" with parent_ := some 1 }] TreeInv_sample 4 (by decide)).1⟩

/-! ## States reachable by any call sequence -/

theorem Valid_new (clk : Clock) : Valid (IProfiler.new clk) := by
  obtain ⟨hroot, _, hT, _, _⟩ := Inv_new clk
  refine ⟨hT, hroot, ?_⟩
  intro c hc
  simp only [IProfiler.new, Option.some.injEq] at hc
  subst hc
  exact Nat.one_pos

theorem Enter_some_current {p q : IProfiler} {name : String} {clk : Clock}
    (h : Enter p name clk = some q) : ∃ c, p.current_ = some c := by
  cases hc : p.current_ with
  | none => simp [Enter, hc] at h
  | some c => exact ⟨c, rfl⟩

theorem Leave_some_current {p q : IProfiler} {clk : Clock}
    (h : Leave p clk = some q) : ∃ c, p.current_ = some c := by
  cases hc : p.current_ with
  | none => simp [Leave, hc] at h
  | some c => exact ⟨c, rfl⟩

theorem TreeInv_enter {t t' : Tree} {c : Nat} {name : String} {cur' : Option Nat}
    (hT : TreeInv t) (hc : c < t.size) (he : EnterEffect t c name cur' t') :
    TreeInv t' ∧ ∃ c', cur' = some c' ∧ c' < t'.size := by
  rcases he with ⟨_, hc', ht'⟩ | ⟨_, ch, hmem, _, hc', ht'⟩ | ⟨hname, hnone, hc', ht'⟩
  · subst ht'
    exact ⟨hT.of_recursion _ _, c, hc', hc⟩
  · subst ht'
    exact ⟨hT, ch, hc', (hT.child c hc ch hmem).2.1⟩
  · subst ht'
    exact ⟨hT.grow c name hc hname hnone, t.size, hc', Nat.lt_succ_self _⟩

theorem TreeInv_leave {t t' : Tree} {c : Nat} {cur' : Option Nat}
    (hT : TreeInv t) (hc : c < t.size) (he : LeaveEffect t c cur' t') :
    TreeInv t' ∧ ∀ c', cur' = some c' → c' < t'.size := by
  rcases he with ⟨_, hc', ht'⟩ | ⟨_, hc', ht'⟩
  · subst ht'
    refine ⟨hT.of_recursion _ _, ?_⟩
    intro c' h
    rw [hc'] at h
    injection h with h
    subst h
    exact hc
  · subst ht'
    refine ⟨hT, ?_⟩
    intro c' h
    rw [hc'] at h
    exact Nat.lt_trans (hT.par c hc c' h).1 hc

theorem Valid_Enter {p q : IProfiler} {name : String} {clk : Clock} (hv : Valid p)
    (h : Enter p name clk = some q) : Valid q := by
  obtain ⟨hT, hroot, hcur⟩ := hv
  obtain ⟨c, hc⟩ := Enter_some_current h
  have hlt := hcur c hc
  obtain ⟨q', hq', hqroot, _, heff⟩ := Enter_cases p name clk c hc hlt
    (fun ch hch => (hT.child c hlt ch hch).2.1)
  rw [h] at hq'
  injection hq' with hq'
  subst hq'
  obtain ⟨hT', c', hc', hlt'⟩ := TreeInv_enter hT hlt heff
  refine ⟨hT', by rw [hqroot, hroot], ?_⟩
  intro c2 h2
  rw [hc'] at h2
  injection h2 with h2
  subst h2
  exact hlt'

theorem Valid_Leave {p q : IProfiler} {clk : Clock} (hv : Valid p)
    (h : Leave p clk = some q) : Valid q := by
  obtain ⟨hT, hroot, hcur⟩ := hv
  obtain ⟨c, hc⟩ := Leave_some_current h
  have hlt := hcur c hc
  obtain ⟨q', hq', hqroot, _, heff⟩ := Leave_cases p clk c hc hlt
  rw [h] at hq'
  injection hq' with hq'
  subst hq'
  obtain ⟨hT', hlt'⟩ := TreeInv_leave hT hlt heff
  exact ⟨hT', by rw [hqroot, hroot], hlt'⟩

theorem Valid_step {p q : IProfiler} {c : Call} (hv : Valid p) (h : step p c = some q) :
    Valid q := by
  cases c with
  | enter name clk => exact Valid_Enter hv h
  | leave clk => exact Valid_Leave hv h

/-- Every state that a call sequence reaches from a valid state is valid. -/
theorem Valid_run : ∀ (cs : List Call) {p q : IProfiler}, Valid p → run p cs = some q → Valid q := by
  intro cs
  induction cs with
  | nil =>
    intro p q hv h
    simp only [run, Option.some.injEq] at h
    subst h
    exact hv
  | cons c cs ih =>
    intro p q hv h
    simp only [run] at h
    cases hs : step p c with
    | none => rw [hs] at h; cases h
    | some r =>
      rw [hs] at h
      exact ih (Valid_step hv hs) h

/-- The three ways `Enter` acts on a state whose current node and its children exist,
with the resulting state written out. -/
theorem Enter_explicit (p : IProfiler) (name : String) (clk : Clock) (c : Nat) (cur : PerfNode)
    (hc : p.current_ = some c) (hcur : p.heap[c]? = some cur)
    (hvalid : ∀ ch ∈ cur.children_, ch < p.heap.length) :
    (cur.function_name_ = name ∧
      Enter p name clk = some { p with
        level_ := wrap32 (p.level_ + 1),
        heap := p.heap.set c { cur with recursion_ := wrap32 (cur.recursion_ + 1) } }) ∨
    (cur.function_name_ ≠ name ∧ ∃ ch node, ch ∈ cur.children_ ∧ p.heap[ch]? = some node ∧
      node.function_name_ = name ∧
      Enter p name clk = some { p with
        level_ := wrap32 (p.level_ + 1),
        heap := p.heap.set ch ({ node with calls_ := wrap32 (node.calls_ + 1) }.TimerStart clk),
        current_ := some ch }) ∨
    (cur.function_name_ ≠ name ∧ (∀ ch ∈ cur.children_, (treeOf p.heap).name ch ≠ name) ∧
      Enter p name clk = some { p with
        level_ := wrap32 (p.level_ + 1),
        nodelist_ := p.nodelist_ ++ [p.heap.length],
        heap := p.heap.set c { cur with children_ := cur.children_ ++ [p.heap.length] } ++
          [{ PerfNode.new name with parent_ := some c }.TimerStart clk],
        current_ := some p.heap.length }) := by
  by_cases hname : cur.function_name_ = name
  · exact Or.inl ⟨hname, Enter_rec p name clk c cur hc hcur hname⟩
  · rcases findLoop_cases p.heap name cur.children_ hvalid with
      ⟨hfind, hnone⟩ | ⟨ch, node, hmem, hnode, hnn, hfind⟩
    · exact Or.inr (Or.inr ⟨hname, hnone, Enter_new p name clk c cur hc hcur hname hfind⟩)
    · exact Or.inr (Or.inl ⟨hname, ch, node, hmem, hnode, hnn,
        Enter_found p name clk c ch cur node hc hcur hname hnode hfind⟩)

theorem Anc.congr_parent {t t' : Tree} (h : ∀ x, t'.parent x = t.parent x) {a x : Nat}
    (hax : Anc t' a x) : Anc t a x := by
  induction hax with
  | refl => exact Anc.refl
  | step hp _ ih => exact Anc.step (by rw [← h]; exact hp) ih

/-- The root is an ancestor of every node. -/
theorem Anc.root {t : Tree} (h : TreeInv t) : ∀ c, c < t.size → Anc t 0 c := by
  intro c
  induction c using Nat.strong_induction_on with
  | _ c ih =>
    intro hc
    cases hp : t.parent c with
    | none =>
      have := h.orphan c hc hp
      subst this
      exact Anc.refl
    | some j =>
      have hj := (h.par c hc j hp).1
      exact Anc.step hp (ih j hj (Nat.lt_trans hj hc))

/-! ## Accounting of the cycle counter -/

theorem wrap64_of_lt {n : Nat} (h : n < 18446744073709551616) : wrap64 n = n :=
  Nat.mod_eq_of_lt h

theorem CycInv_new (clk : Clock) (h : clk.cycles < 18446744073709551616) :
    CycInv (IProfiler.new clk) clk.cycles := by
  refine ⟨h, ?_⟩
  intro i n hn
  cases i with
  | zero =>
    simp only [IProfiler.new, List.getElem?_cons_zero, Option.some.injEq] at hn
    subst hn
    simp only [PerfNode.TimerStart, PerfNode.new, wrap64_of_lt h]
    exact ⟨Nat.le_refl _, Nat.zero_le _, fun _ _ _ => Nat.zero_le _⟩
  | succ i => simp [IProfiler.new] at hn

theorem parent_set (heap : List PerfNode) (c : Nat) (cur n : PerfNode)
    (hcur : heap[c]? = some cur) (hp : n.parent_ = cur.parent_) (x : Nat) :
    (treeOf (heap.set c n)).parent x = (treeOf heap).parent x := by
  simp only [treeOf, getElem?_set_heap _ _ _ _ (lt_of_lookup hcur)]
  by_cases hx : x = c
  · subst hx; simp [hcur, hp]
  · simp [hx]

theorem Anc.restrict {t t' : Tree} (h : TreeInv t)
    (hp : ∀ x, x < t.size → t'.parent x = t.parent x) {a c : Nat} (hc : c < t.size)
    (hac : Anc t' a c) : Anc t a c := by
  induction hac with
  | refl => exact Anc.refl
  | @step x j hpx _ ih =>
    rw [hp x hc] at hpx
    have hj := (h.par x hc j hpx).1
    exact Anc.step hpx (ih (Nat.lt_trans hj hc))

theorem Enter_cycles {p q : IProfiler} {name : String} {clk : Clock} {T : Nat}
    (hv : Valid p) (hC : CycInv p T) (h : Enter p name clk = some q)
    (h1 : T ≤ clk.cycles) (h2 : clk.cycles < 18446744073709551616) :
    CycInv q clk.cycles ∧
    ∀ (i : Nat) (n : PerfNode), p.heap[i]? = some n →
      ∃ n' : PerfNode, q.heap[i]? = some n' ∧ n'.cycleelapsedtime_ = n.cycleelapsedtime_ := by
  obtain ⟨hT, hroot, hcurv⟩ := hv
  obtain ⟨_, hC⟩ := hC
  obtain ⟨c, hc⟩ := Enter_some_current h
  have hlt := hcurv c hc
  obtain ⟨cur, hcur⟩ := lookup_of_lt p.heap c hlt
  have hchildren : (treeOf p.heap).children c = cur.children_ := (treeOf_lookup hcur).2.2.1
  have hvalid : ∀ ch ∈ cur.children_, ch < p.heap.length := by
    intro ch hch
    rw [← hchildren] at hch
    exact (hT.child c hlt ch hch).2.1
  rcases Enter_explicit p name clk c cur hc hcur hvalid with
    ⟨_, hq⟩ | ⟨_, ch, node, hmem, hnode, _, hq⟩ | ⟨_, _, hq⟩
  · -- recursive re-entry
    rw [h] at hq
    injection hq with hq
    subst hq
    have hpar := parent_set p.heap c cur { cur with recursion_ := wrap32 (cur.recursion_ + 1) }
      hcur rfl
    refine ⟨⟨h2, ?_⟩, ?_⟩
    · intro i n' hn'
      simp only [getElem?_set_heap _ _ _ _ hlt] at hn'
      by_cases hi : i = c
      · subst hi
        simp only [if_true, Option.some.injEq] at hn'
        subst hn'
        obtain ⟨a, b, d⟩ := hC i cur hcur
        refine ⟨by simp only; omega, by simp only; omega, ?_⟩
        intro c2 hc2 hanc
        exact d c2 hc2 (Anc.congr_parent hpar hanc)
      · simp only [hi, if_false] at hn'
        obtain ⟨a, b, d⟩ := hC i n' hn'
        refine ⟨by omega, by omega, ?_⟩
        intro c2 hc2 hanc
        exact d c2 hc2 (Anc.congr_parent hpar hanc)
    · intro i n hn
      simp only [getElem?_set_heap _ _ _ _ hlt]
      by_cases hi : i = c
      · subst hi
        rw [hcur] at hn
        injection hn with hn
        subst hn
        exact ⟨_, if_pos rfl, rfl⟩
      · exact ⟨n, by rw [if_neg hi]; exact hn, rfl⟩
  · -- descent into an existing child
    rw [h] at hq
    injection hq with hq
    subst hq
    have hchlt := lt_of_lookup hnode
    have hpar := parent_set p.heap ch node
      ({ node with calls_ := wrap32 (node.calls_ + 1) }.TimerStart clk) hnode rfl
    have hpch : (treeOf p.heap).parent ch = some c := by
      rw [← hchildren] at hmem
      exact (hT.child c hlt ch hmem).2.2
    refine ⟨⟨h2, ?_⟩, ?_⟩
    · intro i n' hn'
      simp only [getElem?_set_heap _ _ _ _ hchlt] at hn'
      by_cases hi : i = ch
      · subst hi
        simp only [if_true, Option.some.injEq] at hn'
        subst hn'
        obtain ⟨a, b, d⟩ := hC i node hnode
        simp only [PerfNode.TimerStart, wrap64_of_lt h2]
        exact ⟨Nat.le_refl _, by omega, fun _ _ _ => by omega⟩
      · simp only [hi, if_false] at hn'
        obtain ⟨a, b, d⟩ := hC i n' hn'
        refine ⟨by omega, by omega, ?_⟩
        intro c2 hc2 hanc
        simp only [Option.some.injEq] at hc2
        subst hc2
        have hanc2 := Anc.congr_parent hpar hanc
        cases hanc2 with
        | refl => exact absurd rfl hi
        | @step _ j hp haj =>
          rw [hpch] at hp
          injection hp with hp
          subst hp
          exact d c hc haj
    · intro i n hn
      simp only [getElem?_set_heap _ _ _ _ hchlt]
      by_cases hi : i = ch
      · subst hi
        rw [hnode] at hn
        injection hn with hn
        subst hn
        exact ⟨_, if_pos rfl, rfl⟩
      · exact ⟨n, by rw [if_neg hi]; exact hn, rfl⟩
  · -- descent into a new child
    rw [h] at hq
    injection hq with hq
    subst hq
    have hlen : (p.heap.set c { cur with children_ := cur.children_ ++ [p.heap.length] }).length =
        p.heap.length := List.length_set _ _ _
    have hlook : ∀ i, (p.heap.set c { cur with children_ := cur.children_ ++ [p.heap.length] } ++
        [{ PerfNode.new name with parent_ := some c }.TimerStart clk])[i]? =
        if i = p.heap.length then
          some ({ PerfNode.new name with parent_ := some c }.TimerStart clk)
        else if i = c then some { cur with children_ := cur.children_ ++ [p.heap.length] }
        else p.heap[i]? := by
      intro i
      rw [getElem?_concat_heap, hlen, getElem?_set_heap _ _ _ _ hlt]
    have hpar : ∀ x, x < (treeOf p.heap).size →
        (treeOf (p.heap.set c { cur with children_ := cur.children_ ++ [p.heap.length] } ++
          [{ PerfNode.new name with parent_ := some c }.TimerStart clk])).parent x =
        (treeOf p.heap).parent x := by
      intro x hx
      have hx' : x ≠ p.heap.length := Nat.ne_of_lt hx
      simp only [treeOf, hlook, hx', if_false]
      by_cases hxc : x = c
      · subst hxc; simp [hcur]
      · simp [hxc]
    have hpnew : (treeOf (p.heap.set c { cur with children_ := cur.children_ ++ [p.heap.length] } ++
          [{ PerfNode.new name with parent_ := some c }.TimerStart clk])).parent p.heap.length =
        some c := by
      simp [treeOf, hlook, PerfNode.TimerStart]
    refine ⟨⟨h2, ?_⟩, ?_⟩
    · intro i n' hn'
      rw [hlook] at hn'
      by_cases hi : i = p.heap.length
      · subst hi
        simp only [if_true, Option.some.injEq] at hn'
        subst hn'
        simp only [PerfNode.TimerStart, PerfNode.new, wrap64_of_lt h2]
        exact ⟨Nat.le_refl _, Nat.zero_le _, fun _ _ _ => Nat.zero_le _⟩
      · simp only [hi, if_false] at hn'
        have key : ∃ n, p.heap[i]? = some n ∧ n'.cyclestarttime_ = n.cyclestarttime_ ∧
            n'.cycleelapsedtime_ = n.cycleelapsedtime_ := by
          by_cases hic : i = c
          · subst hic
            simp only [if_true, Option.some.injEq] at hn'
            subst hn'
            exact ⟨cur, hcur, rfl, rfl⟩
          · simp only [hic, if_false] at hn'
            exact ⟨n', hn', rfl, rfl⟩
        obtain ⟨n, hn, e1, e2⟩ := key
        obtain ⟨a, b, d⟩ := hC i n hn
        rw [e1, e2]
        refine ⟨by omega, by omega, ?_⟩
        intro c2 hc2 hanc
        simp only [Option.some.injEq] at hc2
        subst hc2
        cases hanc with
        | refl => exact absurd rfl hi
        | @step _ j hp haj =>
          rw [hpnew] at hp
          injection hp with hp
          subst hp
          exact d c hc (Anc.restrict hT hpar hlt haj)
    · intro i n hn
      have hilt := lt_of_lookup hn
      rw [hlook]
      have hi : i ≠ p.heap.length := Nat.ne_of_lt hilt
      by_cases hic : i = c
      · subst hic
        rw [hcur] at hn
        injection hn with hn
        subst hn
        exact ⟨_, (if_neg hi).trans (if_pos rfl), rfl⟩
      · exact ⟨n, by rw [if_neg hi, if_neg hic]; exact hn, rfl⟩

theorem TimerEnd_cycles (n : PerfNode) (clk : Clock)
    (h1 : n.cyclestarttime_ ≤ clk.cycles) (h2 : clk.cycles < 18446744073709551616)
    (h3 : n.cycleelapsedtime_ ≤ n.cyclestarttime_) :
    (n.TimerEnd clk).cycleelapsedtime_ =
      n.cycleelapsedtime_ + (clk.cycles - n.cyclestarttime_) := by
  simp only [PerfNode.TimerEnd, wrap64]
  omega

theorem Leave_cycles {p q : IProfiler} {clk : Clock} {T : Nat}
    (hv : Valid p) (hC : CycInv p T) (h : Leave p clk = some q)
    (h1 : T ≤ clk.cycles) (h2 : clk.cycles < 18446744073709551616) :
    CycInv q clk.cycles ∧
    ∃ (c : Nat) (cur : PerfNode), p.current_ = some c ∧ p.heap[c]? = some cur ∧
      (∀ (i : Nat) (n : PerfNode), i ≠ c → p.heap[i]? = some n → q.heap[i]? = some n) ∧
      ((cur.recursion_ ≠ 0 ∧ ∃ n' : PerfNode, q.heap[c]? = some n' ∧
          n'.cycleelapsedtime_ = cur.cycleelapsedtime_) ∨
       (cur.recursion_ = 0 ∧ cur.cyclestarttime_ ≤ T ∧ ∃ n' : PerfNode, q.heap[c]? = some n' ∧
          n'.cycleelapsedtime_ = cur.cycleelapsedtime_ + (clk.cycles - cur.cyclestarttime_))) := by
  obtain ⟨hT, hroot, hcurv⟩ := hv
  obtain ⟨_, hC⟩ := hC
  obtain ⟨c, hc⟩ := Leave_some_current h
  have hlt := hcurv c hc
  obtain ⟨cur, hcur⟩ := lookup_of_lt p.heap c hlt
  by_cases hr : cur.recursion_ = 0
  · -- the visit ends
    have hq := Leave_pop p clk c cur hc hcur hr
    rw [h] at hq
    injection hq with hq
    subst hq
    have hpar := parent_set p.heap c cur (cur.TimerEnd clk) hcur rfl
    obtain ⟨a, b, d⟩ := hC c cur hcur
    have hopen := d c hc Anc.refl
    have hend := TimerEnd_cycles cur clk (by omega) h2 hopen
    refine ⟨⟨h2, ?_⟩, c, cur, hc, hcur, ?_, Or.inr ⟨hr, a, cur.TimerEnd clk, ?_, hend⟩⟩
    · intro i n' hn'
      simp only [getElem?_set_heap _ _ _ _ hlt] at hn'
      by_cases hi : i = c
      · subst hi
        simp only [if_true, Option.some.injEq] at hn'
        subst hn'
        refine ⟨by simp only [PerfNode.TimerEnd]; omega, by rw [hend]; omega, ?_⟩
        intro c2 hc2 hanc
        exfalso
        have hpc : (treeOf p.heap).parent i = some c2 := by
          rw [(treeOf_lookup hcur).2.1]; exact hc2
        have hlt2 := (hT.par i hlt c2 hpc).1
        have := Anc.le hT (Nat.lt_trans hlt2 hlt) (Anc.congr_parent hpar hanc)
        omega
      · simp only [hi, if_false] at hn'
        obtain ⟨a', b', d'⟩ := hC i n' hn'
        refine ⟨by omega, by omega, ?_⟩
        intro c2 hc2 hanc
        have hpc : (treeOf p.heap).parent c = some c2 := by
          rw [(treeOf_lookup hcur).2.1]; exact hc2
        exact d' c hc (Anc.step hpc (Anc.congr_parent hpar hanc))
    · intro i n hi hn
      simp only [getElem?_set_heap _ _ _ _ hlt, hi, if_false]
      exact hn
    · simp only [getElem?_set_heap _ _ _ _ hlt, if_true]
  · -- the end of a recursive re-entry
    have hq := Leave_rec p clk c cur hc hcur hr
    rw [h] at hq
    injection hq with hq
    subst hq
    have hpar := parent_set p.heap c cur
      { cur with recursion_ := wrap32 (cur.recursion_ + 4294967295) } hcur rfl
    refine ⟨⟨h2, ?_⟩, c, cur, hc, hcur, ?_,
      Or.inl ⟨hr, { cur with recursion_ := wrap32 (cur.recursion_ + 4294967295) }, ?_, rfl⟩⟩
    · intro i n' hn'
      simp only [getElem?_set_heap _ _ _ _ hlt] at hn'
      by_cases hi : i = c
      · subst hi
        simp only [if_true, Option.some.injEq] at hn'
        subst hn'
        obtain ⟨a, b, d⟩ := hC i cur hcur
        refine ⟨by simp only; omega, by simp only; omega, ?_⟩
        intro c2 hc2 hanc
        exact d c2 hc2 (Anc.congr_parent hpar hanc)
      · simp only [hi, if_false] at hn'
        obtain ⟨a, b, d⟩ := hC i n' hn'
        refine ⟨by omega, by omega, ?_⟩
        intro c2 hc2 hanc
        exact d c2 hc2 (Anc.congr_parent hpar hanc)
    · intro i n hi hn
      simp only [getElem?_set_heap _ _ _ _ hlt, hi, if_false]
      exact hn
    · simp only [getElem?_set_heap _ _ _ _ hlt, if_true]

theorem cyclesSorted_cons {T r : Nat} {rs : List Nat} (h : cyclesSorted T (r :: rs)) :
    T ≤ r ∧ r < 18446744073709551616 ∧ cyclesSorted r rs := by
  obtain ⟨h1, h2⟩ := h
  simp only [List.chain_cons] at h1
  exact ⟨h1.1, h2 r (List.mem_cons_self _ _), h1.2, fun x hx => h2 x (List.mem_cons_of_mem _ hx)⟩

theorem step_cycles {p q : IProfiler} {c : Call} {T : Nat}
    (hv : Valid p) (hC : CycInv p T) (h : step p c = some q)
    (h1 : T ≤ c.clock.cycles) (h2 : c.clock.cycles < 18446744073709551616) :
    CycInv q c.clock.cycles ∧
    ∀ (i : Nat) (n : PerfNode), p.heap[i]? = some n →
      ∃ n' : PerfNode, q.heap[i]? = some n' ∧ n.cycleelapsedtime_ ≤ n'.cycleelapsedtime_ := by
  cases c with
  | enter name clk =>
    obtain ⟨a, b⟩ := Enter_cycles hv hC h h1 h2
    refine ⟨a, ?_⟩
    intro i n hn
    obtain ⟨n', e1, e2⟩ := b i n hn
    exact ⟨n', e1, by rw [e2]⟩
  | leave clk =>
    obtain ⟨a, c, cur, hc, hcur, hother, hcase⟩ := Leave_cycles hv hC h h1 h2
    refine ⟨a, ?_⟩
    intro i n hn
    by_cases hi : i = c
    · subst hi
      rw [hcur] at hn
      injection hn with hn
      subst hn
      rcases hcase with ⟨_, n', e1, e2⟩ | ⟨_, _, n', e1, e2⟩
      · exact ⟨n', e1, by rw [e2]⟩
      · exact ⟨n', e1, by rw [e2]; omega⟩
    · exact ⟨n, hother i n hi hn, Nat.le_refl _⟩

/-- Along a call sequence with non-decreasing cycle readings below `2^64` the
accounting invariant is kept and no cycle total ever decreases; `rest` stands for the
readings that follow the sequence. -/
theorem run_cycles : ∀ (cs : List Call) (rest : List Nat) {p q : IProfiler} {T : Nat},
    Valid p → CycInv p T →
    cyclesSorted T (cs.map (fun c => c.clock.cycles) ++ rest) → run p cs = some q →
    (∃ T', T ≤ T' ∧ CycInv q T' ∧ cyclesSorted T' rest) ∧
    ∀ (i : Nat) (n : PerfNode), p.heap[i]? = some n →
      ∃ n' : PerfNode, q.heap[i]? = some n' ∧ n.cycleelapsedtime_ ≤ n'.cycleelapsedtime_ := by
  intro cs
  induction cs with
  | nil =>
    intro rest p q T _ hC hs h
    simp only [run, Option.some.injEq] at h
    subst h
    exact ⟨⟨T, Nat.le_refl _, hC, hs⟩, fun i n hn => ⟨n, hn, Nat.le_refl _⟩⟩
  | cons c cs ih =>
    intro rest p q T hv hC hs h
    obtain ⟨h1, h2, hs'⟩ := cyclesSorted_cons hs
    simp only [run] at h
    cases hst : step p c with
    | none => rw [hst] at h; cases h
    | some r =>
      rw [hst] at h
      obtain ⟨hC', hmono⟩ := step_cycles hv hC hst h1 h2
      obtain ⟨⟨T', hT', hC'', hs''⟩, hmono'⟩ := ih rest (Valid_step hv hst) hC' hs' h
      refine ⟨⟨T', Nat.le_trans h1 hT', hC'', hs''⟩, ?_⟩
      intro i n hn
      obtain ⟨n1, e1, e2⟩ := hmono i n hn
      obtain ⟨n2, e3, e4⟩ := hmono' i n1 e1
      exact ⟨n2, e3, Nat.le_trans e2 e4⟩

/-! ## Signs of the wall-clock total -/

theorem Double.roundHalfEven_ge (x : ℚ) (m : ℤ) (h : (m : ℚ) ≤ x) :
    m ≤ Double.roundHalfEven x := by
  have h1 := (abs_le.mp (Double.roundHalfEven_spec x)).1
  have h2 : (m : ℚ) - 1 < (Double.roundHalfEven x : ℚ) := by linarith
  have h3 : ((m - 1 : ℤ) : ℚ) < (Double.roundHalfEven x : ℚ) := by push_cast; exact h2
  have h4 : m - 1 < Double.roundHalfEven x := by exact_mod_cast h3
  omega

theorem Double.round_nonneg (q : ℚ) (h : 0 ≤ q) : Double.NonNeg (Double.round q) := by
  by_cases hq : q = 0
  · right; exact ⟨0, by simp [Double.round, hq], le_refl _⟩
  · have hpos : 0 < q := lt_of_le_of_ne h (Ne.symm hq)
    have hnlt : ¬ q < 0 := not_lt.mpr h
    unfold Double.round
    simp only [hq, hnlt, if_false, Double.pow2_eq_zpow, decide_False]
    split
    · left; rfl
    · right
      refine ⟨_, rfl, ?_⟩
      have hulp : (0 : ℚ) < (2 : ℚ) ^ (max (Double.ilog2 q) (-1022) - 52) := zpow_pos two_pos _
      have hx : ((0 : ℤ) : ℚ) ≤ q / (2 : ℚ) ^ (max (Double.ilog2 q) (-1022) - 52) := by
        simp only [Int.cast_zero]
        exact div_nonneg h (le_of_lt hulp)
      have := Double.roundHalfEven_ge _ 0 hx
      have h0 : (0 : ℚ) ≤ (Double.roundHalfEven
          (q / (2 : ℚ) ^ (max (Double.ilog2 q) (-1022) - 52)) : ℚ) := by exact_mod_cast this
      exact mul_nonneg h0 (le_of_lt hulp)

theorem Double.round_normal (q : ℚ) (h : (2 : ℚ) ^ (-1022 : ℤ) ≤ q) :
    Double.Normal (Double.round q) := by
  have hpos : 0 < q := lt_of_lt_of_le (zpow_pos two_pos _) h
  have hq : q ≠ 0 := ne_of_gt hpos
  have hnlt : ¬ q < 0 := not_lt.mpr (le_of_lt hpos)
  obtain ⟨hl, hu⟩ := Double.ilog2_spec q hpos
  have he1 : (-1022 : ℤ) < Double.ilog2 q + 1 :=
    (zpow_lt_zpow_iff_right₀ (one_lt_two : (1 : ℚ) < 2)).mp (lt_of_le_of_lt h hu)
  have he : max (Double.ilog2 q) (-1022) = Double.ilog2 q := max_eq_left (by omega)
  have h2 : (2 : ℚ) ≠ 0 := two_ne_zero
  have hulp : (0 : ℚ) < (2 : ℚ) ^ (Double.ilog2 q - 52) := zpow_pos two_pos _
  have e : (((2 : ℤ) ^ 52 : ℤ) : ℚ) * (2 : ℚ) ^ (Double.ilog2 q - 52) =
      (2 : ℚ) ^ (Double.ilog2 q) := by
    rw [zpow_sub₀ h2]
    push_cast
    rw [zpow_ofNat]
    field_simp
    ring
  unfold Double.round
  simp only [hq, hnlt, if_false, Double.pow2_eq_zpow, decide_False, he]
  split
  · left; rfl
  · right
    refine ⟨_, rfl, ?_⟩
    have hx : (((2 : ℤ) ^ 52 : ℤ) : ℚ) ≤ q / (2 : ℚ) ^ (Double.ilog2 q - 52) := by
      rw [le_div_iff₀ hulp]
      rw [e]
      exact hl
    have hm := Double.roundHalfEven_ge _ _ hx
    have hm' : (((2 : ℤ) ^ 52 : ℤ) : ℚ) ≤
        (Double.roundHalfEven (q / (2 : ℚ) ^ (Double.ilog2 q - 52)) : ℚ) := by
      exact_mod_cast hm
    have hge : (2 : ℚ) ^ (Double.ilog2 q) ≤
        (Double.roundHalfEven (q / (2 : ℚ) ^ (Double.ilog2 q - 52)) : ℚ) *
          (2 : ℚ) ^ (Double.ilog2 q - 52) := by
      rw [← e]
      exact mul_le_mul_of_nonneg_right hm' (le_of_lt hulp)
    have hmin : (2 : ℚ) ^ (-1022 : ℤ) ≤ (2 : ℚ) ^ (Double.ilog2 q) :=
      zpow_le_zpow_right₀ (by norm_num) (by omega)
    exact le_trans hmin hge

theorem Double.Normal.nonneg {x : Double} (h : Double.Normal x) : Double.NonNeg x := by
  rcases h with h | ⟨r, h, hr⟩
  · exact Or.inl h
  · exact Or.inr ⟨r, h, le_trans (le_of_lt (zpow_pos two_pos _)) hr⟩

theorem Double.add_nonneg {a b : Double} (ha : Double.NonNeg a) (hb : Double.NonNeg b) :
    Double.NonNeg (Double.add a b) := by
  rcases ha with ha | ⟨x, ha, hx⟩ <;> rcases hb with hb | ⟨y, hb, hy⟩ <;> subst ha <;> subst hb
  · left; rfl
  · left; rfl
  · left; rfl
  · exact Double.round_nonneg _ (by linarith)

theorem Double.add_normal_left {a b : Double} (ha : Double.Normal a) (hb : Double.NonNeg b) :
    Double.Normal (Double.add a b) := by
  rcases ha with ha | ⟨x, ha, hx⟩ <;> rcases hb with hb | ⟨y, hb, hy⟩ <;> subst ha <;> subst hb
  · left; rfl
  · left; rfl
  · left; rfl
  · exact Double.round_normal _ (by linarith)

theorem Double.add_normal_right {a b : Double} (ha : Double.NonNeg a) (hb : Double.Normal b) :
    Double.Normal (Double.add a b) := by
  rcases ha with ha | ⟨x, ha, hx⟩ <;> rcases hb with hb | ⟨y, hb, hy⟩ <;> subst ha <;> subst hb
  · left; rfl
  · left; rfl
  · left; rfl
  · exact Double.round_normal _ (by linarith)

/-- A double at least `2^-1022` compares greater than zero. -/
theorem Double.Normal.pos {x : Double} (h : Double.Normal x) :
    Double.lt (Double.fin 0) x = true := by
  rcases h with h | ⟨r, h, hr⟩
  · subst h; rfl
  · subst h
    simp only [Double.lt, decide_eq_true_eq]
    exact lt_of_lt_of_le (zpow_pos two_pos _) hr

theorem Double.round_thousand : Double.round 1000 = Double.fin 1000 := by decide!

theorem Double.ofInt_range (d : Int) (h1 : 1 ≤ d) (h2 : d < 9223372036854775808) :
    ∃ x : ℚ, Double.ofInt d = Double.fin x ∧ 1 / 2 ≤ x ∧ x ≤ 2 ^ 64 := by
  have hd1 : (1 : ℚ) ≤ (d : ℚ) := by exact_mod_cast h1
  have hd2 : (d : ℚ) ≤ 2 ^ 63 := by
    have : d ≤ 9223372036854775808 := le_of_lt h2
    have h3 : (d : ℚ) ≤ ((9223372036854775808 : ℤ) : ℚ) := by exact_mod_cast this
    calc (d : ℚ) ≤ ((9223372036854775808 : ℤ) : ℚ) := h3
      _ = 2 ^ 63 := by norm_num
  obtain ⟨x, hx, hx1, hx2⟩ := Double.round_between (d : ℚ)
    (le_trans (by norm_num) hd1) (le_trans hd2 (by norm_num))
  refine ⟨x, hx, ?_, ?_⟩
  · have : (1 - 1 / 2 ^ 53 : ℚ) * 1 ≤ (1 - 1 / 2 ^ 53) * (d : ℚ) :=
      mul_le_mul_of_nonneg_left hd1 (by norm_num)
    have h3 : (1 : ℚ) / 2 ≤ (1 - 1 / 2 ^ 53) * 1 := by norm_num
    linarith
  · have : (1 + 1 / 2 ^ 53 : ℚ) * (d : ℚ) ≤ (1 + 1 / 2 ^ 53) * 2 ^ 63 :=
      mul_le_mul_of_nonneg_left hd2 (by norm_num)
    have h3 : (1 + 1 / 2 ^ 53 : ℚ) * 2 ^ 63 ≤ 2 ^ 64 := by norm_num
    linarith

/-- The value `qpcfrequency_` that `TimerStart` stores for a frequency reading between
`1` and `2^63`: a finite double between `2^-12` and `2^55`. -/
theorem Double.frequency_range (f : Int) (h1 : 1 ≤ f) (h2 : f < 9223372036854775808) :
    ∃ y : ℚ, Double.div (Double.ofInt f) (Double.round 1000) = Double.fin y ∧
      1 / 2 ^ 12 ≤ y ∧ y ≤ 2 ^ 55 := by
  obtain ⟨x, hx, hx1, hx2⟩ := Double.ofInt_range f h1 h2
  have hq1 : (1 : ℚ) / 2 ^ 80 ≤ x / 1000 := by
    rw [le_div_iff₀ (by norm_num)]
    have : (1 : ℚ) / 2 ^ 80 * 1000 ≤ 1 / 2 := by norm_num
    linarith
  have hq2 : x / 1000 ≤ 2 ^ 80 := by
    rw [div_le_iff₀ (by norm_num)]
    have : (2 : ℚ) ^ 64 ≤ 2 ^ 80 * 1000 := by norm_num
    linarith
  obtain ⟨y, hy, hy1, hy2⟩ := Double.round_between (x / 1000) hq1 hq2
  refine ⟨y, ?_, ?_, ?_⟩
  · simp only [hx, Double.round_thousand, Double.div]
    rw [if_neg (by norm_num)]
    exact hy
  · have h3 : (1 : ℚ) / 2000 ≤ x / 1000 := by
      rw [le_div_iff₀ (by norm_num)]; linarith
    have h4 : (1 - 1 / 2 ^ 53 : ℚ) * (1 / 2000) ≤ (1 - 1 / 2 ^ 53) * (x / 1000) :=
      mul_le_mul_of_nonneg_left h3 (by norm_num)
    have h5 : (1 : ℚ) / 2 ^ 12 ≤ (1 - 1 / 2 ^ 53) * (1 / 2000) := by norm_num
    linarith
  · have h3 : x / 1000 ≤ 2 ^ 64 / 1000 := by
      apply div_le_div_of_nonneg_right hx2 (by norm_num)
    have h4 : (1 + 1 / 2 ^ 53 : ℚ) * (x / 1000) ≤ (1 + 1 / 2 ^ 53) * (2 ^ 64 / 1000) :=
      mul_le_mul_of_nonneg_left h3 (by norm_num)
    have h5 : (1 + 1 / 2 ^ 53 : ℚ) * (2 ^ 64 / 1000) ≤ 2 ^ 55 := by norm_num
    linarith

/-- The quotient that `TimerEnd` adds to the wall-clock total, for a counter difference
`d` between `0` and `2^63` and a stored frequency between `2^-12` and `2^55`: never
negative, and at least `2^-1022` when `d` is positive. -/
theorem Double.elapsed_term (d : Int) (y : ℚ) (h0 : 0 ≤ d) (h2 : d < 9223372036854775808)
    (hy1 : 1 / 2 ^ 12 ≤ y) (hy2 : y ≤ 2 ^ 55) :
    Double.NonNeg (Double.div (Double.ofInt d) (Double.fin y)) ∧
    (0 < d → Double.Normal (Double.div (Double.ofInt d) (Double.fin y))) := by
  have hypos : 0 < y := lt_of_lt_of_le (by norm_num) hy1
  have hyne : y ≠ 0 := ne_of_gt hypos
  have key : 0 < d → Double.Normal (Double.div (Double.ofInt d) (Double.fin y)) := by
    intro hd
    obtain ⟨x, hx, hx1, hx2⟩ := Double.ofInt_range d (by omega) h2
    simp only [hx, Double.div, hyne, if_false]
    apply Double.round_normal
    have h3 : (1 : ℚ) / 2 ^ 56 ≤ x / y := by
      rw [le_div_iff₀ hypos]
      have : (1 : ℚ) / 2 ^ 56 * y ≤ 1 / 2 ^ 56 * 2 ^ 55 :=
        mul_le_mul_of_nonneg_left hy2 (by norm_num)
      have h4 : (1 : ℚ) / 2 ^ 56 * 2 ^ 55 = 1 / 2 := by norm_num
      linarith
    have h5 : (2 : ℚ) ^ (-1022 : ℤ) ≤ 1 / 2 ^ 56 := by
      have : (1 : ℚ) / 2 ^ 56 = (2 : ℚ) ^ (-56 : ℤ) := by
        rw [zpow_neg, zpow_ofNat, one_div]
      rw [this]
      exact zpow_le_zpow_right₀ (by norm_num) (by norm_num)
    exact le_trans h5 h3
  refine ⟨?_, key⟩
  by_cases hd : 0 < d
  · exact (key hd).nonneg
  · have : d = 0 := by omega
    subst this
    right
    refine ⟨0, ?_, le_refl _⟩
    simp [Double.ofInt, Double.round_zero, Double.div, hyne]

theorem wrapI64_of_range {z : Int} (h1 : -9223372036854775808 ≤ z)
    (h2 : z < 9223372036854775808) : wrapI64 z = z := by
  unfold wrapI64
  omega

/-! ## Accounting of the performance counter -/

/-- What one call does to the wall-clock fields of the nodes: every node of the new
state is an old node with these fields unchanged, or a node whose timer was just
started (a new node, or an old one with its total kept), or an old node whose timer
was just ended; and every old node is still there, its total unchanged or its timer
just ended. -/
theorem step_wall {p q : IProfiler} {c : Call} (hv : Valid p) (h : step p c = some q) :
    (∀ (i : Nat) (n' : PerfNode), q.heap[i]? = some n' →
      (∃ n : PerfNode, p.heap[i]? = some n ∧ n'.qpcfrequency_ = n.qpcfrequency_ ∧
        n'.qpcstarttime_ = n.qpcstarttime_ ∧ n'.qpcelapsedtime_ = n.qpcelapsedtime_) ∨
      (∃ m : PerfNode, n' = m.TimerStart c.clock ∧
        (m.qpcelapsedtime_ = Double.fin 0 ∨
          ∃ n : PerfNode, p.heap[i]? = some n ∧ m.qpcelapsedtime_ = n.qpcelapsedtime_)) ∨
      (∃ n : PerfNode, p.heap[i]? = some n ∧ n' = n.TimerEnd c.clock)) ∧
    (∀ (i : Nat) (n : PerfNode), p.heap[i]? = some n →
      ∃ n' : PerfNode, q.heap[i]? = some n' ∧
        (n'.qpcelapsedtime_ = n.qpcelapsedtime_ ∨ n' = n.TimerEnd c.clock)) := by
  obtain ⟨hT, hroot, hcurv⟩ := hv
  cases c with
  | enter name clk =>
    simp only [step] at h
    obtain ⟨c, hc⟩ := Enter_some_current h
    have hlt := hcurv c hc
    obtain ⟨cur, hcur⟩ := lookup_of_lt p.heap c hlt
    have hchildren : (treeOf p.heap).children c = cur.children_ := (treeOf_lookup hcur).2.2.1
    have hvalid : ∀ ch ∈ cur.children_, ch < p.heap.length := by
      intro ch hch
      rw [← hchildren] at hch
      exact (hT.child c hlt ch hch).2.1
    rcases Enter_explicit p name clk c cur hc hcur hvalid with
      ⟨_, hq⟩ | ⟨_, ch, node, _, hnode, _, hq⟩ | ⟨_, _, hq⟩
    · rw [h] at hq
      injection hq with hq
      subst hq
      refine ⟨?_, ?_⟩
      · intro i n' hn'
        left
        simp only [getElem?_set_heap _ _ _ _ hlt] at hn'
        by_cases hi : i = c
        · subst hi
          simp only [if_true, Option.some.injEq] at hn'
          subst hn'
          exact ⟨cur, hcur, rfl, rfl, rfl⟩
        · simp only [hi, if_false] at hn'
          exact ⟨n', hn', rfl, rfl, rfl⟩
      · intro i n hn
        simp only [getElem?_set_heap _ _ _ _ hlt]
        by_cases hi : i = c
        · subst hi
          rw [hcur] at hn
          injection hn with hn
          subst hn
          exact ⟨_, if_pos rfl, Or.inl rfl⟩
        · exact ⟨n, by rw [if_neg hi]; exact hn, Or.inl rfl⟩
    · rw [h] at hq
      injection hq with hq
      subst hq
      have hchlt := lt_of_lookup hnode
      refine ⟨?_, ?_⟩
      · intro i n' hn'
        simp only [getElem?_set_heap _ _ _ _ hchlt] at hn'
        by_cases hi : i = ch
        · subst hi
          simp only [if_true, Option.some.injEq] at hn'
          subst hn'
          exact Or.inr (Or.inl ⟨_, rfl, Or.inr ⟨node, hnode, rfl⟩⟩)
        · simp only [hi, if_false] at hn'
          exact Or.inl ⟨n', hn', rfl, rfl, rfl⟩
      · intro i n hn
        simp only [getElem?_set_heap _ _ _ _ hchlt]
        by_cases hi : i = ch
        · subst hi
          rw [hnode] at hn
          injection hn with hn
          subst hn
          exact ⟨_, if_pos rfl, Or.inl rfl⟩
        · exact ⟨n, by rw [if_neg hi]; exact hn, Or.inl rfl⟩
    · rw [h] at hq
      injection hq with hq
      subst hq
      have hlen : (p.heap.set c { cur with children_ := cur.children_ ++ [p.heap.length] }).length =
          p.heap.length := List.length_set _ _ _
      have hlook : ∀ i, (p.heap.set c { cur with children_ := cur.children_ ++ [p.heap.length] } ++
          [{ PerfNode.new name with parent_ := some c }.TimerStart clk])[i]? =
          if i = p.heap.length then
            some ({ PerfNode.new name with parent_ := some c }.TimerStart clk)
          else if i = c then some { cur with children_ := cur.children_ ++ [p.heap.length] }
          else p.heap[i]? := by
        intro i
        rw [getElem?_concat_heap, hlen, getElem?_set_heap _ _ _ _ hlt]
      refine ⟨?_, ?_⟩
      · intro i n' hn'
        rw [hlook] at hn'
        by_cases hi : i = p.heap.length
        · subst hi
          simp only [if_true, Option.some.injEq] at hn'
          subst hn'
          exact Or.inr (Or.inl ⟨_, rfl, Or.inl rfl⟩)
        · simp only [hi, if_false] at hn'
          left
          by_cases hic : i = c
          · subst hic
            simp only [if_true, Option.some.injEq] at hn'
            subst hn'
            exact ⟨cur, hcur, rfl, rfl, rfl⟩
          · simp only [hic, if_false] at hn'
            exact ⟨n', hn', rfl, rfl, rfl⟩
      · intro i n hn
        have hilt := lt_of_lookup hn
        have hi : i ≠ p.heap.length := Nat.ne_of_lt hilt
        rw [hlook]
        by_cases hic : i = c
        · subst hic
          rw [hcur] at hn
          injection hn with hn
          subst hn
          exact ⟨_, (if_neg hi).trans (if_pos rfl), Or.inl rfl⟩
        · exact ⟨n, by rw [if_neg hi, if_neg hic]; exact hn, Or.inl rfl⟩
  | leave clk =>
    simp only [step] at h
    obtain ⟨c, hc⟩ := Leave_some_current h
    have hlt := hcurv c hc
    obtain ⟨cur, hcur⟩ := lookup_of_lt p.heap c hlt
    by_cases hr : cur.recursion_ = 0
    · have hq := Leave_pop p clk c cur hc hcur hr
      rw [h] at hq
      injection hq with hq
      subst hq
      refine ⟨?_, ?_⟩
      · intro i n' hn'
        simp only [getElem?_set_heap _ _ _ _ hlt] at hn'
        by_cases hi : i = c
        · subst hi
          simp only [if_true, Option.some.injEq] at hn'
          subst hn'
          exact Or.inr (Or.inr ⟨cur, hcur, rfl⟩)
        · simp only [hi, if_false] at hn'
          exact Or.inl ⟨n', hn', rfl, rfl, rfl⟩
      · intro i n hn
        simp only [getElem?_set_heap _ _ _ _ hlt]
        by_cases hi : i = c
        · subst hi
          rw [hcur] at hn
          injection hn with hn
          subst hn
          exact ⟨_, if_pos rfl, Or.inr rfl⟩
        · exact ⟨n, by rw [if_neg hi]; exact hn, Or.inl rfl⟩
    · have hq := Leave_rec p clk c cur hc hcur hr
      rw [h] at hq
      injection hq with hq
      subst hq
      refine ⟨?_, ?_⟩
      · intro i n' hn'
        left
        simp only [getElem?_set_heap _ _ _ _ hlt] at hn'
        by_cases hi : i = c
        · subst hi
          simp only [if_true, Option.some.injEq] at hn'
          subst hn'
          exact ⟨cur, hcur, rfl, rfl, rfl⟩
        · simp only [hi, if_false] at hn'
          exact ⟨n', hn', rfl, rfl, rfl⟩
      · intro i n hn
        simp only [getElem?_set_heap _ _ _ _ hlt]
        by_cases hi : i = c
        · subst hi
          rw [hcur] at hn
          injection hn with hn
          subst hn
          exact ⟨_, if_pos rfl, Or.inl rfl⟩
        · exact ⟨n, by rw [if_neg hi]; exact hn, Or.inl rfl⟩

theorem qpcSorted_cons {T : Int} {k : Clock} {ks : List Clock} (h : qpcSorted T (k :: ks)) :
    T ≤ k.counter ∧ (0 ≤ k.counter ∧ k.counter < 9223372036854775808 ∧
      1 ≤ k.frequency ∧ k.frequency < 9223372036854775808) ∧ qpcSorted k.counter ks := by
  obtain ⟨h1, h2⟩ := h
  simp only [List.map_cons, List.chain_cons] at h1
  exact ⟨h1.1, h2 k (List.mem_cons_self _ _), h1.2, fun x hx => h2 x (List.mem_cons_of_mem _ hx)⟩

theorem QpcInv_new (clk : Clock) (h1 : 0 ≤ clk.counter) (h2 : clk.counter < 9223372036854775808)
    (h3 : 1 ≤ clk.frequency) (h4 : clk.frequency < 9223372036854775808) :
    QpcInv (IProfiler.new clk) clk.counter := by
  refine ⟨h1, h2, ?_⟩
  intro i n hn
  cases i with
  | zero =>
    simp only [IProfiler.new, List.getElem?_cons_zero, Option.some.injEq] at hn
    subst hn
    simp only [PerfNode.TimerStart, PerfNode.new,
      wrapI64_of_range (le_trans (by norm_num) h1) h2,
      wrapI64_of_range (le_trans (by norm_num) h3) h4]
    exact ⟨Double.frequency_range _ h3 h4, h1, le_refl _, Or.inr ⟨0, rfl, le_refl _⟩⟩
  | succ i => simp [IProfiler.new] at hn

/-- The wall-clock total after `TimerEnd`, for a node that satisfies the invariant and
an end reading not before the start snapshot: not negative; at least `2^-1022` when
the total was so before or when the end reading is strictly later. -/
theorem TimerEnd_wall (n : PerfNode) (clk : Clock) (y : ℚ)
    (hf : n.qpcfrequency_ = Double.fin y) (hy1 : 1 / 2 ^ 12 ≤ y) (hy2 : y ≤ 2 ^ 55)
    (hs0 : 0 ≤ n.qpcstarttime_) (hs : n.qpcstarttime_ ≤ clk.counter)
    (hc : clk.counter < 9223372036854775808) (hacc : Double.NonNeg n.qpcelapsedtime_) :
    Double.NonNeg (n.TimerEnd clk).qpcelapsedtime_ ∧
    (Double.Normal n.qpcelapsedtime_ → Double.Normal (n.TimerEnd clk).qpcelapsedtime_) ∧
    (n.qpcstarttime_ < clk.counter → Double.Normal (n.TimerEnd clk).qpcelapsedtime_) := by
  have e1 : wrapI64 clk.counter = clk.counter := wrapI64_of_range (by omega) hc
  have e2 : wrapI64 (clk.counter - n.qpcstarttime_) = clk.counter - n.qpcstarttime_ :=
    wrapI64_of_range (by omega) (by omega)
  obtain ⟨t1, t2⟩ := Double.elapsed_term (clk.counter - n.qpcstarttime_) y (by omega) (by omega)
    hy1 hy2
  simp only [PerfNode.TimerEnd, e1, e2, hf]
  exact ⟨Double.add_nonneg hacc t1, fun h => Double.add_normal_left h t1,
    fun h => Double.add_normal_right hacc (t2 (by omega))⟩

theorem step_qpc {p q : IProfiler} {c : Call} {T : Int}
    (hv : Valid p) (hQ : QpcInv p T) (h : step p c = some q) (h1 : T ≤ c.clock.counter)
    (h2 : 0 ≤ c.clock.counter ∧ c.clock.counter < 9223372036854775808 ∧
      1 ≤ c.clock.frequency ∧ c.clock.frequency < 9223372036854775808) :
    QpcInv q c.clock.counter ∧
    ∀ (i : Nat) (n : PerfNode), p.heap[i]? = some n → Double.Normal n.qpcelapsedtime_ →
      ∃ n' : PerfNode, q.heap[i]? = some n' ∧ Double.Normal n'.qpcelapsedtime_ := by
  obtain ⟨hT0, hT1, hQ⟩ := hQ
  obtain ⟨hc0, hc1, hf0, hf1⟩ := h2
  obtain ⟨hA, hB⟩ := step_wall hv h
  refine ⟨⟨hc0, hc1, ?_⟩, ?_⟩
  · intro i n' hn'
    rcases hA i n' hn' with ⟨n, hn, e1, e2, e3⟩ | ⟨m, hm, hacc⟩ | ⟨n, hn, hend⟩
    · obtain ⟨a, b, d, e⟩ := hQ i n hn
      rw [e1, e2, e3]
      exact ⟨a, b, le_trans d h1, e⟩
    · subst hm
      simp only [PerfNode.TimerStart,
        wrapI64_of_range (le_trans (by norm_num) hc0) hc1,
        wrapI64_of_range (le_trans (by norm_num) hf0) hf1]
      refine ⟨Double.frequency_range _ hf0 hf1, hc0, le_refl _, ?_⟩
      rcases hacc with hz | ⟨n, hn, hz⟩
      · rw [hz]; exact Or.inr ⟨0, rfl, le_refl _⟩
      · rw [hz]; exact (hQ i n hn).2.2.2
    · subst hend
      obtain ⟨⟨y, hy, hy1, hy2⟩, b, d, e⟩ := hQ i n hn
      have := (TimerEnd_wall n c.clock y hy hy1 hy2 b (le_trans d h1) hc1 e).1
      exact ⟨⟨y, hy, hy1, hy2⟩, b, le_trans d h1, this⟩
  · intro i n hn hnormal
    obtain ⟨n', hn', hcase⟩ := hB i n hn
    refine ⟨n', hn', ?_⟩
    rcases hcase with e | e
    · rw [e]; exact hnormal
    · subst e
      obtain ⟨⟨y, hy, hy1, hy2⟩, b, d, e⟩ := hQ i n hn
      exact (TimerEnd_wall n c.clock y hy hy1 hy2 b (le_trans d h1) hc1 e).2.1 hnormal

/-- Along a call sequence with usable readings of the performance counter the
accounting invariant is kept, and a wall-clock total that has reached `2^-1022` stays
at least so; `rest` stands for the readings that follow the sequence. -/
theorem run_qpc : ∀ (cs : List Call) (rest : List Clock) {p q : IProfiler} {T : Int},
    Valid p → QpcInv p T → qpcSorted T (cs.map Call.clock ++ rest) → run p cs = some q →
    (∃ T', QpcInv q T' ∧ qpcSorted T' rest) ∧
    ∀ (i : Nat) (n : PerfNode), p.heap[i]? = some n → Double.Normal n.qpcelapsedtime_ →
      ∃ n' : PerfNode, q.heap[i]? = some n' ∧ Double.Normal n'.qpcelapsedtime_ := by
  intro cs
  induction cs with
  | nil =>
    intro rest p q T _ hQ hs h
    simp only [run, Option.some.injEq] at h
    subst h
    exact ⟨⟨T, hQ, hs⟩, fun i n hn hnorm => ⟨n, hn, hnorm⟩⟩
  | cons c cs ih =>
    intro rest p q T hv hQ hs h
    obtain ⟨h1, h2, hs'⟩ := qpcSorted_cons hs
    simp only [run] at h
    cases hst : step p c with
    | none => rw [hst] at h; cases h
    | some r =>
      rw [hst] at h
      obtain ⟨hQ', hmono⟩ := step_qpc hv hQ hst h1 h2
      obtain ⟨hQ'', hmono'⟩ := ih rest (Valid_step hv hst) hQ' hs' h
      refine ⟨hQ'', ?_⟩
      intro i n hn hnorm
      obtain ⟨n1, e1, e2⟩ := hmono i n hn hnorm
      exact hmono' i n1 e1 e2

/-! ## Rounding never goes below a double already reached -/

theorem Double.roundHalfEven_le (x : ℚ) (m : ℤ) (h : x ≤ (m : ℚ)) :
    Double.roundHalfEven x ≤ m := by
  have h1 := (abs_le.mp (Double.roundHalfEven_spec x)).2
  have h2 : (Double.roundHalfEven x : ℚ) < (m : ℚ) + 1 := by linarith
  have h3 : (Double.roundHalfEven x : ℚ) < ((m + 1 : ℤ) : ℚ) := by push_cast; exact h2
  have h4 : Double.roundHalfEven x < m + 1 := by exact_mod_cast h3
  omega

theorem Double.roundHalfEven_int (m : ℤ) : Double.roundHalfEven (m : ℚ) = m :=
  le_antisymm (Double.roundHalfEven_le _ m (le_refl _)) (Double.roundHalfEven_ge _ m (le_refl _))

theorem Double.ilog2_unique (a : ℚ) (k : ℤ) (h1 : (2 : ℚ) ^ k ≤ a) (h2 : a < (2 : ℚ) ^ (k + 1)) :
    Double.ilog2 a = k := by
  have ha : 0 < a := lt_of_lt_of_le (zpow_pos two_pos _) h1
  obtain ⟨hl, hu⟩ := Double.ilog2_spec a ha
  have e1 : k < Double.ilog2 a + 1 :=
    (zpow_lt_zpow_iff_right₀ (one_lt_two : (1 : ℚ) < 2)).mp (lt_of_le_of_lt h1 hu)
  have e2 : Double.ilog2 a < k + 1 :=
    (zpow_lt_zpow_iff_right₀ (one_lt_two : (1 : ℚ) < 2)).mp (lt_of_le_of_lt hl h2)
  omega

theorem Double.ilog2_mono (a b : ℚ) (ha : 0 < a) (hab : a ≤ b) :
    Double.ilog2 a ≤ Double.ilog2 b := by
  obtain ⟨hl, _⟩ := Double.ilog2_spec a ha
  obtain ⟨_, hu⟩ := Double.ilog2_spec b (lt_of_lt_of_le ha hab)
  have : Double.ilog2 a < Double.ilog2 b + 1 :=
    (zpow_lt_zpow_iff_right₀ (one_lt_two : (1 : ℚ) < 2)).mp
      (lt_of_le_of_lt hl (lt_of_le_of_lt hab hu))
  omega

theorem Double.ulp_mul (e : ℤ) : ((2 : ℚ) ^ 52) * (2 : ℚ) ^ (e - 52) = (2 : ℚ) ^ e := by
  have h2 : (2 : ℚ) ≠ 0 := two_ne_zero
  rw [zpow_sub₀ h2, zpow_ofNat]
  field_simp

/-- The shape of a rounding result for a positive argument: a whole number `M` of units
in the last place of the argument's binade, with `M` at least `2^52` unless the binade
is the lowest one, and at most `2^53`. -/
theorem Double.round_shape (q : ℚ) (hq : 0 < q) :
    ∃ (e M : ℤ), e = max (Double.ilog2 q) (-1022) ∧
      M = Double.roundHalfEven (q / (2 : ℚ) ^ (e - 52)) ∧ 0 ≤ M ∧ M ≤ 2 ^ 53 ∧
      (e ≠ -1022 → 2 ^ 52 ≤ M) ∧
      (Double.ilog2 q = e → 2 ^ 52 ≤ M) ∧
      Double.round q = (if (2 : ℚ) ^ (1024 : ℤ) ≤ (M : ℚ) * (2 : ℚ) ^ (e - 52)
        then Double.inf false else Double.fin ((M : ℚ) * (2 : ℚ) ^ (e - 52))) := by
  have hne : q ≠ 0 := ne_of_gt hq
  have hnlt : ¬ q < 0 := not_lt.mpr (le_of_lt hq)
  obtain ⟨hl, hu⟩ := Double.ilog2_spec q hq
  have hulp : (0 : ℚ) < (2 : ℚ) ^ (max (Double.ilog2 q) (-1022) - 52) := zpow_pos two_pos _
  have hnormal : Double.ilog2 q = max (Double.ilog2 q) (-1022) →
      (2 : ℤ) ^ 52 ≤ Double.roundHalfEven (q / (2 : ℚ) ^ (max (Double.ilog2 q) (-1022) - 52)) := by
    intro he
    apply Double.roundHalfEven_ge
    rw [le_div_iff₀ hulp]
    have c52 : (((2 : ℤ) ^ 52 : ℤ) : ℚ) = (2 : ℚ) ^ 52 := by norm_num
    rw [c52, Double.ulp_mul, ← he]
    exact hl
  refine ⟨max (Double.ilog2 q) (-1022), _, rfl, rfl, ?_, ?_, ?_, hnormal, ?_⟩
  · apply Double.roundHalfEven_ge
    simp only [Int.cast_zero]
    exact div_nonneg (le_of_lt hq) (le_of_lt hulp)
  · apply Double.roundHalfEven_le
    rw [div_le_iff₀ hulp]
    have c53 : (((2 : ℤ) ^ 53 : ℤ) : ℚ) = (2 : ℚ) ^ 53 := by norm_num
    rw [c53]
    have e1 : ((2 : ℚ) ^ 53) * (2 : ℚ) ^ (max (Double.ilog2 q) (-1022) - 52) =
        (2 : ℚ) ^ (max (Double.ilog2 q) (-1022) + 1) := by
      have : ((2 : ℚ) ^ 53) = 2 * (2 : ℚ) ^ 52 := by norm_num
      rw [this, mul_assoc, Double.ulp_mul, zpow_add_one₀ (two_ne_zero)]
      ring
    rw [e1]
    have : (2 : ℚ) ^ (Double.ilog2 q + 1) ≤ (2 : ℚ) ^ (max (Double.ilog2 q) (-1022) + 1) :=
      zpow_le_zpow_right₀ (by norm_num) (by have := le_max_left (Double.ilog2 q) (-1022); omega)
    exact le_of_lt (lt_of_lt_of_le hu this)
  · intro he
    apply hnormal
    rcases max_choice (Double.ilog2 q) (-1022) with h | h
    · exact h.symm
    · exact absurd h he
  · unfold Double.round
    simp only [hne, hnlt, if_false, Double.pow2_eq_zpow, decide_False]

theorem Double.ulp_mul_succ (e : ℤ) :
    ((2 : ℚ) ^ 53) * (2 : ℚ) ^ (e - 52) = (2 : ℚ) ^ (e + 1) := by
  have : ((2 : ℚ) ^ 53) = 2 * (2 : ℚ) ^ 52 := by norm_num
  rw [this, mul_assoc, Double.ulp_mul, zpow_add_one₀ (two_ne_zero)]
  ring

/-- Rounding a non-negative value gives `+inf` or a finite double that rounding leaves
unchanged. -/
theorem Double.round_settled (q : ℚ) (hq : 0 ≤ q) : Double.Settled (Double.round q) := by
  by_cases hq0 : q = 0
  · subst hq0
    exact Or.inr ⟨0, Double.round_zero, le_refl _, Double.round_zero⟩
  have hpos : 0 < q := lt_of_le_of_ne hq (Ne.symm hq0)
  obtain ⟨e, M, he, hM, hM0, hM53, hnorm, _, hround⟩ := Double.round_shape q hpos
  have hemin : -1022 ≤ e := by rw [he]; exact le_max_right _ _
  have hu : (0 : ℚ) < (2 : ℚ) ^ (e - 52) := zpow_pos two_pos _
  rw [hround]
  split
  · exact Or.inl rfl
  · rename_i hfin
    have hMq : (0 : ℚ) ≤ (M : ℚ) := by exact_mod_cast hM0
    refine Or.inr ⟨_, rfl, mul_nonneg hMq (le_of_lt hu), ?_⟩
    by_cases hMz : M = 0
    · subst hMz
      simp only [Int.cast_zero, zero_mul]
      exact Double.round_zero
    have hM1 : 1 ≤ M := by omega
    have hM1q : (1 : ℚ) ≤ (M : ℚ) := by exact_mod_cast hM1
    have hrpos : 0 < (M : ℚ) * (2 : ℚ) ^ (e - 52) := mul_pos (by linarith) hu
    obtain ⟨e', M', he', hM', _, _, _, _, hround'⟩ :=
      Double.round_shape ((M : ℚ) * (2 : ℚ) ^ (e - 52)) hrpos
    have key : (M' : ℚ) * (2 : ℚ) ^ (e' - 52) = (M : ℚ) * (2 : ℚ) ^ (e - 52) := by
      by_cases hMtop : M = 2 ^ 53
      · -- the result is the power of two that opens the next binade
        have c53 : ((M : ℤ) : ℚ) = (2 : ℚ) ^ 53 := by rw [hMtop]; norm_num
        have hr : (M : ℚ) * (2 : ℚ) ^ (e - 52) = (2 : ℚ) ^ (e + 1) := by
          rw [c53, Double.ulp_mul_succ]
        have hlog : Double.ilog2 ((M : ℚ) * (2 : ℚ) ^ (e - 52)) = e + 1 := by
          apply Double.ilog2_unique
          · rw [hr]
          · rw [hr]
            exact zpow_lt_zpow_right₀ (by norm_num) (by omega)
        have he'' : e' = e + 1 := by rw [he', hlog]; exact max_eq_left (by omega)
        have hquot : (M : ℚ) * (2 : ℚ) ^ (e - 52) / (2 : ℚ) ^ (e' - 52) =
            (((2 : ℤ) ^ 52 : ℤ) : ℚ) := by
          rw [hr, he'']
          have c52 : (((2 : ℤ) ^ 52 : ℤ) : ℚ) = (2 : ℚ) ^ 52 := by norm_num
          rw [c52, div_eq_iff (ne_of_gt (zpow_pos two_pos _)), Double.ulp_mul]
        rw [hM', hquot, Double.roundHalfEven_int, hr, he'']
        have c52 : (((2 : ℤ) ^ 52 : ℤ) : ℚ) = (2 : ℚ) ^ 52 := by norm_num
        rw [c52, Double.ulp_mul]
      · have hMlt : M < 2 ^ 53 := lt_of_le_of_ne hM53 hMtop
        have hMltq : (M : ℚ) < (2 : ℚ) ^ 53 := by
          have : (M : ℚ) < (((2 : ℤ) ^ 53 : ℤ) : ℚ) := by exact_mod_cast hMlt
          calc (M : ℚ) < (((2 : ℤ) ^ 53 : ℤ) : ℚ) := this
            _ = (2 : ℚ) ^ 53 := by norm_num
        have hrlt : (M : ℚ) * (2 : ℚ) ^ (e - 52) < (2 : ℚ) ^ (e + 1) := by
          rw [← Double.ulp_mul_succ e]
          exact mul_lt_mul_of_pos_right hMltq hu
        have he'' : e' = e := by
          rw [he']
          by_cases hbig : 2 ^ 52 ≤ M
          · have hbigq : (2 : ℚ) ^ 52 ≤ (M : ℚ) := by
              have : (((2 : ℤ) ^ 52 : ℤ) : ℚ) ≤ (M : ℚ) := by exact_mod_cast hbig
              calc (2 : ℚ) ^ 52 = (((2 : ℤ) ^ 52 : ℤ) : ℚ) := by norm_num
                _ ≤ (M : ℚ) := this
            have hrge : (2 : ℚ) ^ e ≤ (M : ℚ) * (2 : ℚ) ^ (e - 52) := by
              rw [← Double.ulp_mul e]
              exact mul_le_mul_of_nonneg_right hbigq (le_of_lt hu)
            rw [Double.ilog2_unique _ e hrge hrlt]
            exact max_eq_left hemin
          · have hemin' : e = -1022 := by
              by_contra hne
              exact hbig (hnorm hne)
            have hsmallq : (M : ℚ) < (2 : ℚ) ^ 52 := by
              have : M < 2 ^ 52 := by omega
              have h3 : (M : ℚ) < (((2 : ℤ) ^ 52 : ℤ) : ℚ) := by exact_mod_cast this
              calc (M : ℚ) < (((2 : ℤ) ^ 52 : ℤ) : ℚ) := h3
                _ = (2 : ℚ) ^ 52 := by norm_num
            have hrlt2 : (M : ℚ) * (2 : ℚ) ^ (e - 52) < (2 : ℚ) ^ e := by
              rw [← Double.ulp_mul e]
              exact mul_lt_mul_of_pos_right hsmallq hu
            obtain ⟨hl, _⟩ := Double.ilog2_spec _ hrpos
            have : Double.ilog2 ((M : ℚ) * (2 : ℚ) ^ (e - 52)) < e :=
              (zpow_lt_zpow_iff_right₀ (one_lt_two : (1 : ℚ) < 2)).mp (lt_of_le_of_lt hl hrlt2)
            rw [hemin'] at this ⊢
            exact max_eq_right (by omega)
        have hquot : (M : ℚ) * (2 : ℚ) ^ (e - 52) / (2 : ℚ) ^ (e' - 52) = (M : ℚ) := by
          rw [he'', mul_div_assoc, div_self (ne_of_gt hu), mul_one]
        rw [hM', hquot, Double.roundHalfEven_int, he'']
    rw [hround', key, if_neg hfin]

theorem Double.le_of_settled {x : Double} (h : Double.Settled x) : Double.le x x = true := by
  rcases h with h | ⟨a, h, _, _⟩
  · subst h; rfl
  · subst h; simp [Double.le]

theorem Double.le_trans {x y z : Double} (h1 : Double.le x y = true) (h2 : Double.le y z = true) :
    Double.le x z = true := by
  cases x with
  | nan => simp [Double.le] at h1
  | inf s =>
    cases y with
    | nan => simp [Double.le] at h1
    | inf t =>
      cases z with
      | nan => simp [Double.le] at h2
      | inf u => cases s <;> cases t <;> cases u <;> simp_all [Double.le]
      | fin c => cases s <;> cases t <;> simp_all [Double.le]
    | fin b =>
      cases z with
      | nan => simp [Double.le] at h2
      | inf u => cases s <;> cases u <;> simp_all [Double.le]
      | fin c => simpa [Double.le] using h1
  | fin a =>
    cases y with
    | nan => simp [Double.le] at h1
    | inf t =>
      cases z with
      | nan => simp [Double.le] at h2
      | inf u => cases t <;> cases u <;> simp_all [Double.le]
      | fin c => cases t <;> simp_all [Double.le]
    | fin b =>
      cases z with
      | nan => simp [Double.le] at h2
      | inf u => simpa [Double.le] using h2
      | fin c =>
        simp only [Double.le, decide_eq_true_eq] at h1 h2 ⊢
        linarith

/-- Adding a non-negative value to a finite non-negative double and rounding never goes
below that double. -/
theorem Double.add_ge (a z : ℚ) (ha : 0 ≤ a) (hfix : Double.round a = Double.fin a)
    (hz : 0 ≤ z) : Double.le (Double.fin a) (Double.round (a + z)) = true := by
  by_cases ha0 : a = 0
  · subst ha0
    rcases Double.round_nonneg (0 + z) (by linarith) with h | ⟨r, h, hr⟩
    · rw [h]; rfl
    · rw [h]; simpa [Double.le] using hr
  have hapos : 0 < a := lt_of_le_of_ne ha (Ne.symm ha0)
  have hspos : 0 < a + z := by linarith
  obtain ⟨ea, Ma, hea, hMa, _, hMa53, _, _, hrounda⟩ := Double.round_shape a hapos
  obtain ⟨es, Ms, hes, hMs, hMs0, _, hnorms, _, hrounds⟩ := Double.round_shape (a + z) hspos
  have hua : (0 : ℚ) < (2 : ℚ) ^ (ea - 52) := zpow_pos two_pos _
  have hus : (0 : ℚ) < (2 : ℚ) ^ (es - 52) := zpow_pos two_pos _
  have haeq : (Ma : ℚ) * (2 : ℚ) ^ (ea - 52) = a := by
    rw [hrounda] at hfix
    split at hfix
    · cases hfix
    · injection hfix
  have hle : ea ≤ es := by
    rw [hea, hes]
    exact max_le_max (Double.ilog2_mono a (a + z) hapos (by linarith)) (le_refl _)
  have hemin : -1022 ≤ ea := by rw [hea]; exact le_max_right _ _
  rw [hrounds]
  split
  · rfl
  · simp only [Double.le, decide_eq_true_eq]
    by_cases heq : es = ea
    · rw [heq] at hMs ⊢
      have hq : (Ma : ℚ) ≤ (a + z) / (2 : ℚ) ^ (ea - 52) := by
        rw [le_div_iff₀ hua, haeq]; linarith
      have hge := Double.roundHalfEven_ge _ Ma hq
      rw [← hMs] at hge
      have hgeq : (Ma : ℚ) ≤ (Ms : ℚ) := by exact_mod_cast hge
      calc a = (Ma : ℚ) * (2 : ℚ) ^ (ea - 52) := haeq.symm
        _ ≤ (Ms : ℚ) * (2 : ℚ) ^ (ea - 52) := mul_le_mul_of_nonneg_right hgeq (le_of_lt hua)
    · have hlt : ea < es := lt_of_le_of_ne hle (Ne.symm heq)
      have hbig : 2 ^ 52 ≤ Ms := hnorms (by omega)
      have hbigq : (2 : ℚ) ^ 52 ≤ (Ms : ℚ) := by
        have : (((2 : ℤ) ^ 52 : ℤ) : ℚ) ≤ (Ms : ℚ) := by exact_mod_cast hbig
        calc (2 : ℚ) ^ 52 = (((2 : ℤ) ^ 52 : ℤ) : ℚ) := by norm_num
          _ ≤ (Ms : ℚ) := this
      have hMaq : (Ma : ℚ) ≤ (2 : ℚ) ^ 53 := by
        have : (Ma : ℚ) ≤ (((2 : ℤ) ^ 53 : ℤ) : ℚ) := by exact_mod_cast hMa53
        calc (Ma : ℚ) ≤ (((2 : ℤ) ^ 53 : ℤ) : ℚ) := this
          _ = (2 : ℚ) ^ 53 := by norm_num
      calc a = (Ma : ℚ) * (2 : ℚ) ^ (ea - 52) := haeq.symm
        _ ≤ (2 : ℚ) ^ 53 * (2 : ℚ) ^ (ea - 52) := mul_le_mul_of_nonneg_right hMaq (le_of_lt hua)
        _ = (2 : ℚ) ^ (ea + 1) := Double.ulp_mul_succ ea
        _ ≤ (2 : ℚ) ^ es := zpow_le_zpow_right₀ (by norm_num) (by omega)
        _ = (2 : ℚ) ^ 52 * (2 : ℚ) ^ (es - 52) := (Double.ulp_mul es).symm
        _ ≤ (Ms : ℚ) * (2 : ℚ) ^ (es - 52) := mul_le_mul_of_nonneg_right hbigq (le_of_lt hus)

/-- The wall-clock total after one more addition of a non-negative quotient: again a
total the program can hold, and not less than before. -/
theorem Double.add_settled {x t : Double} (hx : Double.Settled x) (ht : Double.NonNeg t) :
    Double.Settled (Double.add x t) ∧ Double.le x (Double.add x t) = true := by
  rcases hx with hx | ⟨a, hx, ha, hfix⟩ <;> rcases ht with ht | ⟨z, ht, hz⟩ <;> subst hx <;> subst ht
  · exact ⟨Or.inl rfl, rfl⟩
  · exact ⟨Or.inl rfl, rfl⟩
  · exact ⟨Or.inl rfl, rfl⟩
  · exact ⟨Double.round_settled _ (by linarith), Double.add_ge a z ha hfix hz⟩

/-! ## Wall-clock totals never decrease -/

theorem TimerEnd_settled (n : PerfNode) (clk : Clock) (y : ℚ)
    (hf : n.qpcfrequency_ = Double.fin y) (hy1 : 1 / 2 ^ 12 ≤ y) (hy2 : y ≤ 2 ^ 55)
    (hs0 : 0 ≤ n.qpcstarttime_) (hs : n.qpcstarttime_ ≤ clk.counter)
    (hc : clk.counter < 9223372036854775808) (hacc : Double.Settled n.qpcelapsedtime_) :
    Double.Settled (n.TimerEnd clk).qpcelapsedtime_ ∧
    Double.le n.qpcelapsedtime_ (n.TimerEnd clk).qpcelapsedtime_ = true := by
  have e1 : wrapI64 clk.counter = clk.counter := wrapI64_of_range (by omega) hc
  have e2 : wrapI64 (clk.counter - n.qpcstarttime_) = clk.counter - n.qpcstarttime_ :=
    wrapI64_of_range (by omega) (by omega)
  obtain ⟨t1, _⟩ := Double.elapsed_term (clk.counter - n.qpcstarttime_) y (by omega) (by omega)
    hy1 hy2
  simp only [PerfNode.TimerEnd, e1, e2, hf]
  exact Double.add_settled hacc t1

theorem step_settled {p q : IProfiler} {c : Call} {T : Int}
    (hv : Valid p) (hQ : QpcInv p T)
    (hS : ∀ (i : Nat) (n : PerfNode), p.heap[i]? = some n → Double.Settled n.qpcelapsedtime_)
    (h : step p c = some q) (h1 : T ≤ c.clock.counter)
    (h2 : c.clock.counter < 9223372036854775808) :
    (∀ (i : Nat) (n' : PerfNode), q.heap[i]? = some n' → Double.Settled n'.qpcelapsedtime_) ∧
    ∀ (i : Nat) (n : PerfNode), p.heap[i]? = some n →
      ∃ n' : PerfNode, q.heap[i]? = some n' ∧
        Double.le n.qpcelapsedtime_ n'.qpcelapsedtime_ = true := by
  obtain ⟨_, _, hQ⟩ := hQ
  obtain ⟨hA, hB⟩ := step_wall hv h
  refine ⟨?_, ?_⟩
  · intro i n' hn'
    rcases hA i n' hn' with ⟨n, hn, _, _, e3⟩ | ⟨m, hm, hacc⟩ | ⟨n, hn, hend⟩
    · rw [e3]; exact hS i n hn
    · subst hm
      simp only [PerfNode.TimerStart]
      rcases hacc with hz | ⟨n, hn, hz⟩
      · rw [hz]; exact Or.inr ⟨0, rfl, le_refl _, Double.round_zero⟩
      · rw [hz]; exact hS i n hn
    · subst hend
      obtain ⟨⟨y, hy, hy1, hy2⟩, b, d, _⟩ := hQ i n hn
      exact (TimerEnd_settled n c.clock y hy hy1 hy2 b (le_trans d h1) h2 (hS i n hn)).1
  · intro i n hn
    obtain ⟨n', hn', hcase⟩ := hB i n hn
    refine ⟨n', hn', ?_⟩
    rcases hcase with e | e
    · rw [e]; exact Double.le_of_settled (hS i n hn)
    · subst e
      obtain ⟨⟨y, hy, hy1, hy2⟩, b, d, _⟩ := hQ i n hn
      exact (TimerEnd_settled n c.clock y hy hy1 hy2 b (le_trans d h1) h2 (hS i n hn)).2

/-- Along a call sequence with usable readings of the performance counter no wall-clock
total ever decreases; `rest` stands for the readings that follow the sequence. -/
theorem run_settled : ∀ (cs : List Call) (rest : List Clock) {p q : IProfiler} {T : Int},
    Valid p → QpcInv p T →
    (∀ (i : Nat) (n : PerfNode), p.heap[i]? = some n → Double.Settled n.qpcelapsedtime_) →
    qpcSorted T (cs.map Call.clock ++ rest) → run p cs = some q →
    (∀ (i : Nat) (n' : PerfNode), q.heap[i]? = some n' → Double.Settled n'.qpcelapsedtime_) ∧
    ∀ (i : Nat) (n : PerfNode), p.heap[i]? = some n →
      ∃ n' : PerfNode, q.heap[i]? = some n' ∧
        Double.le n.qpcelapsedtime_ n'.qpcelapsedtime_ = true := by
  intro cs
  induction cs with
  | nil =>
    intro rest p q T _ _ hS _ h
    simp only [run, Option.some.injEq] at h
    subst h
    exact ⟨hS, fun i n hn => ⟨n, hn, Double.le_of_settled (hS i n hn)⟩⟩
  | cons c cs ih =>
    intro rest p q T hv hQ hS hs h
    obtain ⟨h1, h2, hs'⟩ := qpcSorted_cons hs
    simp only [run] at h
    cases hst : step p c with
    | none => rw [hst] at h; cases h
    | some r =>
      rw [hst] at h
      obtain ⟨hQ', _⟩ := step_qpc hv hQ hst h1 h2
      obtain ⟨hS', hmono⟩ := step_settled hv hQ hS hst h1 h2.2.1
      obtain ⟨hS'', hmono'⟩ := ih rest (Valid_step hv hst) hQ' hS' hs' h
      refine ⟨hS'', ?_⟩
      intro i n hn
      obtain ⟨n1, e1, e2⟩ := hmono i n hn
      obtain ⟨n2, e3, e4⟩ := hmono' i n1 e1
      exact ⟨n2, e3, Double.le_trans e2 e4⟩

theorem Settled_new (clk : Clock) :
    ∀ (i : Nat) (n : PerfNode), (IProfiler.new clk).heap[i]? = some n →
      Double.Settled n.qpcelapsedtime_ := by
  intro i n hn
  cases i with
  | zero =>
    simp only [IProfiler.new, List.getElem?_cons_zero, Option.some.injEq] at hn
    subst hn
    exact Or.inr ⟨0, rfl, le_refl _, Double.round_zero⟩
  | succ i => simp [IProfiler.new] at hn

/-! ## Totals of closed nodes -/

theorem run_persist : ∀ (cs : List Call) {p q : IProfiler}, Valid p → run p cs = some q →
    ∀ (i : Nat) (n : PerfNode), p.heap[i]? = some n → ∃ n' : PerfNode, q.heap[i]? = some n' := by
  intro cs
  induction cs with
  | nil =>
    intro p q _ h i n hn
    simp only [run, Option.some.injEq] at h
    subst h
    exact ⟨n, hn⟩
  | cons c cs ih =>
    intro p q hv h i n hn
    simp only [run] at h
    cases hst : step p c with
    | none => rw [hst] at h; cases h
    | some r =>
      rw [hst] at h
      obtain ⟨n1, e1, _⟩ := (step_wall hv hst).2 i n hn
      exact ih (Valid_step hv hst) h i n1 e1

/-- C13 (amended): in a session on a fresh profiler, let a `Leave` end the timer of a
node (the node is current with `recursion_ == 0`), and look at the node at any later
point of the session. If the cycle readings of the session never decrease and stay
below `2^64`, and that `Leave` reads a cycle count strictly greater than the node's
start snapshot, then `cycleelapsedtime_` is non-zero: it is at least the total before
that `Leave` plus the span of the visit. If the counter readings never decrease and lie
between `0` and `2^63`, the frequency readings lie between `1` and `2^63`, and that
`Leave` reads a counter value strictly greater than the node's start snapshot, then
`qpcelapsedtime_` is greater than zero. -/
theorem closed_node_totals_nonzero (clk0 : Clock) (cs : List Call)
    (pre mid suf : List Call) (clk : Clock)
    (hsplit : cs = pre ++ Call.leave clk :: (mid ++ suf))
    (p : IProfiler) (c : Nat) (cur : PerfNode)
    (hp : run (IProfiler.new clk0) pre = some p)
    (hc : p.current_ = some c) (hcur : p.heap[c]? = some cur) (hr : cur.recursion_ = 0)
    (q : IProfiler) (hq : run (IProfiler.new clk0) (pre ++ Call.leave clk :: mid) = some q) :
    ∃ n : PerfNode, q.heap[c]? = some n ∧
      (clk0.cycles < 18446744073709551616 →
        cyclesSorted clk0.cycles (cs.map (fun c => c.clock.cycles)) →
        cur.cyclestarttime_ < clk.cycles →
        n.cycleelapsedtime_ ≠ 0 ∧
          cur.cycleelapsedtime_ + (clk.cycles - cur.cyclestarttime_) ≤ n.cycleelapsedtime_) ∧
      (0 ≤ clk0.counter → clk0.counter < 9223372036854775808 →
        1 ≤ clk0.frequency → clk0.frequency < 9223372036854775808 →
        qpcSorted clk0.counter (cs.map Call.clock) →
        cur.qpcstarttime_ < clk.counter →
        Double.lt (Double.fin 0) n.qpcelapsedtime_ = true) := by
  subst hsplit
  have hv := Valid_run pre (Valid_new clk0) hp
  rw [run_append, hp] at hq
  simp only [Option.bind, run, step] at hq
  cases hl : Leave p clk with
  | none => rw [hl] at hq; cases hq
  | some r =>
    rw [hl] at hq
    simp only at hq
    have hvr := Valid_Leave hv hl
    have hrheap : r.heap[c]? = some (cur.TimerEnd clk) := by
      have hpop := Leave_pop p clk c cur hc hcur hr
      rw [hl] at hpop
      injection hpop with hpop
      subst hpop
      simp only [getElem?_set_heap _ _ _ _ (lt_of_lookup hcur), if_true]
    obtain ⟨n, hn⟩ := run_persist mid hvr hq c _ hrheap
    refine ⟨n, hn, ?_, ?_⟩
    · intro hclk0 hsorted hstrict
      have hs : cyclesSorted clk0.cycles (pre.map (fun c => c.clock.cycles) ++
          (clk.cycles :: (mid.map (fun c => c.clock.cycles) ++
            suf.map (fun c => c.clock.cycles)))) := by
        simpa [Call.clock] using hsorted
      obtain ⟨⟨T', _, hC, hs'⟩, _⟩ := run_cycles pre _ (Valid_new clk0) (CycInv_new clk0 hclk0) hs hp
      obtain ⟨h1, h2, hs''⟩ := cyclesSorted_cons hs'
      obtain ⟨hCr, c', cur', hc', hcur', _, hcase⟩ := Leave_cycles hv hC hl h1 h2
      rw [hc] at hc'
      injection hc' with hc'
      subst hc'
      rw [hcur] at hcur'
      injection hcur' with hcur'
      subst hcur'
      rcases hcase with ⟨hr', _⟩ | ⟨_, _, n1, e1, e2⟩
      · exact absurd hr hr'
      · obtain ⟨n2, e3, e4⟩ := (run_cycles mid _ hvr hCr hs'' hq).2 c n1 e1
        rw [hn] at e3
        injection e3 with e3
        subst e3
        exact ⟨by omega, by omega⟩
    · intro hq0 hq1 hf0 hf1 hsorted hstrict
      have hs : qpcSorted clk0.counter (pre.map Call.clock ++
          (clk :: (mid.map Call.clock ++ suf.map Call.clock))) := by
        simpa [Call.clock] using hsorted
      obtain ⟨⟨T', hQ, hs'⟩, _⟩ := run_qpc pre _ (Valid_new clk0)
        (QpcInv_new clk0 hq0 hq1 hf0 hf1) hs hp
      obtain ⟨h1, h2, hs''⟩ := qpcSorted_cons hs'
      obtain ⟨⟨y, hy, hy1, hy2⟩, b, d, e⟩ := hQ.2.2 c cur hcur
      have hnorm := (TimerEnd_wall cur clk y hy hy1 hy2 b (le_trans d h1) h2.2.1 e).2.2 hstrict
      have hstep : step p (Call.leave clk) = some r := hl
      obtain ⟨hQr, _⟩ := step_qpc hv hQ hstep h1 h2
      obtain ⟨n2, e3, e4⟩ := (run_qpc mid _ hvr hQr hs'' hq).2 c _ hrheap hnorm
      rw [hn] at e3
      injection e3 with e3
      subst e3
      exact e4.pos

/-- C13 on a session in which "A" is entered at cycle 5, counter 1, and left at cycle 9,
counter 2. -/
theorem closed_node_totals_nonzero_witness :
    ∃ (q : IProfiler) (n : PerfNode),
      run (IProfiler.new ⟨10, 0, 0⟩)
        ([Call.enter "A" ⟨10, 1, 5⟩] ++ Call.leave ⟨10, 2, 9⟩ :: []) = some q ∧
      q.heap[1]? = some n ∧ n.cycleelapsedtime_ ≠ 0 ∧ 0 + (9 - 5) ≤ n.cycleelapsedtime_ ∧
      Double.lt (Double.fin 0) n.qpcelapsedtime_ = true := by
  obtain ⟨q, hq⟩ : ∃ q, run (IProfiler.new ⟨10, 0, 0⟩)
      ([Call.enter "A" ⟨10, 1, 5⟩] ++ Call.leave ⟨10, 2, 9⟩ :: []) = some q :=
    Option.isSome_iff_exists.mp (by decide!)
  obtain ⟨n, h1, h2, h3⟩ := closed_node_totals_nonzero ⟨10, 0, 0⟩
    [Call.enter "A" ⟨10, 1, 5⟩, Call.leave ⟨10, 2, 9⟩, Call.enter "B" ⟨10, 3, 9⟩]
    [Call.enter "A" ⟨10, 1, 5⟩] [] [Call.enter "B" ⟨10, 3, 9⟩] ⟨10, 2, 9⟩ rfl
    { heap := [({ (PerfNode.new "Root").TimerStart ⟨10, 0, 0⟩ with children_ := [1] } : PerfNode),
               (({ PerfNode.new "A" with parent_ := some 0 } : PerfNode).TimerStart ⟨10, 1, 5⟩)],
      nodelist_ := [0, 0, 1], root_ := some 0, current_ := some 1, level_ := 1 }
    1 (({ PerfNode.new "A" with parent_ := some 0 } : PerfNode).TimerStart ⟨10, 1, 5⟩)
    (run_enter_cons [] (Enter_first "A" (by decide) _ _)) rfl rfl rfl q hq
  have hcyc := h2 (by decide) ⟨by simp [Call.clock], by simp [Call.clock]⟩ (by decide)
  have hwall := h3 (by decide) (by decide) (by decide) (by decide)
    ⟨by simp [Call.clock], by simp [Call.clock]⟩ (by decide)
  exact ⟨q, n, hq, h1, hcyc.1, hcyc.2, hwall⟩

/-- C13 fails as stated: with the non-decreasing readings below, "A" is entered and
left at the same cycle and counter readings. The `Leave` finds "A" current with
`recursion_ == 0` and ends its timer (the end snapshot `cycleendtime_` is written),
yet both accumulators of "A" are still zero. -/
theorem closed_node_with_zero_totals :
    (run (IProfiler.new ⟨10, 0, 0⟩) [Call.enter "A" ⟨10, 5, 7⟩]).map
      (fun p => (p.current_, p.heap.map (fun n => (n.function_name_, n.recursion_)))) =
      some (some 1, [("Root", 0), ("A", 0)]) ∧
    (run (IProfiler.new ⟨10, 0, 0⟩) [Call.enter "A" ⟨10, 5, 7⟩, Call.leave ⟨10, 5, 7⟩]).map
      (fun p => p.heap.map (fun n => (n.function_name_, n.cyclestarttime_, n.cycleendtime_,
        n.cycleelapsedtime_, n.qpcelapsedtime_))) =
      some [("Root", 0, 0, 0, Double.fin 0), ("A", 7, 7, 0, Double.fin 0)] := by
  refine ⟨by decide!, by decide!⟩

/-! ## When the accumulators change -/

theorem modify_totals {h h' : List PerfNode} {i : Nat} {f : PerfNode → PerfNode}
    (hm : modify h i f = some h') (hf : ∀ n, (f n).totals = n.totals) :
    h'.map PerfNode.totals = h.map PerfNode.totals := by
  unfold modify at hm
  cases hi : h[i]? with
  | none => rw [hi] at hm; cases hm
  | some n =>
    rw [hi] at hm
    injection hm with hm
    subst hm
    rw [List.map_set, hf]
    apply List.ext_getElem?
    intro j
    by_cases hj : j = i
    · subst hj
      rcases Nat.lt_or_ge j h.length with hlt | hge
      · rw [List.getElem?_set_eq_of_lt]
        · rw [List.getElem?_map, hi]; rfl
        · simpa using hlt
      · rw [List.getElem?_eq_none hge] at hi; cases hi
    · rw [List.getElem?_set_ne (Ne.symm hj)]

theorem findLoop_totals {h h' : List PerfNode} {name : String} {r : Option Nat} :
    ∀ {l : List Nat}, findLoop h name l = some (h', r) →
      h'.map PerfNode.totals = h.map PerfNode.totals
  | [], hf => by
    simp only [findLoop, Option.some.injEq, Prod.mk.injEq] at hf
    rw [hf.1]
  | ch :: rest, hf => by
    unfold findLoop at hf
    cases hch : h[ch]? with
    | none => rw [hch] at hf; cases hf
    | some node =>
      rw [hch] at hf
      simp only at hf
      split at hf
      · simp only [Option.some.injEq, Prod.mk.injEq] at hf
        have hm : modify h ch (fun n => { n with calls_ := wrap32 (n.calls_ + 1) }) = some h' := by
          simp only [modify, hch, hf.1]
        exact modify_totals hm (fun _ => rfl)
      · exact findLoop_totals hf

/-- `Enter` leaves the accumulators of every node as they are; a node it creates
starts with both at zero. -/
theorem Enter_totals {p q : IProfiler} {name : String} {clk : Clock}
    (h : Enter p name clk = some q) :
    q.heap.map PerfNode.totals = p.heap.map PerfNode.totals ∨
    q.heap.map PerfNode.totals = p.heap.map PerfNode.totals ++ [(0, Double.fin 0)] := by
  unfold Enter at h
  simp only at h
  cases hc : p.current_ with
  | none => rw [hc] at h; cases h
  | some c =>
    rw [hc] at h
    simp only at h
    cases hcur : p.heap[c]? with
    | none => rw [hcur] at h; cases h
    | some cur =>
      rw [hcur] at h
      simp only at h
      split at h
      · -- recursive re-entry
        cases hm : modify p.heap c (fun n => { n with recursion_ := wrap32 (n.recursion_ + 1) }) with
        | none => rw [hm] at h; cases h
        | some heap =>
          rw [hm] at h
          injection h with h
          subst h
          exact Or.inl (modify_totals hm (fun _ => rfl))
      · unfold FindChildren at h
        simp only [hc, hcur] at h
        cases hf : findLoop p.heap name cur.children_ with
        | none => rw [hf] at h; cases h
        | some r =>
          obtain ⟨heap1, res⟩ := r
          rw [hf] at h
          have h1 := findLoop_totals hf
          cases res with
          | some node =>
            simp only [enterNode] at h
            cases hm : modify heap1 node (fun n => n.TimerStart clk) with
            | none => rw [hm] at h; cases h
            | some heap2 =>
              rw [hm] at h
              injection h with h
              subst h
              left
              rw [← h1]
              exact modify_totals hm (fun _ => rfl)
          | none =>
            simp only [createChild, CreateNode] at h
            cases hm1 : modify (heap1 ++ [PerfNode.new name]) heap1.length
                (fun n => { n with parent_ := some c }) with
            | none => rw [hm1] at h; cases h
            | some heap2 =>
              rw [hm1] at h
              simp only at h
              cases hm2 : modify heap2 c
                  (fun n => { n with children_ := n.children_ ++ [heap1.length] }) with
              | none => rw [hm2] at h; cases h
              | some heap3 =>
                rw [hm2] at h
                simp only [enterNode] at h
                cases hm3 : modify heap3 heap1.length (fun n => n.TimerStart clk) with
                | none => rw [hm3] at h; cases h
                | some heap4 =>
                  rw [hm3] at h
                  injection h with h
                  subst h
                  right
                  rw [modify_totals hm3 (fun _ => rfl), modify_totals hm2 (fun _ => rfl),
                    modify_totals hm1 (fun _ => rfl), List.map_append, h1]
                  rfl

/-- `Leave` changes no accumulator while a recursion is being unwound; otherwise it ends
the timer of the current node and touches no other node. -/
theorem Leave_totals {p q : IProfiler} {clk : Clock} (h : Leave p clk = some q) :
    ∃ (c : Nat) (cur : PerfNode), p.current_ = some c ∧ p.heap[c]? = some cur ∧
      ((cur.recursion_ ≠ 0 ∧ q.current_ = some c ∧
          q.heap.map PerfNode.totals = p.heap.map PerfNode.totals) ∨
       (cur.recursion_ = 0 ∧ q.current_ = cur.parent_ ∧
          q.heap = p.heap.set c (cur.TimerEnd clk))) := by
  obtain ⟨c, hc⟩ := Leave_some_current h
  cases hcur : p.heap[c]? with
  | none => simp [Leave, hc, hcur] at h
  | some cur =>
    refine ⟨c, cur, hc, hcur, ?_⟩
    by_cases hr : cur.recursion_ = 0
    · rw [Leave_pop p clk c cur hc hcur hr] at h
      injection h with h
      subst h
      exact Or.inr ⟨hr, rfl, rfl⟩
    · rw [Leave_rec p clk c cur hc hcur hr] at h
      injection h with h
      subst h
      refine Or.inl ⟨hr, hc, ?_⟩
      exact modify_totals (modify_eq p.heap c
        (fun n => { n with recursion_ := wrap32 (n.recursion_ + 4294967295) }) cur hcur)
        (fun n => by simp only [PerfNode.totals])

theorem Finalize_totals {p q : IProfiler} {clk : Clock} (h : Finalize p clk = some q) :
    ∃ (r : Nat) (root : PerfNode), p.root_ = some r ∧ p.heap[r]? = some root ∧
      q.heap = p.heap.set r (root.TimerEnd clk) := by
  unfold Finalize at h
  cases hr : p.root_ with
  | none => rw [hr] at h; cases h
  | some r =>
    rw [hr] at h
    simp only at h
    cases hroot : p.heap[r]? with
    | none => simp [modify, hroot] at h
    | some root =>
      simp only [modify, hroot] at h
      injection h with h
      subst h
      exact ⟨r, root, rfl, hroot, rfl⟩

/-- C14: a node's accumulators change only when the node is closed. `Enter` leaves the
cycle and wall-clock totals of every node unchanged (a node it creates starts at zero);
`Leave` with `recursion_ > 0` in the current node leaves every total unchanged and the
node current; `Leave` with `recursion_ == 0` ends the timer of the current node and
touches no other node; teardown ends the timer of the root and touches no other node;
and ending a timer adds to the previous totals: `cycleelapsedtime_` grows by
`end reading - start snapshot` in `unsigned __int64` arithmetic. In a session on a fresh
profiler whose cycle readings (construction, calls `cs`, teardown `clkF`) never
decrease and stay below `2^64`, that addition is exact, without wrap-around, and the
cycle total of every node is non-decreasing from any point of the session to any later
one, teardown included (as long as no unmatched `Leave` has made `current_` null).
Likewise, when the counter readings never decrease and lie between `0` and `2^63` and
the frequency readings lie between `1` and `2^63`, the wall-clock total of every node
is non-decreasing (as doubles compare) from any point of the session to any later one,
teardown included. -/
theorem accumulators_change_only_on_close (clk0 clkF : Clock) (cs : List Call)
    (hclk0 : clk0.cycles < 18446744073709551616)
    (hsorted : cyclesSorted clk0.cycles (cs.map (fun c => c.clock.cycles) ++ [clkF.cycles])) :
    (∀ (p q : IProfiler) (name : String) (clk : Clock), Enter p name clk = some q →
      q.heap.map PerfNode.totals = p.heap.map PerfNode.totals ∨
      q.heap.map PerfNode.totals = p.heap.map PerfNode.totals ++ [(0, Double.fin 0)]) ∧
    (∀ (p q : IProfiler) (clk : Clock), Leave p clk = some q →
      ∃ (c : Nat) (cur : PerfNode), p.current_ = some c ∧ p.heap[c]? = some cur ∧
        ((cur.recursion_ ≠ 0 ∧ q.current_ = some c ∧
            q.heap.map PerfNode.totals = p.heap.map PerfNode.totals) ∨
         (cur.recursion_ = 0 ∧ q.current_ = cur.parent_ ∧
            q.heap = p.heap.set c (cur.TimerEnd clk)))) ∧
    (∀ (p q : IProfiler) (clk : Clock), Finalize p clk = some q →
      ∃ (r : Nat) (root : PerfNode), p.root_ = some r ∧ p.heap[r]? = some root ∧
        q.heap = p.heap.set r (root.TimerEnd clk)) ∧
    (∀ (n : PerfNode) (clk : Clock),
      (n.TimerEnd clk).cycleelapsedtime_ =
        wrap64 (n.cycleelapsedtime_ +
          wrap64 (wrap64 clk.cycles + 18446744073709551616 - n.cyclestarttime_)) ∧
      (n.TimerEnd clk).qpcelapsedtime_ =
        Double.add n.qpcelapsedtime_
          (Double.div (Double.ofInt (wrapI64 (wrapI64 clk.counter - n.qpcstarttime_)))
            n.qpcfrequency_)) ∧
    (∀ (pre suf : List Call) (clk : Clock) (p : IProfiler) (c : Nat) (cur : PerfNode),
      cs = pre ++ Call.leave clk :: suf → run (IProfiler.new clk0) pre = some p →
      p.current_ = some c → p.heap[c]? = some cur → cur.recursion_ = 0 →
      cur.cyclestarttime_ ≤ clk.cycles ∧
      (cur.TimerEnd clk).cycleelapsedtime_ =
        cur.cycleelapsedtime_ + (clk.cycles - cur.cyclestarttime_)) ∧
    (∀ (pre suf : List Call) (p q : IProfiler), cs = pre ++ suf →
      run (IProfiler.new clk0) pre = some p → run (IProfiler.new clk0) cs = some q →
      ∀ (i : Nat) (n : PerfNode), p.heap[i]? = some n →
        ∃ n' : PerfNode, q.heap[i]? = some n' ∧ n.cycleelapsedtime_ ≤ n'.cycleelapsedtime_) ∧
    (∀ (p q : IProfiler), run (IProfiler.new clk0) cs = some p → p.current_ ≠ none →
      Finalize p clkF = some q →
      ∀ (i : Nat) (n : PerfNode), p.heap[i]? = some n →
        ∃ n' : PerfNode, q.heap[i]? = some n' ∧ n.cycleelapsedtime_ ≤ n'.cycleelapsedtime_) ∧
    (0 ≤ clk0.counter → clk0.counter < 9223372036854775808 →
      1 ≤ clk0.frequency → clk0.frequency < 9223372036854775808 →
      qpcSorted clk0.counter (cs.map Call.clock ++ [clkF]) →
      (∀ (pre suf : List Call) (p q : IProfiler), cs = pre ++ suf →
        run (IProfiler.new clk0) pre = some p → run (IProfiler.new clk0) cs = some q →
        ∀ (i : Nat) (n : PerfNode), p.heap[i]? = some n →
          ∃ n' : PerfNode, q.heap[i]? = some n' ∧
            Double.le n.qpcelapsedtime_ n'.qpcelapsedtime_ = true) ∧
      (∀ (p q : IProfiler), run (IProfiler.new clk0) cs = some p →
        Finalize p clkF = some q →
        ∀ (i : Nat) (n : PerfNode), p.heap[i]? = some n →
          ∃ n' : PerfNode, q.heap[i]? = some n' ∧
            Double.le n.qpcelapsedtime_ n'.qpcelapsedtime_ = true)) := by
  refine ⟨fun p q name clk h => Enter_totals h, fun p q clk h => Leave_totals h,
    fun p q clk h => Finalize_totals h, fun n clk => ⟨rfl, rfl⟩, ?_, ?_, ?_, ?_⟩
  · intro pre suf clk p c cur hsplit hp hc hcur hr
    subst hsplit
    have hs : cyclesSorted clk0.cycles (pre.map (fun c => c.clock.cycles) ++
        (clk.cycles :: (suf.map (fun c => c.clock.cycles) ++ [clkF.cycles]))) := by
      simpa [Call.clock] using hsorted
    obtain ⟨⟨T', _, hC, hs'⟩, _⟩ := run_cycles pre _ (Valid_new clk0) (CycInv_new clk0 hclk0) hs hp
    obtain ⟨h1, h2, _⟩ := cyclesSorted_cons hs'
    obtain ⟨a, _, d⟩ := hC.2 c cur hcur
    have hstart : cur.cyclestarttime_ ≤ clk.cycles := Nat.le_trans a h1
    exact ⟨hstart, TimerEnd_cycles cur clk hstart h2 (d c hc Anc.refl)⟩
  · intro pre suf p q hsplit hp hq i n hn
    subst hsplit
    have hs : cyclesSorted clk0.cycles (pre.map (fun c => c.clock.cycles) ++
        (suf.map (fun c => c.clock.cycles) ++ [clkF.cycles])) := by
      simpa using hsorted
    obtain ⟨⟨T', _, hC, hs'⟩, _⟩ := run_cycles pre _ (Valid_new clk0) (CycInv_new clk0 hclk0) hs hp
    have hv := Valid_run pre (Valid_new clk0) hp
    rw [run_append, hp] at hq
    exact (run_cycles suf _ hv hC hs' hq).2 i n hn
  · intro p q hp hcur hfin i n hn
    obtain ⟨⟨T', _, hC, hs'⟩, _⟩ := run_cycles cs _ (Valid_new clk0) (CycInv_new clk0 hclk0)
      hsorted hp
    obtain ⟨h1, h2, _⟩ := cyclesSorted_cons hs'
    obtain ⟨hT, hroot, hcv⟩ := Valid_run cs (Valid_new clk0) hp
    obtain ⟨r, root, hr, hrn, hqh⟩ := Finalize_totals hfin
    rw [hroot] at hr
    injection hr with hr
    subst hr
    have hrlt := lt_of_lookup hrn
    rw [hqh, getElem?_set_heap _ _ _ _ hrlt]
    by_cases hi : i = 0
    · subst hi
      rw [hrn] at hn
      injection hn with hn
      subst hn
      cases hc : p.current_ with
      | none => exact absurd hc hcur
      | some c =>
        obtain ⟨a, _, d⟩ := hC.2 0 root hrn
        have hopen := d c hc (Anc.root hT c (hcv c hc))
        refine ⟨root.TimerEnd clkF, if_pos rfl, ?_⟩
        rw [TimerEnd_cycles root clkF (Nat.le_trans a h1) h2 hopen]
        omega
    · exact ⟨n, by rw [if_neg hi]; exact hn, Nat.le_refl _⟩
  · intro hq0 hq1 hf0 hf1 hqs
    refine ⟨?_, ?_⟩
    · intro pre suf p q hsplit hp hq i n hn
      subst hsplit
      have hs : qpcSorted clk0.counter (pre.map Call.clock ++ (suf.map Call.clock ++ [clkF])) := by
        simpa using hqs
      have hv0 := Valid_new clk0
      have hQ0 := QpcInv_new clk0 hq0 hq1 hf0 hf1
      obtain ⟨⟨T', hQ, hs'⟩, _⟩ := run_qpc pre _ hv0 hQ0 hs hp
      obtain ⟨hS, _⟩ := run_settled pre _ hv0 hQ0 (Settled_new clk0) hs hp
      have hv := Valid_run pre hv0 hp
      rw [run_append, hp] at hq
      exact (run_settled suf _ hv hQ hS hs' hq).2 i n hn
    · intro p q hp hfin i n hn
      have hv0 := Valid_new clk0
      have hQ0 := QpcInv_new clk0 hq0 hq1 hf0 hf1
      obtain ⟨⟨T', hQ, hs'⟩, _⟩ := run_qpc cs _ hv0 hQ0 hqs hp
      obtain ⟨hS, _⟩ := run_settled cs _ hv0 hQ0 (Settled_new clk0) hqs hp
      obtain ⟨h1, h2, _⟩ := qpcSorted_cons hs'
      obtain ⟨r, root, _, hrn, hqh⟩ := Finalize_totals hfin
      have hrlt := lt_of_lookup hrn
      rw [hqh, getElem?_set_heap _ _ _ _ hrlt]
      by_cases hi : i = r
      · subst hi
        rw [hrn] at hn
        injection hn with hn
        subst hn
        obtain ⟨⟨y, hy, hy1, hy2⟩, b, d, _⟩ := hQ.2.2 i root hrn
        exact ⟨root.TimerEnd clkF, if_pos rfl,
          (TimerEnd_settled root clkF y hy hy1 hy2 b (le_trans d h1) h2.2.1 (hS i root hrn)).2⟩
      · exact ⟨n, by rw [if_neg hi]; exact hn, Double.le_of_settled (hS i n hn)⟩

/-- C14 on a session with a recursive re-entry of "A": the `Leave` at cycle 9 that closes
"A", entered at cycle 5, adds 4 cycles to its total of 0, and no cycle total of the
fresh profiler is larger than at the end of the session. -/
theorem accumulators_change_only_on_close_witness :
    (5 ≤ 9 ∧
      ((({ PerfNode.new "A" with parent_ := some 0 } : PerfNode).TimerStart ⟨10, 1, 5⟩).TimerEnd
        ⟨10, 4, 9⟩).cycleelapsedtime_ = 0 + (9 - 5)) ∧
    ∃ q : IProfiler,
      run (IProfiler.new ⟨10, 0, 0⟩)
        [Call.enter "A" ⟨10, 1, 5⟩, Call.enter "A" ⟨10, 2, 6⟩, Call.leave ⟨10, 3, 7⟩,
         Call.leave ⟨10, 4, 9⟩] = some q ∧
      ∀ (i : Nat) (n : PerfNode), (IProfiler.new ⟨10, 0, 0⟩).heap[i]? = some n →
        ∃ n' : PerfNode, q.heap[i]? = some n' ∧ n.cycleelapsedtime_ ≤ n'.cycleelapsedtime_ := by
  have hs : cyclesSorted (⟨10, 0, 0⟩ : Clock).cycles
      ([Call.enter "A" ⟨10, 1, 5⟩, Call.enter "A" ⟨10, 2, 6⟩, Call.leave ⟨10, 3, 7⟩,
        Call.leave ⟨10, 4, 9⟩].map (fun c => c.clock.cycles) ++ [(⟨10, 5, 12⟩ : Clock).cycles]) :=
    ⟨by simp [Call.clock], by simp [Call.clock]⟩
  obtain ⟨q, hq⟩ : ∃ q, run (IProfiler.new ⟨10, 0, 0⟩)
      [Call.enter "A" ⟨10, 1, 5⟩, Call.enter "A" ⟨10, 2, 6⟩, Call.leave ⟨10, 3, 7⟩,
       Call.leave ⟨10, 4, 9⟩] = some q :=
    Option.isSome_iff_exists.mp (by decide!)
  refine ⟨?_, q, hq, ?_⟩
  · exact (accumulators_change_only_on_close ⟨10, 0, 0⟩ ⟨10, 5, 12⟩ _ (by decide) hs).2.2.2.2.1
      [Call.enter "A" ⟨10, 1, 5⟩, Call.enter "A" ⟨10, 2, 6⟩, Call.leave ⟨10, 3, 7⟩] []
      ⟨10, 4, 9⟩
      { heap := [({ (PerfNode.new "Root").TimerStart ⟨10, 0, 0⟩ with children_ := [1] } : PerfNode),
                 (({ PerfNode.new "A" with parent_ := some 0 } : PerfNode).TimerStart ⟨10, 1, 5⟩)],
        nodelist_ := [0, 0, 1], root_ := some 0, current_ := some 1, level_ := 1 }
      1 (({ PerfNode.new "A" with parent_ := some 0 } : PerfNode).TimerStart ⟨10, 1, 5⟩)
      rfl (by decide!) rfl rfl rfl
  · exact (accumulators_change_only_on_close ⟨10, 0, 0⟩ ⟨10, 5, 12⟩ _ (by decide) hs).2.2.2.2.2.1
      [] _ (IProfiler.new ⟨10, 0, 0⟩) q rfl rfl hq

/-! ## Recursion continuation -/

/-- C16: recursion continuation touches only counters. When `Enter(name)` is called
with `name` equal to the name of the current node, the new state is the old one with
`level_` incremented and, in the current node alone, `recursion_` incremented (both as
`unsigned int`): no node is created, `nodelist_`, `root_`, `current_`, every other node
and every other field of the current node (its `children_`, `calls_`, timer snapshots
and accumulators) are as before. When `Leave()` is called with `recursion_` of the
current node non-zero, the new state is the old one with `level_` and that `recursion_`
decremented: the node stays current and its timer is not ended. -/
theorem recursion_touches_only_counters (p : IProfiler) (c : Nat) (cur : PerfNode)
    (hc : p.current_ = some c) (hcur : p.heap[c]? = some cur) :
    (∀ name clk, cur.function_name_ = name →
      Enter p name clk = some
        { heap := p.heap.set c { cur with recursion_ := wrap32 (cur.recursion_ + 1) },
          nodelist_ := p.nodelist_, root_ := p.root_, current_ := p.current_,
          level_ := wrap32 (p.level_ + 1) } ∧
      (p.heap.set c { cur with recursion_ := wrap32 (cur.recursion_ + 1) }).length =
        p.heap.length ∧
      (cur.recursion_ + 1 < 4294967296 → wrap32 (cur.recursion_ + 1) = cur.recursion_ + 1) ∧
      (p.level_ + 1 < 4294967296 → wrap32 (p.level_ + 1) = p.level_ + 1)) ∧
    (∀ clk, cur.recursion_ ≠ 0 →
      Leave p clk = some
        { heap := p.heap.set c { cur with recursion_ := wrap32 (cur.recursion_ + 4294967295) },
          nodelist_ := p.nodelist_, root_ := p.root_, current_ := p.current_,
          level_ := wrap32 (p.level_ + 4294967295) } ∧
      (cur.recursion_ < 4294967296 →
        wrap32 (cur.recursion_ + 4294967295) = cur.recursion_ - 1) ∧
      (0 < p.level_ → p.level_ < 4294967296 →
        wrap32 (p.level_ + 4294967295) = p.level_ - 1)) := by
  refine ⟨?_, ?_⟩
  · intro name clk hname
    refine ⟨Enter_rec p name clk c cur hc hcur hname, List.length_set _ _ _, ?_, ?_⟩
    · intro h; exact wrap32_of_lt h
    · intro h; exact wrap32_of_lt h
  · intro clk hr
    refine ⟨Leave_rec p clk c cur hc hcur hr, ?_, ?_⟩
    · intro h; unfold wrap32; omega
    · intro h1 h2; unfold wrap32; omega

/-- C16 on a fresh profiler: `Enter("Root")` and, on the state it yields, `Leave()`. -/
theorem recursion_touches_only_counters_witness :
    Enter (IProfiler.new ⟨10, 1, 5⟩) "Root" ⟨10, 2, 6⟩ = some
      { heap := (IProfiler.new ⟨10, 1, 5⟩).heap.set 0
          { (PerfNode.new "Root").TimerStart ⟨10, 1, 5⟩ with
            recursion_ := wrap32 (((PerfNode.new "Root").TimerStart ⟨10, 1, 5⟩).recursion_ + 1) },
        nodelist_ := [0, 0], root_ := some 0, current_ := some 0,
        level_ := wrap32 (0 + 1) } ∧
    Leave
        { heap := [{ (PerfNode.new "Root").TimerStart ⟨10, 1, 5⟩ with recursion_ := 1 }],
          nodelist_ := [0, 0], root_ := some 0, current_ := some 0, level_ := 1 }
        ⟨10, 3, 7⟩ = some
      { heap := [{ (PerfNode.new "Root").TimerStart ⟨10, 1, 5⟩ with recursion_ := 1 }].set 0
          { (PerfNode.new "Root").TimerStart ⟨10, 1, 5⟩ with
            recursion_ := wrap32 (1 + 4294967295) },
        nodelist_ := [0, 0], root_ := some 0, current_ := some 0,
        level_ := wrap32 (1 + 4294967295) } :=
  ⟨((recursion_touches_only_counters (IProfiler.new ⟨10, 1, 5⟩) 0
      ((PerfNode.new "Root").TimerStart ⟨10, 1, 5⟩) rfl rfl).1 "Root" ⟨10, 2, 6⟩ rfl).1,
   ((recursion_touches_only_counters
      { heap := [{ (PerfNode.new "Root").TimerStart ⟨10, 1, 5⟩ with recursion_ := 1 }],
        nodelist_ := [0, 0], root_ := some 0, current_ := some 0, level_ := 1 } 0
      { (PerfNode.new "Root").TimerStart ⟨10, 1, 5⟩ with recursion_ := 1 } rfl rfl).2
        ⟨10, 3, 7⟩ (by decide)).1⟩

/-! ## Well-formedness in the words of the specification -/

theorem Reach.lt_heap {t : Tree} {r : Nat} (h : WellFormed t r) {i : Nat} (hr : Reach t r i) :
    i < t.size := by
  induction hr with
  | root => exact h.rootNode
  | child _ hch ih => exact (h.owner _ ih _ hch).1

theorem Reach.grow_reach {t : Tree} {r : Nat} (h : WellFormed t r) (c : Nat) (name : String)
    {i : Nat} (hr : Reach t r i) : Reach (t.grow c name) r i := by
  induction hr with
  | root => exact Reach.root
  | @child j ch hj hch ih =>
    have hjlt : j < t.size := Reach.lt_heap h hj
    refine Reach.child ih ?_
    simp only [Tree.grow]
    by_cases hjc : j = c
    · subst hjc; rw [Function.update_same]; exact List.mem_append_left _ hch
    · rw [Function.update_noteq hjc, Function.update_noteq (Nat.ne_of_lt hjlt)]; exact hch

theorem Reach.with_rec {t : Tree} {r : Nat} (c k : Nat) {i : Nat} (hr : Reach t r i) :
    Reach (t.withRecursion c k) r i := by
  induction hr with
  | root => exact Reach.root
  | child _ hch ih => exact Reach.child ih hch

theorem WellFormed.of_rec {t : Tree} {r : Nat} (h : WellFormed t r) (c k : Nat) :
    WellFormed (t.withRecursion c k) r :=
  ⟨h.rootNode, h.rootParent, h.owner, h.once, h.single,
    fun i hi => Reach.with_rec c k (h.reach i hi), h.names⟩

theorem WellFormed.grow_wf {t : Tree} {r : Nat} (h : WellFormed t r) (c : Nat) (name : String)
    (hc : c < t.size) (hname : t.name c ≠ name) (hnone : ∀ ch ∈ t.children c, t.name ch ≠ name) :
    WellFormed (t.grow c name) r := by
  have hcs : c ≠ t.size := Nat.ne_of_lt hc
  have hrs : r ≠ t.size := Nat.ne_of_lt h.rootNode
  have howner : ∀ i, i < (t.grow c name).size → ∀ ch ∈ (t.grow c name).children i,
      ch < (t.grow c name).size ∧ (t.grow c name).parent ch = some i := by
    intro i hi ch hch
    simp only [Tree.grow] at hi hch ⊢
    by_cases hic : i = c
    · subst hic
      rw [Function.update_same] at hch
      rcases List.mem_append.mp hch with h1 | h1
      · obtain ⟨b, d⟩ := h.owner i hc ch h1
        refine ⟨by omega, ?_⟩
        rw [Function.update_noteq (Nat.ne_of_lt b)]; exact d
      · have : ch = t.size := by simpa using h1
        subst this
        exact ⟨by omega, by rw [Function.update_same]⟩
    · rw [Function.update_noteq hic] at hch
      by_cases his : i = t.size
      · subst his; rw [Function.update_same] at hch; cases hch
      · rw [Function.update_noteq his] at hch
        have hi2 : i < t.size := by omega
        obtain ⟨b, d⟩ := h.owner i hi2 ch hch
        refine ⟨by omega, ?_⟩
        rw [Function.update_noteq (Nat.ne_of_lt b)]; exact d
  refine ⟨?_, ?_, howner, ?_, ?_, ?_, ?_⟩
  · simp only [Tree.grow]; have := h.rootNode; omega
  · simp only [Tree.grow]
    rw [Function.update_noteq hrs]; exact h.rootParent
  · intro i hi
    simp only [Tree.grow] at hi ⊢
    by_cases hic : i = c
    · subst hic
      rw [Function.update_same]
      refine List.Nodup.append (h.once i hc) (List.nodup_singleton _) ?_
      intro x hx hx2
      have : x = t.size := by simpa using hx2
      subst this
      exact Nat.lt_irrefl _ (h.owner i hc _ hx).1
    · rw [Function.update_noteq hic]
      by_cases his : i = t.size
      · subst his; rw [Function.update_same]; exact List.nodup_nil
      · rw [Function.update_noteq his]
        exact h.once i (by omega)
  · intro i j hi hj ch hi2 hj2
    have h1 := (howner i hi ch hi2).2
    have h2 := (howner j hj ch hj2).2
    rw [h1] at h2
    exact Option.some.inj h2
  · intro i hi
    simp only [Tree.grow] at hi
    by_cases his : i = t.size
    · subst his
      refine Reach.child (Reach.grow_reach h c name (h.reach c hc)) ?_
      simp only [Tree.grow]
      rw [Function.update_same]
      exact List.mem_append_right _ (List.mem_singleton_self _)
    · exact Reach.grow_reach h c name (h.reach i (by omega))
  · intro i hi
    simp only [Tree.grow] at hi ⊢
    have key : ∀ l : List Nat, (∀ x ∈ l, x < t.size) →
        l.Pairwise (fun a b => t.name a ≠ t.name b) →
        l.Pairwise (fun a b => Function.update t.name t.size name a ≠
          Function.update t.name t.size name b) := by
      intro l hl hp
      refine List.Pairwise.imp_of_mem ?_ hp
      intro a b ha hb hab
      rw [Function.update_noteq (Nat.ne_of_lt (hl a ha)),
        Function.update_noteq (Nat.ne_of_lt (hl b hb))]
      exact hab
    by_cases hic : i = c
    · subst hic
      rw [Function.update_same]
      refine ⟨?_, ?_⟩
      · rw [List.pairwise_append]
        refine ⟨key _ (fun x hx => (h.owner i hc x hx).1) (h.names i hc).1, by simp, ?_⟩
        intro a ha b hb
        have : b = t.size := by simpa using hb
        subst this
        rw [Function.update_same, Function.update_noteq (Nat.ne_of_lt (h.owner i hc a ha).1)]
        exact hnone a ha
      · intro ch hch
        rw [Function.update_noteq hcs]
        rcases List.mem_append.mp hch with h1 | h1
        · rw [Function.update_noteq (Nat.ne_of_lt (h.owner i hc ch h1).1)]
          exact (h.names i hc).2 ch h1
        · have : ch = t.size := by simpa using h1
          subst this
          rw [Function.update_same]
          exact fun e => hname e.symm
    · rw [Function.update_noteq hic]
      by_cases his : i = t.size
      · subst his
        rw [Function.update_same]
        exact ⟨List.Pairwise.nil, fun ch hch => by cases hch⟩
      · rw [Function.update_noteq his]
        have hi2 : i < t.size := by omega
        refine ⟨key _ (fun x hx => (h.owner i hi2 x hx).1) (h.names i hi2).1, ?_⟩
        intro ch hch
        rw [Function.update_noteq (Nat.ne_of_lt (h.owner i hi2 ch hch).1),
          Function.update_noteq his]
        exact (h.names i hi2).2 ch hch

theorem WellFormed_new (clk : Clock) : WellFormed (treeOf (IProfiler.new clk).heap) 0 := by
  have hsize : (treeOf (IProfiler.new clk).heap).size = 1 := rfl
  have hch : ∀ i, (treeOf (IProfiler.new clk).heap).children i = [] := by
    intro i
    cases i <;> simp [treeOf, IProfiler.new, PerfNode.new, PerfNode.TimerStart]
  refine ⟨by rw [hsize]; exact Nat.one_pos, rfl, ?_, ?_, ?_, ?_, ?_⟩
  · intro i _ ch h; rw [hch] at h; cases h
  · intro i _; rw [hch]; exact List.nodup_nil
  · intro i j _ _ ch h; rw [hch] at h; cases h
  · intro i hi
    rw [hsize] at hi
    have : i = 0 := by omega
    subst this
    exact Reach.root
  · intro i _
    rw [hch]
    exact ⟨List.Pairwise.nil, fun ch h => by cases h⟩

/-- C17: tree well-formedness is preserved by every `Enter` and every `Leave` on a
valid state. If the tree of `p` is well formed for the root `r` (the root has no
parent; every node in a `children_` list has `parent_` equal to the owner of the list
and appears in exactly one list, exactly once; every node is reachable from the root
through `children_`; names within a `children_` list are pairwise distinct and differ
from the owner's name) and `current_` points to a node, then every `Enter` is defined
and yields a state with the same root, a well-formed tree and `current_` again at a
node, and every `Leave` is defined and yields a state with the same root and a
well-formed tree, `current_` being null or at a node. -/
theorem well_formedness_preserved (p : IProfiler) (r c : Nat) (hroot : p.root_ = some r)
    (hwf : WellFormed (treeOf p.heap) r) (hc : p.current_ = some c) (hlt : c < p.heap.length) :
    (∀ name clk, ∃ q, Enter p name clk = some q ∧ q.root_ = some r ∧
      WellFormed (treeOf q.heap) r ∧ ∃ c', q.current_ = some c' ∧ c' < q.heap.length) ∧
    (∀ clk, ∃ q, Leave p clk = some q ∧ q.root_ = some r ∧ WellFormed (treeOf q.heap) r ∧
      (q.current_ = none ∨ ∃ c', q.current_ = some c' ∧ c' < q.heap.length)) := by
  refine ⟨?_, ?_⟩
  · intro name clk
    obtain ⟨q, hq, hqroot, _, heff⟩ := Enter_cases p name clk c hc hlt
      (fun ch hch => (hwf.owner c hlt ch hch).1)
    refine ⟨q, hq, by rw [hqroot, hroot], ?_⟩
    rcases heff with ⟨_, hcur, ht⟩ | ⟨_, ch, hmem, _, hcur, ht⟩ | ⟨hname, hnone, hcur, ht⟩
    · have hsz : q.heap.length = p.heap.length := by
        have := congrArg Tree.size ht
        exact this
      exact ⟨by rw [ht]; exact hwf.of_rec _ _, c, hcur, by rw [hsz]; exact hlt⟩
    · have hsz : q.heap.length = p.heap.length := by
        have := congrArg Tree.size ht
        exact this
      exact ⟨by rw [ht]; exact hwf, ch, hcur, by rw [hsz]; exact (hwf.owner c hlt ch hmem).1⟩
    · have hsz : q.heap.length = p.heap.length + 1 := by
        have := congrArg Tree.size ht
        exact this
      refine ⟨by rw [ht]; exact hwf.grow_wf c name hlt hname hnone, p.heap.length, hcur, ?_⟩
      rw [hsz]; exact Nat.lt_succ_self _
  · intro clk
    obtain ⟨q, hq, hqroot, _, heff⟩ := Leave_cases p clk c hc hlt
    refine ⟨q, hq, by rw [hqroot, hroot], ?_⟩
    rcases heff with ⟨_, hcur, ht⟩ | ⟨_, hcur, ht⟩
    · have hsz : q.heap.length = p.heap.length := by
        have := congrArg Tree.size ht
        exact this
      exact ⟨by rw [ht]; exact hwf.of_rec _ _, Or.inr ⟨c, hcur, by rw [hsz]; exact hlt⟩⟩
    · have hsz : q.heap.length = p.heap.length := by
        have := congrArg Tree.size ht
        exact this
      refine ⟨by rw [ht]; exact hwf, ?_⟩
      cases hpar : (treeOf p.heap).parent c with
      | none => left; rw [hcur, hpar]
      | some j =>
        right
        refine ⟨j, by rw [hcur, hpar], ?_⟩
        rw [hsz]
        have hreach := hwf.reach c hlt
        cases hreach with
        | root => rw [hwf.rootParent] at hpar; cases hpar
        | @child i _ hi hch =>
          have hilt : i < (treeOf p.heap).size := Reach.lt_heap hwf hi
          have := (hwf.owner i hilt c hch).2
          rw [hpar] at this
          injection this with this
          subst this
          exact hilt

/-- C17 on the fresh profiler: its tree is well formed, and so are the trees after
`Enter("A")` and after `Leave()`. -/
theorem well_formedness_preserved_witness :
    WellFormed (treeOf (IProfiler.new ⟨10, 0, 0⟩).heap) 0 ∧
    (∃ q, Enter (IProfiler.new ⟨10, 0, 0⟩) "A" ⟨10, 1, 5⟩ = some q ∧ q.root_ = some 0 ∧
      WellFormed (treeOf q.heap) 0 ∧ ∃ c', q.current_ = some c' ∧ c' < q.heap.length) ∧
    (∃ q, Leave (IProfiler.new ⟨10, 0, 0⟩) ⟨10, 2, 6⟩ = some q ∧ q.root_ = some 0 ∧
      WellFormed (treeOf q.heap) 0 ∧
      (q.current_ = none ∨ ∃ c', q.current_ = some c' ∧ c' < q.heap.length)) :=
  ⟨WellFormed_new _,
   (well_formedness_preserved (IProfiler.new ⟨10, 0, 0⟩) 0 0 rfl (WellFormed_new _) rfl
      (by decide)).1 "A" ⟨10, 1, 5⟩,
   (well_formedness_preserved (IProfiler.new ⟨10, 0, 0⟩) 0 0 rfl (WellFormed_new _) rfl
      (by decide)).2 ⟨10, 2, 6⟩⟩

/-! ## The depth counter -/

theorem length_expand (t : Tree) : ∀ path : List Nat,
    (expand t path).length = path.length + (path.map t.recursion).sum
  | [] => rfl
  | i :: rest => by
    simp only [expand, List.length_append, List.length_replicate, length_expand t rest,
      List.length_cons, List.map_cons, List.sum_cons]
    omega

theorem depthAfter_le_peakDepth : ∀ (cs : List Call) (d d' : Nat),
    depthAfter d cs = some d' → d' ≤ peakDepth d cs := by
  intro cs
  induction cs with
  | nil =>
    intro d d' h
    simp only [depthAfter, Option.some.injEq] at h
    subst h
    exact Nat.le_refl _
  | cons c cs ih =>
    intro d d' h
    cases c with
    | enter name clk =>
      simp only [depthAfter] at h
      simp only [peakDepth]
      exact le_trans (ih _ _ h) (Nat.le_max_right _ _)
    | leave clk =>
      cases d with
      | zero => simp [depthAfter] at h
      | succ d =>
        simp only [depthAfter] at h
        simp only [peakDepth, Nat.add_sub_cancel]
        exact le_trans (ih _ _ h) (Nat.le_max_right _ _)

/-- C18 (amended): in every state reached from construction by a call sequence in which
no prefix holds more `Leave`s than `Enter`s and fewer than `2^32` `Enter`s are ever
outstanding, `level_` equals the number `d` of outstanding `Enter`s; the parent
pointers lead from `current_` to the root along a path `cur :: rest`, and `d` equals
the number of edges of that path plus the sum of `recursion_` over its nodes; every
node off the path has `recursion_ == 0`; and a `Leave()` that moves the cursor finds
`recursion_ == 0` in the node it closes. -/
theorem level_counts_outstanding_enters (clk0 : Clock) (cs : List Call) (d : Nat)
    (hnest : depthAfter 0 cs = some d) (hpeak : peakDepth 0 cs < 4294967296) :
    ∃ p cur rest, run (IProfiler.new clk0) cs = some p ∧ p.level_ = d ∧
      p.root_ = some 0 ∧ p.current_ = some cur ∧ Linked (treeOf p.heap) (cur :: rest) ∧
      d = rest.length + ((cur :: rest).map (treeOf p.heap).recursion).sum ∧
      (∀ i, i < p.heap.length → i ∉ cur :: rest → (treeOf p.heap).recursion i = 0) ∧
      (∀ clk q, Leave p clk = some q → q.current_ ≠ some cur →
        (treeOf p.heap).recursion cur = 0) := by
  obtain ⟨p, S, hp, hinv, hd⟩ := run_Inv cs (IProfiler.new clk0) [] (Inv_new clk0)
    (by simp only [List.length_nil, hnest]; exact Option.noConfusion) hpeak
  simp only [List.length_nil, hnest, Option.some.injEq] at hd
  have hdle : d ≤ peakDepth 0 cs := depthAfter_le_peakDepth cs 0 d hnest
  obtain ⟨hroot, hlevel, _, _, cur, hcur, rest, hlinked, hexp, hoff⟩ := hinv
  refine ⟨p, cur, rest, hp, ?_, hroot, hcur, hlinked, ?_, hoff, ?_⟩
  · rw [hlevel, ← hd]
    exact wrap32_of_lt (by omega)
  · have hlen := congrArg List.length hexp
    rw [length_expand, List.length_append, List.length_singleton, List.length_cons] at hlen
    omega
  · intro clk q hq hne
    by_contra hr
    have hlt : cur < p.heap.length := hlinked.bound cur (List.mem_cons_self _ _)
    obtain ⟨n, hn⟩ := lookup_of_lt p.heap cur hlt
    have hrn : n.recursion_ ≠ 0 := by
      rw [← (treeOf_lookup hn).2.2.2]; exact hr
    rw [Leave_rec p clk cur n hcur hn hrn] at hq
    injection hq with hq
    apply hne
    rw [← hq]
    exact hcur

/-- C18 on a session that is two calls deep in "main" and one in "parse". -/
theorem level_counts_outstanding_enters_witness :
    ∃ p cur rest, run (IProfiler.new ⟨10, 0, 0⟩)
        [Call.enter "main" ⟨10, 1, 5⟩, Call.enter "main" ⟨10, 2, 6⟩,
         Call.enter "parse" ⟨10, 3, 7⟩] = some p ∧ p.level_ = 3 ∧
      p.root_ = some 0 ∧ p.current_ = some cur ∧ Linked (treeOf p.heap) (cur :: rest) ∧
      3 = rest.length + ((cur :: rest).map (treeOf p.heap).recursion).sum ∧
      (∀ i, i < p.heap.length → i ∉ cur :: rest → (treeOf p.heap).recursion i = 0) ∧
      (∀ clk q, Leave p clk = some q → q.current_ ≠ some cur →
        (treeOf p.heap).recursion cur = 0) :=
  level_counts_outstanding_enters ⟨10, 0, 0⟩ _ 3 (by decide) (by decide)

/-- C18 fails as stated: after `2^32 + 1` nested `Enter("f")` on a fresh profiler, no
`Leave`, there are `2^32 + 1` outstanding `Enter`s, yet `level_` is `1` and the
`recursion_` of the node "f" is `0`: both counters have wrapped around. -/
theorem level_wraps_around :
    depthAfter 0 (List.replicate 4294967297 (Call.enter "f" ⟨10, 1, 5⟩)) = some 4294967297 ∧
    run (IProfiler.new ⟨10, 0, 0⟩) (List.replicate 4294967297 (Call.enter "f" ⟨10, 1, 5⟩)) =
      some { heap := [{ (PerfNode.new "Root").TimerStart ⟨10, 0, 0⟩ with children_ := [1] },
                      { PerfNode.new "f" with parent_ := some 0 }.TimerStart ⟨10, 1, 5⟩],
             nodelist_ := [0, 0, 1], root_ := some 0, current_ := some 1, level_ := 1 } := by
  refine ⟨?_, ?_⟩
  · have h := depthAfter_enters "f" (List.replicate 4294967297 (⟨10, 1, 5⟩ : Clock)) [] 0
    rw [List.append_nil, List.length_replicate] at h
    rw [replicate_enter, h]
    rfl
  · have e1 : List.replicate 4294967297 (Call.enter "f" ⟨10, 1, 5⟩) =
        Call.enter "f" ⟨10, 1, 5⟩ ::
          (List.replicate 4294967296 (⟨10, 1, 5⟩ : Clock)).map (Call.enter "f") := by
      rw [List.map_replicate]; rfl
    rw [e1, run_enter_cons _ (Enter_first "f" (by decide) ⟨10, 0, 0⟩ ⟨10, 1, 5⟩)]
    refine run_wrapped "f" 1 _ _
      (({ PerfNode.new "f" with parent_ := some 0 } : PerfNode).TimerStart ⟨10, 1, 5⟩)
      ?_ ?_ ?_ ?_ ?_ (List.length_replicate _ _)
    · rfl
    · rfl
    · rfl
    · show (0 : Nat) < 4294967296
      decide
    · show (1 : Nat) < 4294967296
      decide

/-! ## Independence of the clocks -/

theorem shape_lookup {h h' : List PerfNode} (hs : h.map PerfNode.shape = h'.map PerfNode.shape)
    (i : Nat) : (h[i]?).map PerfNode.shape = (h'[i]?).map PerfNode.shape := by
  rw [← List.getElem?_map, ← List.getElem?_map, hs]

theorem shape_set {h h' : List PerfNode} (hs : h.map PerfNode.shape = h'.map PerfNode.shape)
    (i : Nat) {n n' : PerfNode} (hn : n.shape = n'.shape) :
    (h.set i n).map PerfNode.shape = (h'.set i n').map PerfNode.shape := by
  rw [List.map_set, List.map_set, hs, hn]

theorem shape_fields {n n' : PerfNode} (h : n.shape = n'.shape) :
    n.function_name_ = n'.function_name_ ∧ n.children_ = n'.children_ ∧
    n.parent_ = n'.parent_ ∧ n.calls_ = n'.calls_ ∧ n.recursion_ = n'.recursion_ := by
  simpa [PerfNode.shape] using h

theorem shape_lookup_cases {h h' : List PerfNode}
    (hs : h.map PerfNode.shape = h'.map PerfNode.shape) (i : Nat) :
    (h[i]? = none ∧ h'[i]? = none) ∨
    ∃ n n', h[i]? = some n ∧ h'[i]? = some n' ∧ n.shape = n'.shape := by
  have := shape_lookup hs i
  cases h1 : h[i]? <;> cases h2 : h'[i]? <;> simp_all

theorem option_map_cases {α β : Type} {f g : α → β} {a b : Option α}
    (h : a.map f = b.map g) :
    (a = none ∧ b = none) ∨ ∃ x y, a = some x ∧ b = some y ∧ f x = g y := by
  cases a <;> cases b <;> simp_all

theorem modify_shape {h h' : List PerfNode} (hs : h.map PerfNode.shape = h'.map PerfNode.shape)
    (i : Nat) (f f' : PerfNode → PerfNode)
    (hf : ∀ n n' : PerfNode, n.shape = n'.shape → (f n).shape = (f' n').shape) :
    (modify h i f).map (List.map PerfNode.shape) = (modify h' i f').map (List.map PerfNode.shape) := by
  rcases shape_lookup_cases hs i with ⟨h1, h2⟩ | ⟨n, n', h1, h2, h3⟩
  · simp [modify, h1, h2]
  · simp only [modify, h1, h2, Option.map_some']
    rw [shape_set hs i (hf n n' h3)]

theorem findLoop_shape {h h' : List PerfNode} (hs : h.map PerfNode.shape = h'.map PerfNode.shape)
    (name : String) : ∀ children : List Nat,
    (findLoop h name children).map (fun r => (r.1.map PerfNode.shape, r.2)) =
      (findLoop h' name children).map (fun r => (r.1.map PerfNode.shape, r.2))
  | [] => by simp [findLoop, hs]
  | ch :: rest => by
    rcases shape_lookup_cases hs ch with ⟨h1, h2⟩ | ⟨n, n', h1, h2, h3⟩
    · simp [findLoop, h1, h2]
    · obtain ⟨e1, e2, e3, e4, e5⟩ := shape_fields h3
      by_cases hname : n.function_name_ = name
      · have hname' : n'.function_name_ = name := by rw [← e1]; exact hname
        simp only [findLoop, h1, h2, hname, hname', if_true, Option.map_some', Option.some.injEq,
          Prod.mk.injEq, and_true]
        apply shape_set hs
        simp [PerfNode.shape, e1, e2, e3, e4, e5]
      · have hname' : ¬ n'.function_name_ = name := by rw [← e1]; exact hname
        simp only [findLoop, h1, h2, hname, hname', if_false]
        exact findLoop_shape hs name rest

theorem enterNode_shape (p q : IProfiler) (node : Nat) (clk clk' : Clock)
    (h : p.shape = q.shape) :
    (enterNode p node clk).map IProfiler.shape = (enterNode q node clk').map IProfiler.shape := by
  simp only [IProfiler.shape, Prod.mk.injEq] at h
  obtain ⟨hs, hnl, hroot, hcur, hlevel⟩ := h
  have hm := modify_shape hs node (fun n => n.TimerStart clk)
    (fun n => n.TimerStart clk') (fun a b hab => by simpa using hab)
  rcases option_map_cases hm with ⟨m1, m2⟩ | ⟨x, y, m1, m2, hxy⟩
  · simp only [enterNode, m1, m2, Option.map_none']
  · simp only [enterNode, m1, m2, Option.map_some', IProfiler.shape, hxy, hnl, hroot, hlevel]

theorem createChild_shape (p q : IProfiler) (c : Nat) (name : String)
    (h : p.shape = q.shape) :
    (createChild p c name).map (fun r => (r.1.shape, r.2)) =
      (createChild q c name).map (fun r => (r.1.shape, r.2)) := by
  simp only [IProfiler.shape, Prod.mk.injEq] at h
  obtain ⟨hs, hnl, hroot, hcur, hlevel⟩ := h
  have hlen : p.heap.length = q.heap.length := by
    have := congrArg List.length hs
    simpa using this
  have hs3 : (p.heap ++ [PerfNode.new name]).map PerfNode.shape =
      (q.heap ++ [PerfNode.new name]).map PerfNode.shape := by
    simp [hs]
  have hm1 := modify_shape hs3 p.heap.length
    (fun n => { n with parent_ := p.current_ }) (fun n => { n with parent_ := q.current_ })
    (fun a b hab => by
      obtain ⟨a1, a2, a3, a4, a5⟩ := shape_fields hab
      simp [PerfNode.shape, a1, a2, a4, a5, hcur])
  simp only [createChild, CreateNode, ← hlen]
  rcases option_map_cases hm1 with ⟨m1, m2⟩ | ⟨g1, g2, m1, m2, hg⟩
  · simp only [m1, m2, Option.map_none']
  · simp only [m1, m2]
    have hm2 := modify_shape hg c
      (fun n => { n with children_ := n.children_ ++ [p.heap.length] })
      (fun n => { n with children_ := n.children_ ++ [p.heap.length] })
      (fun a b hab => by
        obtain ⟨a1, a2, a3, a4, a5⟩ := shape_fields hab
        simp [PerfNode.shape, a1, a2, a3, a4, a5])
    rcases option_map_cases hm2 with ⟨m3, m4⟩ | ⟨k1, k2, m3, m4, hk⟩
    · simp only [m3, m4, Option.map_none']
    · simp only [m3, m4, Option.map_some', IProfiler.shape, hk, hnl, hroot, hcur, hlevel]

theorem Enter_shape (p q : IProfiler) (name : String) (clk clk' : Clock)
    (h : p.shape = q.shape) :
    (Enter p name clk).map IProfiler.shape = (Enter q name clk').map IProfiler.shape := by
  have h0 := h
  simp only [IProfiler.shape, Prod.mk.injEq] at h
  obtain ⟨hs, hnl, hroot, hcur, hlevel⟩ := h
  unfold Enter
  simp only [hcur, hlevel]
  cases hc : q.current_ with
  | none => rfl
  | some c =>
    simp only
    rcases shape_lookup_cases hs c with ⟨h1, h2⟩ | ⟨n, n', h1, h2, h3⟩
    · simp [h1, h2]
    · obtain ⟨e1, e2, e3, e4, e5⟩ := shape_fields h3
      simp only [h1, h2, ← e1]
      by_cases hname : n.function_name_ = name
      · simp only [hname, if_true, modify, h1, h2, Option.map_some', IProfiler.shape,
          Option.some.injEq, Prod.mk.injEq, hnl, hroot, and_true]
        apply shape_set hs
        simp [PerfNode.shape, ← e1, e2, e3, e4, e5, hname]
      · simp only [hname, if_false, FindChildren, hcur, hc, h1, h2, ← e2]
        have hfl := findLoop_shape hs name n.children_
        rcases option_map_cases hfl with ⟨f1, f2⟩ | ⟨⟨heap1, res1⟩, ⟨heap2, res2⟩, f1, f2, hr⟩
        · simp only [f1, f2, Option.map_none']
        · simp only [Prod.mk.injEq] at hr
          obtain ⟨hs2, hr⟩ := hr
          subst hr
          simp only [f1, f2]
          have hsh : IProfiler.shape { heap := heap1, nodelist_ := p.nodelist_, root_ := p.root_, current_ := some c, level_ := wrap32 (q.level_ + 1) } =
              IProfiler.shape { heap := heap2, nodelist_ := q.nodelist_, root_ := q.root_, current_ := some c, level_ := wrap32 (q.level_ + 1) } := by
            simp only [IProfiler.shape, hs2, hnl, hroot]
          cases res1 with
          | some node => exact enterNode_shape _ _ node clk clk' hsh
          | none =>
            simp only
            have hcc := createChild_shape _ _ c name hsh
            rcases option_map_cases hcc with ⟨m1, m2⟩ | ⟨⟨p1, n1⟩, ⟨p2, n2⟩, m1, m2, hr⟩
            · simp only [m1, m2, Option.map_none']
            · simp only [Prod.mk.injEq] at hr
              obtain ⟨hp12, hn12⟩ := hr
              subst hn12
              simp only [m1, m2]
              exact enterNode_shape _ _ n1 clk clk' hp12

theorem Leave_shape (p q : IProfiler) (clk clk' : Clock) (h : p.shape = q.shape) :
    (Leave p clk).map IProfiler.shape = (Leave q clk').map IProfiler.shape := by
  simp only [IProfiler.shape, Prod.mk.injEq] at h
  obtain ⟨hs, hnl, hroot, hcur, hlevel⟩ := h
  unfold Leave
  simp only [hcur, hlevel]
  cases hc : q.current_ with
  | none => rfl
  | some c =>
    simp only
    rcases shape_lookup_cases hs c with ⟨h1, h2⟩ | ⟨n, n', h1, h2, h3⟩
    · simp [h1, h2]
    · obtain ⟨e1, e2, e3, e4, e5⟩ := shape_fields h3
      simp only [h1, h2, ← e5]
      by_cases hr : n.recursion_ = 0
      · simp only [hr, ne_eq, not_true_eq_false, if_false, modify, h1, h2, Option.map_some',
          IProfiler.shape, Option.some.injEq, Prod.mk.injEq, hnl, hroot, e3, and_true]
        apply shape_set hs
        simpa using h3
      · simp only [hr, ne_eq, not_false_eq_true, if_true, modify, h1, h2, Option.map_some',
          IProfiler.shape, Option.some.injEq, Prod.mk.injEq, hnl, hroot, and_true]
        apply shape_set hs
        simp [PerfNode.shape, e1, e2, e3, e4, e5]

theorem run_shape : ∀ (cs cs' : List Call) (p q : IProfiler), p.shape = q.shape →
    cs.map Call.scope = cs'.map Call.scope →
    (run p cs).map IProfiler.shape = (run q cs').map IProfiler.shape := by
  intro cs
  induction cs with
  | nil =>
    intro cs' p q h hcs
    cases cs' with
    | nil => simp only [run, Option.map_some', h]
    | cons c' cs' => simp at hcs
  | cons c cs ih =>
    intro cs' p q h hcs
    cases cs' with
    | nil => simp at hcs
    | cons c' cs' =>
      simp only [List.map_cons, List.cons.injEq] at hcs
      obtain ⟨hc, hcs⟩ := hcs
      have hstep : (step p c).map IProfiler.shape = (step q c').map IProfiler.shape := by
        cases c with
        | enter name clk =>
          cases c' with
          | enter name' clk' =>
            simp only [Call.scope, Option.some.injEq] at hc
            subst hc
            exact Enter_shape p q name clk clk' h
          | leave clk' => simp [Call.scope] at hc
        | leave clk =>
          cases c' with
          | enter name' clk' => simp [Call.scope] at hc
          | leave clk' => exact Leave_shape p q clk clk' h
      rcases option_map_cases hstep with ⟨m1, m2⟩ | ⟨p1, q1, m1, m2, h1⟩
      · simp only [run, m1, m2, Option.map_none']
      · simp only [run, m1, m2]
        exact ih cs' p1 q1 h1 hcs

/-- C19: the shape of the tree does not depend on the clocks. For every two call
sequences that agree up to the clock readings they carry (the same `Enter` names and
`Leave`s in the same order) and every two readings at construction, either both runs
are undefined or both end in states with identical node names, `children_` lists,
`parent_` pointers, `calls_` and `recursion_` in every node, and identical `nodelist_`,
`root_`, `current_` and `level_`; the timing snapshots and accumulators are the only
fields left out of the comparison. -/
theorem shape_independent_of_clocks (clk0 clk0' : Clock) (cs cs' : List Call)
    (hcalls : cs.map Call.scope = cs'.map Call.scope) :
    (run (IProfiler.new clk0) cs).map IProfiler.shape =
      (run (IProfiler.new clk0') cs').map IProfiler.shape :=
  run_shape cs cs' _ _ rfl hcalls

/-- C19 on a three-call session observed with two different sets of readings. -/
theorem shape_independent_of_clocks_witness :
    (run (IProfiler.new ⟨10, 0, 0⟩)
        [Call.enter "A" ⟨10, 1, 5⟩, Call.enter "A" ⟨10, 2, 6⟩, Call.leave ⟨10, 3, 7⟩]).map
      IProfiler.shape =
    (run (IProfiler.new ⟨3000, 77, 900⟩)
        [Call.enter "A" ⟨3000, 78, 150⟩, Call.enter "A" ⟨0, 2, 60000⟩, Call.leave ⟨1, 0, 3⟩]).map
      IProfiler.shape :=
  shape_independent_of_clocks _ _ _ _ rfl

/-! ## Scopes named like the sentinel -/

/-- On a profiler that holds the root alone, `d` recursive re-entries deep, a well-nested
sequence of `Enter("Root")` and `Leave()` only moves the two counters. -/
theorem run_root_only (clk0 : Clock) : ∀ (cs : List Call) (d d' : Nat),
    (∀ name clk, Call.enter name clk ∈ cs → name = "Root") →
    depthAfter d cs = some d' → peakDepth d cs < 4294967296 →
    run { heap := [{ (PerfNode.new "Root").TimerStart clk0 with recursion_ := d }],
          nodelist_ := [0, 0], root_ := some 0, current_ := some 0, level_ := d } cs =
      some { heap := [{ (PerfNode.new "Root").TimerStart clk0 with recursion_ := d' }],
             nodelist_ := [0, 0], root_ := some 0, current_ := some 0, level_ := d' } := by
  intro cs
  induction cs with
  | nil =>
    intro d d' _ hd _
    simp only [depthAfter, Option.some.injEq] at hd
    subst hd
    rfl
  | cons c cs ih =>
    intro d d' hroot hd hp
    have hroot' : ∀ name clk, Call.enter name clk ∈ cs → name = "Root" :=
      fun name clk h => hroot name clk (List.mem_cons_of_mem _ h)
    cases c with
    | enter name clk =>
      have hname : name = "Root" := hroot name clk (List.mem_cons_self _ _)
      subst hname
      simp only [depthAfter] at hd
      simp only [peakDepth] at hp
      have hp2 : peakDepth (d + 1) cs < 4294967296 := lt_of_le_of_lt (Nat.le_max_right _ _) hp
      have hb : d + 1 < 4294967296 := lt_of_le_of_lt (le_peakDepth _ _) hp2
      refine Eq.trans (run_enter_cons cs (Enter_rec _ "Root" clk 0
        { (PerfNode.new "Root").TimerStart clk0 with recursion_ := d } rfl rfl rfl)) ?_
      simp only [wrap32_of_lt hb, List.set_cons_zero]
      exact ih (d + 1) d' hroot' hd hp2
    | leave clk =>
      cases d with
      | zero => simp [depthAfter] at hd
      | succ d =>
        simp only [depthAfter] at hd
        simp only [peakDepth, Nat.add_sub_cancel] at hp
        have hp2 : peakDepth d cs < 4294967296 := lt_of_le_of_lt (Nat.le_max_right _ _) hp
        have hb : d + 1 < 4294967296 := lt_of_le_of_lt (Nat.le_max_left _ _) hp
        have hw : wrap32 (d + 1 + 4294967295) = d := by unfold wrap32; omega
        refine Eq.trans (run_leave_cons cs (Leave_rec _ clk 0
          { (PerfNode.new "Root").TimerStart clk0 with recursion_ := d + 1 } rfl rfl
          (Nat.succ_ne_zero d))) ?_
        simp only [hw, List.set_cons_zero]
        exact ih d d' hroot' hd hp2

/-- C20 (amended): a scope named like the sentinel is swallowed by the root. For every
sequence of `Enter("Root")` and `Leave()` calls on a fresh profiler in which no prefix
holds more `Leave`s than `Enter`s and fewer than `2^32` `Enter`s are ever outstanding,
the final state is the fresh state except for `level_` and the root's `recursion_`,
which both equal the number `d` of `Enter`s still outstanding: no node is created, the
root has no children, `calls_ == 1` and the timer snapshots taken at construction. In
particular one `Enter("Root")` only increments the two counters, the matching `Leave()`
only decrements them, and `n` nested (`n < 2^32`) or repeated pairs give back the fresh
state. -/
theorem root_named_scope_swallowed (clk0 : Clock) (cs : List Call) (d : Nat)
    (hroot : ∀ name clk, Call.enter name clk ∈ cs → name = "Root")
    (hnest : depthAfter 0 cs = some d) (hpeak : peakDepth 0 cs < 4294967296) :
    run (IProfiler.new clk0) cs =
      some { heap := [{ function_name_ := "Root", children_ := [], parent_ := none,
                        qpcfrequency_ := ((PerfNode.new "Root").TimerStart clk0).qpcfrequency_,
                        qpcelapsedtime_ := Double.fin 0,
                        qpcstarttime_ := ((PerfNode.new "Root").TimerStart clk0).qpcstarttime_,
                        qpcendtime_ := 0,
                        cyclestarttime_ := ((PerfNode.new "Root").TimerStart clk0).cyclestarttime_,
                        cycleendtime_ := 0, cycleelapsedtime_ := 0,
                        recursion_ := d, calls_ := 1 }],
             nodelist_ := [0, 0], root_ := some 0, current_ := some 0, level_ := d } :=
  run_root_only clk0 cs 0 d hroot hnest hpeak

/-- C20 on two nested pairs followed by one more pair. -/
theorem root_named_scope_swallowed_witness :
    run (IProfiler.new ⟨10, 1, 5⟩)
        [Call.enter "Root" ⟨10, 2, 6⟩, Call.enter "Root" ⟨10, 3, 7⟩, Call.leave ⟨10, 4, 8⟩,
         Call.leave ⟨10, 5, 9⟩, Call.enter "Root" ⟨10, 6, 10⟩, Call.leave ⟨10, 7, 11⟩] =
      some { heap := [{ function_name_ := "Root", children_ := [], parent_ := none,
                        qpcfrequency_ := ((PerfNode.new "Root").TimerStart ⟨10, 1, 5⟩).qpcfrequency_,
                        qpcelapsedtime_ := Double.fin 0,
                        qpcstarttime_ := ((PerfNode.new "Root").TimerStart ⟨10, 1, 5⟩).qpcstarttime_,
                        qpcendtime_ := 0,
                        cyclestarttime_ := ((PerfNode.new "Root").TimerStart ⟨10, 1, 5⟩).cyclestarttime_,
                        cycleendtime_ := 0, cycleelapsedtime_ := 0,
                        recursion_ := 0, calls_ := 1 }],
             nodelist_ := [0, 0], root_ := some 0, current_ := some 0, level_ := 0 } :=
  root_named_scope_swallowed ⟨10, 1, 5⟩ _ 0
    (by simp; rintro name clk (h | h | h) <;> exact h.1) (by decide) (by decide)

/-- C20 fails as stated at `n = 2^32` nested pairs: after `2^32` nested `Enter("Root")`
the root's `recursion_` has wrapped to zero, so the first `Leave()` ends the root's
timer and makes `current_` null, and the second `Leave()` dereferences it: the
well-nested sequence has no final state. -/
theorem root_named_scope_overflow :
    depthAfter 0 (List.replicate 4294967296 (Call.enter "Root" ⟨10, 2, 6⟩) ++
        List.replicate 4294967296 (Call.leave ⟨10, 3, 7⟩)) = some 0 ∧
    run (IProfiler.new ⟨10, 1, 5⟩)
        (List.replicate 4294967296 (Call.enter "Root" ⟨10, 2, 6⟩) ++
          List.replicate 4294967296 (Call.leave ⟨10, 3, 7⟩)) = none := by
  refine ⟨?_, ?_⟩
  · rw [replicate_enter, replicate_leave]
    exact depthAfter_balanced "Root" _ _ (by simp only [List.length_replicate])
  · have e2 : List.replicate 4294967296 (Call.leave ⟨10, 3, 7⟩) =
        Call.leave ⟨10, 3, 7⟩ :: Call.leave ⟨10, 3, 7⟩ ::
          (List.replicate 4294967294 (⟨10, 3, 7⟩ : Clock)).map Call.leave := by
      rw [List.map_replicate]; rfl
    rw [replicate_enter, e2, run_append,
      run_wrapped "Root" 0 _ (IProfiler.new ⟨10, 1, 5⟩)
        ((PerfNode.new "Root").TimerStart ⟨10, 1, 5⟩) rfl rfl rfl (by decide) (by decide)
        (List.length_replicate _ _),
      Option.bind,
      run_leave_cons _ (Leave_pop (IProfiler.new ⟨10, 1, 5⟩) ⟨10, 3, 7⟩ 0
        ((PerfNode.new "Root").TimerStart ⟨10, 1, 5⟩) rfl rfl rfl)]
    exact run_null _ _ rfl (List.cons_ne_nil _ _)

end CustomProfiler
